import Mathlib

/-!
Shallow embedding of the `python-fsa` repository, `src/python_fsa/automaton.py`
(class `StateMachine`) and `src/python_fsa/exceptions.py`, together with
theorems settling the frozen claims about the specification.

Modelling conventions:
* A Python `dict` is modelled as an insertion-ordered association list; all
  dictionaries handled by the library have distinct keys (Python guarantees
  this), which appears as `Nodup` hypotheses where proofs need it.
* Transition keys are strings, matching the repository's
  `TransitionMap = Dict[str, ...]` alias and every definition appearing in the
  repository (the divisibility factory stores `str(symbol)` keys and the test
  suite uses string keys throughout).  An input symbol passed to `__call__`
  may be an `int` or a `str`; the code first tries the symbol itself and then
  `str(symbol)` as a key.  Against string keys this collapses to a single
  lookup of the stringified symbol, which is how `Sym.toKey` models it.
* Mutation is modelled by explicit state passing; a raised exception is an
  `Except`/`Option` error value.  Where the Python code would raise `KeyError`
  / `IndexError` / `ValueError` inside `minimize` (all wrapped into
  `MinimizationError` by the `except Exception` handler there), the model
  returns `none` at the corresponding lookup.
* `start` and `accept` are required boolean fields on every state row and are
  modelled as structure fields; the transition mapping holds only the
  non-`start`/`accept` keys, mirroring how every algorithm in the source
  special-cases those two keys.
-/

namespace PythonFSA

/-- Decimal digit test for a character, as Python `str.isdigit` behaves on the
ASCII state names this library produces. -/
def isDigitChar (c : Char) : Bool := decide ('0' ≤ c) && decide (c ≤ '9')

/-- Numeric value of a decimal digit character. -/
def digitVal (c : Char) : Nat := c.toNat - '0'.toNat

/-- Parse a nonempty all-digit character list as a natural number, mirroring
Python `int(s)` on the suffix of a state name (and `str.isdigit` as the guard
used by the normalizer sort key): empty or non-digit input fails. -/
def parseNatAux : List Char → Nat → Option Nat
  | [], acc => some acc
  | c :: cs, acc =>
    if isDigitChar c then parseNatAux cs (acc * 10 + digitVal c) else none

/-- Parse of a digit string; `none` on the empty string or a non-digit, the
cases where Python `int()` raises `ValueError` (equivalently where `isdigit`
is false). -/
def parseNat : List Char → Option Nat
  | [] => none
  | cs => parseNatAux cs 0

/-- Decimal digit character for a value below ten. -/
def digitChar (d : Nat) : Char := Char.ofNat (48 + d)

/-- Fueled decimal rendering of a natural number, least significant digit
last; mirrors Python `str(n)` for naturals.  The fuel argument only serves
structural recursion; `n + 1` fuel always suffices. -/
def natStrAux : Nat → Nat → List Char
  | 0, _ => []
  | f + 1, n => if n < 10 then [digitChar n] else natStrAux f (n / 10) ++ [digitChar (n % 10)]

/-- Decimal string of a natural number, as Python `str(n)`. -/
def natStr (n : Nat) : String := ⟨natStrAux (n + 1) n⟩

/-- Canonical state name `S<i>`, as the f-strings `f"S{i}"` in the source. -/
def mkS (i : Nat) : String := "S" ++ natStr i

/-- A transition target: a single state name (DFA row) or a Python list of
state names (NFA row). -/
inductive Target where
  | single (t : String)
  | multi (ts : List String)
deriving DecidableEq, Repr

/-- One state row: ordered transition entries (symbol key to target) plus the
required `start` and `accept` flags. -/
structure Row where
  transitions : List (String × Target)
  start : Bool
  accept : Bool
deriving DecidableEq, Repr

/-- An FSA definition: insertion-ordered mapping from state name to row. -/
abbrev FSA := List (String × Row)

/-- The `StateMachine` instance state: the `fsa` table together with the
runtime fields `state`, `accept` and `is_min`. -/
structure StateMachine where
  fsa : FSA
  state : String
  accept : Bool
  is_min : Bool
deriving DecidableEq, Repr

instance {ε α : Type} [DecidableEq ε] [DecidableEq α] : DecidableEq (Except ε α) := fun x y =>
  match x, y with
  | .ok a, .ok b =>
    if h : a = b then .isTrue (by rw [h])
    else .isFalse (fun hc => h (Except.ok.inj hc))
  | .error a, .error b =>
    if h : a = b then .isTrue (by rw [h])
    else .isFalse (fun hc => h (Except.error.inj hc))
  | .ok _, .error _ => .isFalse (fun hc => Except.noConfusion hc)
  | .error _, .ok _ => .isFalse (fun hc => Except.noConfusion hc)

/-- Association-list lookup, the model of a Python dict lookup. -/
def alookup {α : Type} : List (String × α) → String → Option α
  | [], _ => none
  | p :: rest, k => if p.1 = k then some p.2 else alookup rest k

/-- Key-membership test, the model of `k in d`. -/
def hasKey {α : Type} (l : List (String × α)) (k : String) : Bool :=
  (alookup l k).isSome

/-- Row lookup with an empty default; every code path the claims exercise has
the looked-up state present (Python would raise `KeyError` otherwise). -/
def getRow (fsa : FSA) (s : String) : Row :=
  (alookup fsa s).getD ⟨[], false, false⟩

/-- The symbol keys of a row, in insertion order (the non-`start`/`accept`
keys of the Python row dict). -/
def rowSyms (r : Row) : List String := r.transitions.map (·.1)

/-- Exceptions that `StateMachine.__call__` can raise, carrying the values
interpolated into their messages.  `className` below records the Python class
of each: the multi-target failure is raised as the base class `FSAError`
directly (`exceptions.py` defines no other class for it). -/
inductive SimError where
  | invalidTransitionError (fromState : String) (inputSymbol : String)
  | fsaError (state : String) (numTargets : Nat) (inputSymbol : String)
deriving DecidableEq, Repr

/-- The Python exception class name of a raised simulator error. -/
def SimError.className : SimError → String
  | .invalidTransitionError _ _ => "InvalidTransitionError"
  | .fsaError _ _ _ => "FSAError"

/-- An input symbol handed to `__call__`: an `int` or a `str`. -/
inductive Sym where
  | int (n : Int) : Sym
  | str (s : String) : Sym
deriving DecidableEq, Repr

/-- Decimal string of an integer, as Python `str` on an `int`. -/
def intStr (n : Int) : String :=
  if n < 0 then "-" ++ natStr n.natAbs else natStr n.natAbs

/-- The dictionary key a symbol is looked up under.  The code tries `symbol`
and then `str(symbol)`; against the string keys used throughout the library
both probes coincide with the stringified symbol. -/
def Sym.toKey : Sym → String
  | .int n => intStr n
  | .str s => s

/-- Process one input symbol from a given current state: resolve the key,
fail with `InvalidTransitionError` when the row lacks it, unwrap a singleton
list target, and fail with the base `FSAError` on a list whose length is not
one.  Mirrors one iteration of the loop in `StateMachine.__call__`. -/
def processSymbol (fsa : FSA) (st : String) (sym : Sym) : Except SimError String :=
  match alookup (getRow fsa st).transitions sym.toKey with
  | none => .error (.invalidTransitionError st sym.toKey)
  | some (.single t) => .ok t
  | some (.multi ts) =>
    match ts with
    | [t] => .ok t
    | _ => .error (.fsaError st ts.length sym.toKey)

/-- Run the `__call__` symbol loop from a state: returns the state reached
together with the error, if any, that aborted the loop.  On an error the
returned state is the state before the failing symbol (prior symbols in the
same call already took effect), matching the in-place mutation of
`self.state`. -/
def callGo (fsa : FSA) : String → List Sym → String × Option SimError
  | st, [] => (st, none)
  | st, sym :: rest =>
    match processSymbol fsa st sym with
    | .error e => (st, some e)
    | .ok st2 => callGo fsa st2 rest

/-- The model of `StateMachine.__call__` on an already-flattened input list:
the machine after the call (reflecting the in-place mutation performed up to
the point of an error) together with the raised error, if any.  `accept` is
recomputed only after the whole loop, so it keeps its pre-call value when an
error is raised. -/
def call (m : StateMachine) (input : List Sym) : StateMachine × Option SimError :=
  match callGo m.fsa m.state input with
  | (st2, some e) => ({ m with state := st2 }, some e)
  | (st2, none) => ({ m with state := st2, accept := (getRow m.fsa st2).accept }, none)

/-- Sort key of a state name in `_normalize`: the numeric suffix when
`key[1:].isdigit()`, otherwise treated as infinity. -/
def suffixKey (s : String) : Option Nat := parseNat (s.data.drop 1)

/-- Strict comparison of normalizer sort keys, `none` playing the role of
`float("inf")`. -/
def keyLt : Option Nat → Option Nat → Bool
  | some m, some n => decide (m < n)
  | some _, none => true
  | none, _ => false

/-- Stable insertion for the normalizer sort: an element is placed before the
first existing element that is not strictly smaller, so equal keys keep their
original relative order, as Python `sorted` guarantees. -/
def sortIns (x : String) : List String → List String
  | [] => [x]
  | y :: ys => if keyLt (suffixKey y) (suffixKey x) then y :: sortIns x ys else x :: y :: ys

/-- Stable sort of the state names by numeric suffix, non-numeric names after
all numeric ones in original order; the model of the `sorted(...)` call in
`_normalize`. -/
def sortStates : List String → List String
  | [] => []
  | x :: xs => sortIns x (sortStates xs)

/-- The `name_mapping` of `_normalize`: the i-th name in sorted order maps to
`S<i>`. -/
def renameMap (fsa : FSA) : List (String × String) :=
  (sortStates (fsa.map (·.1))).enum.map (fun p => (p.2, mkS p.1))

/-- Option-valued map over a list, failing when any element fails; the model
of a Python loop that may raise. -/
def mapO {α β : Type} (f : α → Option β) : List α → Option (List β)
  | [] => some []
  | a :: as =>
    match f a with
    | none => none
    | some b =>
      match mapO f as with
      | none => none
      | some bs => some (b :: bs)

/-- Rewrite a target through the rename mapping; `none` models the `KeyError`
Python would raise on a target absent from the mapping. -/
def renameTarget (mp : List (String × String)) : Target → Option Target
  | .single t =>
    (match alookup mp t with
     | none => none
     | some t2 => some (.single t2))
  | .multi ts =>
    (match mapO (alookup mp) ts with
     | none => none
     | some ts2 => some (.multi ts2))

/-- Rewrite one row through the rename mapping. -/
def renameRow (mp : List (String × String)) (r : Row) : Option Row :=
  match mapO (fun q =>
      match renameTarget mp q.2 with
      | none => none
      | some t2 => some (q.1, t2)) r.transitions with
  | none => none
  | some tr => some { r with transitions := tr }

/-- The model of `StateMachine._normalize`: build the rename mapping from the
sorted name list, rebuild the table in original insertion order under the new
names, and rename the current `state` pointer.  `none` models a `KeyError`
(in particular the one raised when `self.state` is no longer a key, which is
reachable inside `minimize` after merging). -/
def normalize (m : StateMachine) : Option StateMachine :=
  let mp := renameMap m.fsa
  match mapO (fun p =>
      match alookup mp p.1, renameRow mp p.2 with
      | some nn, some r => some (nn, r)
      | _, _ => none) m.fsa with
  | none => none
  | some rows =>
    match alookup mp m.state with
    | none => none
    | some st => some { m with fsa := rows, state := st }

/-- All target state names of a row, in row iteration order, list targets
contributing their members in order. -/
def rowTargets (r : Row) : List String :=
  r.transitions.flatMap (fun q =>
    match q.2 with
    | .single t => [t]
    | .multi ts => ts)

/-- Breadth-first traversal of `remove_unreachable_states`, fueled: pop the
queue head, skip it when already visited, otherwise record it and enqueue its
row's targets that are not yet visited. -/
def bfsAux (fsa : FSA) : Nat → List String → List String → List String
  | 0, _, vis => vis
  | _ + 1, [], vis => vis
  | f + 1, c :: queue, vis =>
    if vis.contains c then bfsAux fsa f queue vis
    else
      let vis2 := vis ++ [c]
      let fresh := (rowTargets (getRow fsa c)).filter (fun t => !vis2.contains t)
      bfsAux fsa f (queue ++ fresh) vis2

/-- Total number of target occurrences in the table; used to bound the number
of BFS queue operations (each state is recorded at most once, and only a
recorded state enqueues its targets). -/
def totalTargets (fsa : FSA) : Nat :=
  (fsa.map (fun p => (rowTargets p.2).length)).sum

/-- Remaining target occurrences on the rows the BFS has not yet recorded;
the potential showing the fuel passed to the traversal suffices. -/
def unvisitedTargets (fsa : FSA) (vis : List String) : Nat :=
  ((fsa.filter (fun p => !vis.contains p.1)).map (fun p => (rowTargets p.2).length)).sum

/-- The set of states the BFS of `remove_unreachable_states` reaches,
starting (as the code does) from the current simulation state `self.state`,
not from the start state. -/
def reachableFrom (m : StateMachine) : List String :=
  bfsAux m.fsa (m.fsa.length + totalTargets m.fsa + 2) [m.state] []

/-- The model of `StateMachine.remove_unreachable_states`: keep exactly the
rows whose key the BFS from the current state reached, preserving insertion
order. -/
def removeUnreachable (m : StateMachine) : StateMachine :=
  { m with fsa := m.fsa.filter (fun p => (reachableFrom m).contains p.1) }

/-- The minimization table: an n-by-n Boolean matrix, `true` marking a pair
of states as distinguishable (the integer 1 in the source). -/
abbrev Table := List (List Bool)

/-- Positional list lookup. -/
def nth? {α : Type} : List α → Nat → Option α
  | [], _ => none
  | x :: _, 0 => some x
  | _ :: xs, n + 1 => nth? xs n

/-- Positional list update; out of range it is the identity. -/
def lset {α : Type} : List α → Nat → α → List α
  | [], _, _ => []
  | _ :: xs, 0, v => v :: xs
  | x :: xs, n + 1, v => x :: lset xs n v

/-- Table read `table[i][j]`; out-of-range reads default to `false` (Python
would raise `IndexError`, which cannot happen on the index ranges the
algorithm uses). -/
def tget (t : Table) (i j : Nat) : Bool :=
  (nth? ((nth? t i).getD []) j).getD false

/-- Table write `table[i][j] = v`; out of range it is the identity. -/
def tset (t : Table) (i j : Nat) (v : Bool) : Table :=
  match nth? t i with
  | some row => lset t i (lset row j v)
  | none => t

/-- Symmetric marking `table[i][j] = table[j][i] = 1`. -/
def mark (t : Table) (i j : Nat) : Table :=
  tset (tset t i j true) j i true

/-- The model of `_initialize_minimization_table`: an all-zero table with
every pair consisting of one accepting and one non-accepting state marked. -/
def initTable (n : Nat) (acc : List Nat) : Table :=
  let zeros := (List.range n).map (fun _ => (List.range n).map (fun _ => false))
  (List.range n).foldl
    (fun t i =>
      (List.range i).foldl
        (fun t2 j => if acc.contains i ≠ acc.contains j then mark t2 i j else t2)
        t)
    zeros

/-- Parse the index out of a state name, as `int(state_name[1:])`; `none`
models the `ValueError` on a name without an all-digit suffix. -/
def parseState (s : String) : Option Nat := parseNat (s.data.drop 1)

/-- Indices of the accepting states, as the set comprehension in `minimize`;
fails where `int()` would. -/
def acceptingList (fsa : FSA) : Option (List Nat) :=
  mapO (fun p => parseState p.1) (fsa.filter (·.2.accept))

/-- Resolve a transition target inside `_fill_minimization_table`: a list is
replaced by its first element (`target[0]`), whatever its length; `none`
models the `IndexError` on an empty list. -/
def resolveTarget : Target → Option String
  | .single t => some t
  | .multi ts => ts.head?

/-- The inner symbol loop of `_fill_minimization_table` for an unmarked pair
`(i, j)`: iterate the symbols of row `i` in order, look each up on row `j`
(`none` models the `KeyError` on a missing counterpart key), resolve list
targets to their first element, parse both target indices, and on finding a
pair marked in the pass snapshot `old`, mark `(i, j)` symmetrically and stop.
Returns the updated table and whether a mark was made. -/
def scanSyms (n : Nat) (old t : Table) (i j : Nat) (rowj : Row) :
    List (String × Target) → Option (Table × Bool)
  | [] => some (t, false)
  | (sym, ti) :: rest =>
    match alookup rowj.transitions sym with
    | none => none
    | some tj =>
      match resolveTarget ti with
      | none => none
      | some x =>
        match resolveTarget tj with
        | none => none
        | some y =>
          match parseState x with
          | none => none
          | some xi =>
            match parseState y with
            | none => none
            | some yj =>
              if n ≤ xi ∨ n ≤ yj then none
              else if tget old xi yj then some (mark t i j, true)
              else scanSyms n old t i j rowj rest

/-- The `for j in range(i)` loop of one pass: scan each still-unmarked pair
against the pass snapshot `old`, threading the current table and the
changed flag. -/
def passJ (fsa : FSA) (n : Nat) (old : Table) (i : Nat) :
    List Nat → Table × Bool → Option (Table × Bool)
  | [], acc => some acc
  | j :: js, (t, ch) =>
    if tget t i j then passJ fsa n old i js (t, ch)
    else
      match alookup fsa (mkS i), alookup fsa (mkS j) with
      | some rowi, some rowj =>
        match scanSyms n old t i j rowj rowi.transitions with
        | none => none
        | some (t2, marked) => passJ fsa n old i js (t2, ch || marked)
      | _, _ => none

/-- The `for i in range(num_states)` loop of one pass. -/
def passI (fsa : FSA) (n : Nat) (old : Table) :
    List Nat → Table × Bool → Option (Table × Bool)
  | [], acc => some acc
  | i :: is', acc =>
    match passJ fsa n old i (List.range i) acc with
    | none => none
    | some acc2 => passI fsa n old is' acc2

/-- One pass of the table-filling loop: snapshot `old_table`, scan every
unmarked pair, report whether anything changed. -/
def fillPass (fsa : FSA) (n : Nat) (t : Table) : Option (Table × Bool) :=
  passI fsa n t (List.range n) (t, false)

/-- The `while changed` fixpoint of `_fill_minimization_table`, fueled.  The
Python loop always terminates because each changed pass adds a mark and at
most `n * n` marks exist, so the `n * n + 2` fuel `minimize` passes is never
exhausted on the code's own runs. -/
def fillLoop (fsa : FSA) (n : Nat) : Nat → Table → Option Table
  | 0, _ => none
  | f + 1, t =>
    match fillPass fsa n t with
    | none => none
    | some (t2, ch) => if ch then fillLoop fsa n f t2 else some t2

/-- The model of `_find_equivalent_states`: for each index not yet processed,
gather it with every larger index unmarked against it, in ascending order. -/
def findEquivAux (t : Table) (n : Nat) : List Nat → List Nat → List (List Nat)
  | [], _ => []
  | i :: is', processed =>
    if processed.contains i then findEquivAux t n is' processed
    else
      let g := i :: (List.range n).filter (fun j => decide (i < j) && !tget t i j)
      g :: findEquivAux t n is' (processed ++ g)

/-- Equivalence groups read off the filled table. -/
def findEquiv (t : Table) (n : Nat) : List (List Nat) :=
  findEquivAux t n (List.range n) []

/-- Deletion of a state row, as `del self.fsa[key]`: `none` models the
`KeyError` when the key is absent (which happens when overlapping groups
delete the same state twice). -/
def delState (fsa : FSA) (k : String) : Option FSA :=
  if hasKey fsa k then some (fsa.filter (fun p => p.1 ≠ k)) else none

/-- Record the mapping entries and perform the deletions for the non-keep
members of one group. -/
def delMany (keep : String) : FSA → List (String × String) → List Nat →
    Option (FSA × List (String × String))
  | fsa, mp, [] => some (fsa, mp)
  | fsa, mp, idx :: rest =>
    match delState fsa (mkS idx) with
    | none => none
    | some fsa2 => delMany keep fsa2 (mp ++ [(mkS idx, keep)]) rest

/-- Walk the groups, building the `state_mapping` and deleting merged
states.  Groups from `findEquiv` are already ascending, so the code's
`sorted(group)` is the group itself. -/
def mergeMap : FSA → List (String × String) → List (List Nat) →
    Option (FSA × List (String × String))
  | fsa, mp, [] => some (fsa, mp)
  | fsa, mp, g :: gs =>
    match g with
    | [] => mergeMap fsa mp gs
    | [_] => mergeMap fsa mp gs
    | g0 :: g1 :: rest =>
      match delMany (mkS g0) fsa mp (g1 :: rest) with
      | none => none
      | some (fsa2, mp2) => mergeMap fsa2 mp2 gs

/-- Rewrite a target through the merge mapping, `state_mapping.get(t, t)`. -/
def renTgt (mp : List (String × String)) : Target → Target
  | .single t => .single ((alookup mp t).getD t)
  | .multi ts => .multi (ts.map (fun t => (alookup mp t).getD t))

/-- The model of `_merge_equivalent_states`: delete non-representative
members of each multi-member group, then rewrite every transition through
the resulting mapping. -/
def mergeGroups (fsa : FSA) (groups : List (List Nat)) : Option FSA :=
  match mergeMap fsa [] groups with
  | none => none
  | some (fsa2, mp) =>
    some (fsa2.map (fun p =>
      (p.1, { p.2 with transitions := p.2.transitions.map (fun q : String × Target => (q.1, renTgt mp q.2)) })))

/-- The single error `minimize` surfaces; every internal exception is wrapped
into `MinimizationError` by its `except Exception` handler. -/
inductive MinErr where
  | minimizationError
deriving DecidableEq, Repr

/-- The model of `StateMachine.minimize`: no-op on `is_min`, otherwise prune
unreachable states, normalize, build and fill the table, read off the
equivalence groups, merge, normalize again and set `is_min`.  Any internal
failure surfaces as `MinimizationError`. -/
def minimize (m : StateMachine) : Except MinErr StateMachine :=
  if m.is_min then .ok m
  else
    let m1 := removeUnreachable m
    match normalize m1 with
    | none => .error .minimizationError
    | some m2 =>
      match acceptingList m2.fsa with
      | none => .error .minimizationError
      | some acc =>
        let n := m2.fsa.length
        match fillLoop m2.fsa n (n * n + 2) (initTable n acc) with
        | none => .error .minimizationError
        | some tf =>
          match mergeGroups m2.fsa (findEquiv tf n) with
          | none => .error .minimizationError
          | some fsa3 =>
            match normalize { m2 with fsa := fsa3 } with
            | none => .error .minimizationError
            | some m4 => .ok { m4 with is_min := true }

/-- Errors `StateMachine.__init__` can raise. -/
inductive InitError where
  | emptyDefinition
  | invalidState (target : String)
  | startCount (found : Nat)
  | internalError
deriving DecidableEq, Repr

/-- Target-existence validation of `_validate_fsa_definition`: the first
transition target (or list member) that is not a key of the definition is
reported, in definition order. -/
def validateTargets (fsa : FSA) : Except InitError Unit :=
  let keys := fsa.map (·.1)
  let bad := fsa.flatMap (fun p => (rowTargets p.2).filter (fun t => !keys.contains t))
  match bad with
  | [] => .ok ()
  | t :: _ => .error (.invalidState t)

/-- The model of `StateMachine.__init__`: validate, require exactly one start
state, set the runtime fields and normalize.  `internalError` marks the
normalize failure path, unreachable for definitions that pass validation. -/
def init (fsa : FSA) : Except InitError StateMachine :=
  if fsa.isEmpty then .error .emptyDefinition
  else
    match validateTargets fsa with
    | .error e => .error e
    | .ok _ =>
      match fsa.filter (·.2.start) with
      | [p] =>
        let m0 : StateMachine :=
          { fsa := fsa, state := p.1, accept := (getRow fsa p.1).accept, is_min := false }
        match normalize m0 with
        | some m => .ok m
        | none => .error .internalError
      | l => .error (.startCount l.length)

/-- Code-point lexicographic comparison of character lists, as Python
compares strings. -/
def strLtB : List Char → List Char → Bool
  | [], [] => false
  | [], _ :: _ => true
  | _ :: _, [] => false
  | a :: as, b :: bs =>
    if a.toNat < b.toNat then true
    else if b.toNat < a.toNat then false
    else strLtB as bs

/-- Python string comparison `a < b`. -/
def strLt (a b : String) : Bool := strLtB a.data b.data

/-- Lexicographic insertion used to model Python `sorted` on strings. -/
def insLex (x : String) : List String → List String
  | [] => [x]
  | y :: ys => if strLt y x then y :: insLex x ys else x :: y :: ys

/-- Lexicographically sorted copy of a string list, as Python `sorted`. -/
def sortLex : List String → List String
  | [] => []
  | x :: xs => insLex x (sortLex xs)

/-- All symbol keys appearing on the named rows.  The source collects them in
a Python `set`, whose iteration order is unspecified; the model fixes
first-occurrence order, which only affects the insertion order of the
combined row, not its contents. -/
def combineSymbols (m : StateMachine) (names : List String) : List String :=
  names.foldl
    (fun acc nm =>
      (rowSyms (getRow m.fsa nm)).foldl
        (fun a s => if a.contains s then a else a ++ [s]) acc)
    []

/-- The union, as a set in first-occurrence order, of a symbol's targets over
the named rows that define it, lists contributing their members. -/
def gatherTargets (m : StateMachine) (names : List String) (symKey : String) : List String :=
  names.foldl
    (fun acc nm =>
      match alookup (getRow m.fsa nm).transitions symKey with
      | none => acc
      | some (.single t) => if acc.contains t then acc else acc ++ [t]
      | some (.multi ts) =>
        ts.foldl (fun a t => if a.contains t then a else a ++ [t]) acc)
    []

/-- The collapse step of `combine_states`: a one-member union becomes the
single target itself, any other union stays a (sorted) list. -/
def collapseTargets : List String → Target
  | [t] => .single t
  | l => .multi l

/-- The model of `StateMachine.combine_states`: validate that every name
exists (`InvalidStateError` on the first that does not), build the braced
comma-joined sorted name, and for each symbol on any input row take the union
of its targets, collapsed to the single member when the union is a singleton,
otherwise kept as a sorted list.  `start` and `accept` are the disjunctions
of the inputs.  The symbol-key fallback of the source (`symbol` if present on
the first row else `str(symbol)`) is the identity on the string keys
collected from the rows. -/
def combineStates (m : StateMachine) (names : List String) :
    Except String (String × Row) :=
  match names.find? (fun nm => !hasKey m.fsa nm) with
  | some nm => .error nm
  | none =>
    let cname := "\x7b" ++ String.intercalate "," (sortLex names) ++ "\x7d"
    let transitions := (combineSymbols m names).map (fun sk =>
      (sk, collapseTargets (sortLex (gatherTargets m names sk))))
    let row : Row :=
      { transitions := transitions
        start := names.any (fun nm => (getRow m.fsa nm).start)
        accept := names.any (fun nm => (getRow m.fsa nm).accept) }
    .ok (cname, row)

/-- The targets one named row contributes to a symbol's union in
`combine_states`: nothing when the row lacks the symbol, the single target,
or the members of a list target. -/
def symbolTargets (m : StateMachine) (nm : String) (sk : String) : List String :=
  match alookup (getRow m.fsa nm).transitions sk with
  | none => []
  | some (.single t) => [t]
  | some (.multi ts) => ts

/-! ### Derived predicates used to state the claims -/

/-- The names of the rows carrying `start = true`, in table order. -/
def startKeys (fsa : FSA) : List String :=
  (fsa.filter (·.2.start)).map (·.1)

/-- A machine whose simulation pointer rests on its unique start state, the
situation immediately after construction. -/
def FreshStart (m : StateMachine) : Prop :=
  startKeys m.fsa = [m.state]

/-- Replace a list target by its first element, the resolution
`_fill_minimization_table` applies; empty lists (excluded by the data model,
whose target sets are non-empty) are left alone. -/
def firstifyTarget : Target → Target
  | .single t => .single t
  | .multi (t :: _) => .single t
  | .multi [] => .multi []

/-- The automaton with every list target replaced by its first element. -/
def firstify (fsa : FSA) : FSA :=
  fsa.map (fun p =>
    (p.1, { p.2 with transitions := p.2.transitions.map (fun q => (q.1, firstifyTarget q.2)) }))

/-- No transition target is an empty list (the data model's target sets are
non-empty). -/
def NoEmptyLists (fsa : FSA) : Prop :=
  ∀ p ∈ fsa, ∀ q ∈ p.2.transitions, q.2 ≠ Target.multi []

/-- Well-formedness of an n-by-n minimization table. -/
def TableWF (t : Table) (n : Nat) : Prop :=
  t.length = n ∧ ∀ row ∈ t, row.length = n

/-- Index-level transition of the table of a normalized machine: the index
the scanned target of symbol key `s` on row `S<i>` parses to, exactly the
per-symbol computation of `_fill_minimization_table`. -/
def stepIdx (fsa : FSA) (i : Nat) (s : String) : Option Nat :=
  match alookup fsa (mkS i) with
  | none => none
  | some row =>
    match alookup row.transitions s with
    | none => none
    | some tgt =>
      match resolveTarget tgt with
      | none => none
      | some x => parseState x

/-- Acceptance flag of the row named `S<i>`. -/
def acceptIdx (fsa : FSA) (i : Nat) : Bool := (getRow fsa (mkS i)).accept

/-- Index-level run over a list of symbol keys. -/
def runIdx (fsa : FSA) : Nat → List String → Option Nat
  | i, [] => some i
  | i, s :: rest =>
    match stepIdx fsa i s with
    | none => none
    | some j => runIdx fsa j rest

/-- Two state indices are distinguishable: some word of symbol keys runs
from both and ends accepting from exactly one. -/
def Dist (fsa : FSA) (a b : Nat) : Prop :=
  ∃ u va vb, runIdx fsa a u = some va ∧ runIdx fsa b u = some vb ∧
    acceptIdx fsa va ≠ acceptIdx fsa vb

/-- Soundness invariant of the filling pipeline: every marked pair is
within range, off the diagonal, marked symmetrically, and genuinely
distinguishable. -/
def Sound (fsa : FSA) (n : Nat) (t : Table) : Prop :=
  ∀ a b, tget t a b = true →
    a < n ∧ b < n ∧ a ≠ b ∧ tget t b a = true ∧ Dist fsa a b

/-- The least index related (unmarked) to `a` in the filled table, the
representative its equivalence class is merged into. -/
def repIdx (t : Table) (n a : Nat) : Nat :=
  (((List.range n).filter (fun i => !tget t i a)).headD a)

/-- The non-head members `_find_equivalent_states` collects into the group
headed by `i`: the larger indices unmarked against `i`. -/
def groupTail (t : Table) (n i : Nat) : List Nat :=
  (List.range n).filter (fun j => decide (i < j) && !tget t i j)

/-- Whether a target is a single state name. -/
def Target.isSingle : Target → Bool
  | .single _ => true
  | .multi _ => false

/-- Every transition target of the table is a single state name (the
deterministic shape; a DFA row has one target per symbol). -/
def Deterministic (fsa : FSA) : Prop :=
  ∀ p ∈ fsa, ∀ q ∈ p.2.transitions, (q.2).isSingle = true

/-- All rows carry the same symbol set: every symbol of any row is a symbol
of every row.  This is the reading under which the source treats all rows as
having identical symbol sets. -/
def UniformSyms (fsa : FSA) : Prop :=
  ∀ p ∈ fsa, ∀ p2 ∈ fsa, ∀ s ∈ rowSyms p.2, s ∈ rowSyms p2.2

/-- Every transition target names a state of the table (the validator's
closure invariant). -/
def ClosedTargets (fsa : FSA) : Prop :=
  ∀ p ∈ fsa, ∀ t ∈ rowTargets p.2, t ∈ fsa.map (·.1)

/-- The facts available about the normalized machine and its table at the
fixpoint of the filling loop inside `minimize`. -/
structure MinCtx (fsa : FSA) (n : Nat) (T : Table) : Prop where
  hlen : fsa.length = n
  hkeys : ∀ k, k ∈ fsa.map (·.1) ↔ ∃ i, i < n ∧ k = mkS i
  hnd : (fsa.map (·.1)).Nodup
  hrows : ∀ p ∈ fsa, (p.2.transitions.map (·.1)).Nodup
  hdet : Deterministic fsa
  huni : UniformSyms fsa
  hcl : ClosedTargets fsa
  hwf : TableWF T n
  hfix : fillPass fsa n T = some (T, false)
  hsound : Sound fsa n T
  hacc : ∀ a b, a < n → b < n → tget T a b = false →
    acceptIdx fsa a = acceptIdx fsa b

/-! ### Concrete instances -/

/-- The 6-state Wikipedia DFA-minimization textbook example, exactly the
`pre` table of `tests/test_automaton.py::test_wikipedia_minimization_example`. -/
def wikiPre : FSA := [
  ("S0", ⟨[("0", .single "S1"), ("1", .single "S2")], true, false⟩),
  ("S1", ⟨[("0", .single "S0"), ("1", .single "S3")], false, false⟩),
  ("S2", ⟨[("0", .single "S4"), ("1", .single "S5")], false, true⟩),
  ("S3", ⟨[("0", .single "S4"), ("1", .single "S5")], false, true⟩),
  ("S4", ⟨[("0", .single "S4"), ("1", .single "S5")], false, true⟩),
  ("S5", ⟨[("0", .single "S5"), ("1", .single "S5")], false, false⟩)]

/-- The machine `StateMachine(wikiPre)` constructs. -/
def wikiM0 : StateMachine := ⟨wikiPre, "S0", false, false⟩

/-- The expected 3-state minimized table of the Wikipedia example. -/
def wikiExpected : FSA := [
  ("S0", ⟨[("0", .single "S0"), ("1", .single "S1")], true, false⟩),
  ("S1", ⟨[("0", .single "S1"), ("1", .single "S2")], false, true⟩),
  ("S2", ⟨[("0", .single "S2"), ("1", .single "S2")], false, false⟩)]

/-- The machine `minimize` produces from the Wikipedia example. -/
def wikiMinM : StateMachine := ⟨wikiExpected, "S0", false, true⟩

/-- A two-state chain: `S0` (start) steps to `S1` on `1`; `S1` loops. -/
def twoStateChain : FSA := [
  ("S0", ⟨[("1", .single "S1")], true, false⟩),
  ("S1", ⟨[("1", .single "S1")], false, true⟩)]

/-- The chain machine as constructed. -/
def chainM0 : StateMachine := ⟨twoStateChain, "S0", false, false⟩

/-- The chain machine after simulating the symbol `1`. -/
def chainM1 : StateMachine := ⟨twoStateChain, "S1", true, false⟩

/-- The chain machine after `minimize` (from fresh). -/
def chainMinM : StateMachine := ⟨twoStateChain, "S0", false, true⟩

/-- A valid two-state automaton whose rows carry different symbol sets: `S1`
defines the symbol `1` but `S0` does not, and the pair `(1, 0)` starts
unmarked (both states non-accepting). -/
def partialPair : FSA := [
  ("S0", ⟨[("0", .single "S1")], true, false⟩),
  ("S1", ⟨[("0", .single "S1"), ("1", .single "S1")], false, false⟩)]

/-- The machine constructed from `partialPair`. -/
def partialPairM : StateMachine := ⟨partialPair, "S0", false, false⟩

/-- An NFA-shaped machine: on symbol `0` state `S0` has the two-element
target list `["S1", "S0"]`. -/
def nfaTwo : FSA := [
  ("S0", ⟨[("0", .multi ["S1", "S0"]), ("1", .single "S0")], true, false⟩),
  ("S1", ⟨[("0", .single "S1"), ("1", .single "S1")], false, false⟩)]

/-- The machine constructed from `nfaTwo`. -/
def nfaTwoM : StateMachine := ⟨nfaTwo, "S0", false, false⟩

/-- A machine with a singleton list target on `S0`'s symbol `0`. -/
def nfaSingle : FSA := [
  ("S0", ⟨[("0", .multi ["S1"]), ("1", .single "S0")], true, false⟩),
  ("S1", ⟨[("0", .single "S1"), ("1", .single "S1")], false, true⟩)]

/-- The machine constructed from `nfaSingle`. -/
def nfaSingleM : StateMachine := ⟨nfaSingle, "S0", false, false⟩

/-- A host automaton containing the two rows of the spec's combiner example:
`S1` has row `{0: S1, 1: S1}` and `S2` has row `{0: S1, 1: S2}`. -/
def combHost : FSA := [
  ("S0", ⟨[("0", .single "S1"), ("1", .single "S2")], true, false⟩),
  ("S1", ⟨[("0", .single "S1"), ("1", .single "S1")], false, true⟩),
  ("S2", ⟨[("0", .single "S1"), ("1", .single "S2")], false, false⟩)]

/-- The machine constructed from `combHost`. -/
def combHostM : StateMachine := ⟨combHost, "S0", false, false⟩

/-- A valid, deterministic, fresh 5-state automaton with non-uniform symbol
sets (rows `S1` and `S4` after construction lack the symbol `b`) on which
`minimize()` returns normally but changes the accepted language. -/
def cexPre : FSA := [
  ("S0", ⟨[("a", .single "S3"), ("b", .single "S2")], true, true⟩),
  ("S2", ⟨[], false, false⟩),
  ("S3", ⟨[("a", .single "S5"), ("b", .single "S2")], false, true⟩),
  ("S4", ⟨[("a", .single "S4"), ("b", .single "S0")], false, true⟩),
  ("S5", ⟨[("a", .single "S4")], false, true⟩)]

/-- The machine constructed from `cexPre` (states renamed to `S0..S4`). -/
def cexM0 : StateMachine := ⟨[
  ("S0", ⟨[("a", .single "S2"), ("b", .single "S1")], true, true⟩),
  ("S1", ⟨[], false, false⟩),
  ("S2", ⟨[("a", .single "S4"), ("b", .single "S1")], false, true⟩),
  ("S3", ⟨[("a", .single "S3"), ("b", .single "S0")], false, true⟩),
  ("S4", ⟨[("a", .single "S3")], false, true⟩)], "S0", true, false⟩

/-- The machine `minimize cexM0` returns normally. -/
def cexMinM : StateMachine := ⟨[
  ("S0", ⟨[("a", .single "S0"), ("b", .single "S1")], true, true⟩),
  ("S1", ⟨[], false, false⟩),
  ("S2", ⟨[("a", .single "S2"), ("b", .single "S0")], false, true⟩)], "S0", true, true⟩

/-- The word `a a a b`. -/
def cexWord : List Sym := [.str "a", .str "a", .str "a", .str "b"]

/-! ### Helper lemmas -/

/-- Splitting the `__call__` symbol loop at a list append. -/
theorem callGo_append (fsa : FSA) (st : String) (xs ys : List Sym) :
    callGo fsa st (xs ++ ys) =
      match callGo fsa st xs with
      | (s, none) => callGo fsa s ys
      | (s, some e) => (s, some e) := by
  induction xs generalizing st with
  | nil => simp [callGo]
  | cons x xs ih =>
    simp only [List.cons_append, callGo]
    cases processSymbol fsa st x with
    | error e => rfl
    | ok st2 => exact ih st2

/-- A successful `minimize` always returns a machine with `is_min` set. -/
theorem minimize_ok_is_min (m m2 : StateMachine) (h : minimize m = .ok m2) :
    m2.is_min = true := by
  unfold minimize at h
  cases hmin : m.is_min with
  | true =>
    rw [hmin] at h
    simp at h
    rw [← h]
    exact hmin
  | false =>
    rw [hmin] at h
    simp only [Bool.false_eq_true, if_false] at h
    repeat' split at h
    all_goals simp_all
    all_goals rw [← h]

/-! ### Claim C9 -/

/-- Claim C9 counterexample: in the actual minimized Wikipedia automaton the
accepting state is `S1`, not `S2` as the claim asserts: the image of the old
accepting class `{S2, S3, S4}` is the new `S1`, while the new `S2` (the
image of the old trap state `S5`) is non-accepting, exactly as the test
suite's `expected_post` records. -/
theorem wikipedia_s2_accepting_counterexample :
    minimize wikiM0 = .ok wikiMinM ∧
    ¬((getRow wikiMinM.fsa "S2").accept = true) :=
  ⟨rfl, by decide⟩

/-- Claim C9 (amended): minimizing the 6-state Wikipedia textbook automaton
(start `S0`, accepting `{S2, S3, S4}`) produces exactly 3 states with the
expected transition table, start `S0` non-accepting, `S1` accepting and `S2`
non-accepting. -/
theorem minimize_wikipedia_example :
    init wikiPre = .ok wikiM0 ∧
    minimize wikiM0 = .ok wikiMinM ∧
    wikiMinM.fsa = wikiExpected ∧
    wikiMinM.fsa.length = 3 ∧
    startKeys wikiMinM.fsa = ["S0"] ∧
    (getRow wikiMinM.fsa "S0").accept = false ∧
    (getRow wikiMinM.fsa "S1").accept = true ∧
    (getRow wikiMinM.fsa "S2").accept = false :=
  ⟨rfl, rfl, rfl, rfl, rfl, by decide, by decide, by decide⟩

/-! ### Claim C3 -/

/-- Claim C3 (code bug): `remove_unreachable_states` traverses from the
current simulation state, not from the start state.  On the two-state chain,
after simulating one symbol the pointer rests on `S1`; pruning then deletes
the start state `S0` even though `S0` is the unique `start = true` state,
contradicting the method's own docstring ("not reachable from the start
state"). -/
theorem removeUnreachable_deletes_start_state :
    init twoStateChain = .ok chainM0 ∧
    call chainM0 [.int 1] = (chainM1, none) ∧
    hasKey chainM1.fsa "S0" = true ∧
    (getRow chainM1.fsa "S0").start = true ∧
    hasKey (removeUnreachable chainM1).fsa "S0" = false ∧
    (removeUnreachable chainM1).fsa = [("S1", ⟨[("1", .single "S1")], false, true⟩)] :=
  ⟨rfl, rfl, rfl, rfl, rfl, rfl⟩

/-! ### Claim C2 -/

/-- Claim C2 counterexample: on `partialPair` the pair `(S1, S0)` starts
unmarked, symbol `1` is present on row `S1` and absent on row `S0`, and
`minimize` raises `MinimizationError` (the `KeyError` of the missing lookup,
wrapped) instead of marking the pair. -/
theorem fill_missing_symbol_errors_counterexample :
    init partialPair = .ok partialPairM ∧
    alookup (getRow partialPairM.fsa "S1").transitions "1" = some (.single "S1") ∧
    alookup (getRow partialPairM.fsa "S0").transitions "1" = none ∧
    minimize partialPairM = .error .minimizationError :=
  ⟨rfl, rfl, rfl, rfl⟩

/-! ### Claim C6 -/

/-- Claim C6 counterexample: simulating symbol `0` on the NFA-shaped machine
raises the generic base class `FSAError`, not an exception class named
`AmbiguousTransition` (no such class exists in `exceptions.py`). -/
theorem ambiguous_transition_class_counterexample :
    init nfaTwo = .ok nfaTwoM ∧
    call nfaTwoM [.int 0] = (nfaTwoM, some (.fsaError "S0" 2 "0")) ∧
    SimError.className (.fsaError "S0" 2 "0") = "FSAError" ∧
    SimError.className (.fsaError "S0" 2 "0") ≠ "AmbiguousTransition" :=
  ⟨rfl, rfl, rfl, by decide⟩

/-- Claim C6 (amended): a list target whose length is not one makes the
simulator fail with the generic `FSAError` carrying the state, the target
count and the symbol, leaving the machine unchanged; a list of size exactly
one does not fail and is treated as its sole member. -/
theorem call_multi_target_fsaError (m : StateMachine) (sym : Sym) (ts : List String)
    (h : alookup (getRow m.fsa m.state).transitions sym.toKey = some (.multi ts)) :
    (ts.length ≠ 1 →
      call m [sym] = (m, some (.fsaError m.state ts.length sym.toKey))) ∧
    (∀ t, ts = [t] →
      call m [sym] = ({ m with state := t, accept := (getRow m.fsa t).accept }, none)) := by
  constructor
  · intro hlen
    match ts, hlen with
    | [], _ => simp [call, callGo, processSymbol, h]
    | t1 :: t2 :: rest, _ => simp [call, callGo, processSymbol, h]
    | [t], hl => exact absurd rfl hl
  · intro t ht
    subst ht
    simp [call, callGo, processSymbol, h]

/-- Witness for the amended C6 theorem: the two-element list on `nfaTwoM`
fails with `FSAError`, and the singleton list on `nfaSingleM` steps to its
sole member. -/
theorem call_multi_target_fsaError_witness :
    call nfaTwoM [.int 0] = (nfaTwoM, some (.fsaError "S0" 2 "0")) ∧
    call nfaSingleM [.int 0] = ({ nfaSingleM with state := "S1", accept := true }, none) :=
  ⟨(call_multi_target_fsaError nfaTwoM (.int 0) ["S1", "S0"] rfl).1 (by decide),
   (call_multi_target_fsaError nfaSingleM (.int 0) ["S1"] rfl).2 "S1" rfl⟩

/-! ### Claim C5 -/

/-- Claim C5: when the run reaches a symbol absent from the current state's
row (under its stringified key, the form under which both probes of the code
coincide for string-keyed rows), the call fails with
`InvalidTransitionError` naming that state and symbol, and the machine keeps
the state reached before that symbol and its pre-call `accept` value. -/
theorem call_undefined_symbol_invalid_transition
    (m : StateMachine) (pre : List Sym) (sym : Sym) (post : List Sym) (s2 : String)
    (hpre : callGo m.fsa m.state pre = (s2, none))
    (habs : alookup (getRow m.fsa s2).transitions sym.toKey = none) :
    call m (pre ++ sym :: post) =
      ({ m with state := s2 }, some (.invalidTransitionError s2 sym.toKey)) := by
  have hgo : callGo m.fsa m.state (pre ++ sym :: post) =
      (s2, some (.invalidTransitionError s2 sym.toKey)) := by
    rw [callGo_append, hpre]
    simp [callGo, processSymbol, habs]
  simp [call, hgo]

/-- Witness for C5: on the chain machine, after the defined symbol `1`, the
undefined symbol `2` raises `InvalidTransitionError("S1", "2")` and leaves
the state at `S1` and `accept` at the pre-call value `false`. -/
theorem call_undefined_symbol_invalid_transition_witness :
    call chainM0 [Sym.int 1, Sym.int 2] =
      ({ chainM0 with state := "S1" }, some (.invalidTransitionError "S1" "2")) :=
  call_undefined_symbol_invalid_transition chainM0 [Sym.int 1] (Sym.int 2) [] "S1" rfl rfl

/-! ### Claim C8 -/

/-- Claim C8: minimization is idempotent.  A machine returned by a
successful `minimize` has `is_min` set, and calling `minimize` on any
machine whose `is_min` flag is set returns the same machine with its state
table structurally unchanged; hence `minimize (minimize A) = minimize A`. -/
theorem minimize_idempotent :
    (∀ m m2, minimize m = .ok m2 → minimize m2 = .ok m2) ∧
    (∀ m, m.is_min = true → minimize m = .ok m) := by
  constructor
  · intro m m2 h
    have h2 := minimize_ok_is_min m m2 h
    simp [minimize, h2]
  · intro m h
    simp [minimize, h]

/-- Witness for C8: minimizing the already-minimized chain machine returns
it unchanged. -/
theorem minimize_idempotent_witness :
    minimize chainMinM = .ok chainMinM :=
  minimize_idempotent.1 chainM0 chainMinM rfl

/-! ### Claim C7 -/

/-- One step of the set-insertion fold, membership-wise. -/
theorem dedup_step_mem (acc : List String) (s x : String) :
    x ∈ (if acc.contains s then acc else acc ++ [s]) ↔ x ∈ acc ∨ x = s := by
  by_cases hs : s ∈ acc
  · rw [if_pos (by simpa using List.elem_iff.mpr hs)]
    constructor
    · exact Or.inl
    · rintro (h | h)
      · exact h
      · exact h ▸ hs
  · rw [if_neg (by simpa using hs)]
    simp

/-- Membership in a set-insertion fold: the result holds the accumulator's
elements and the list's elements. -/
theorem foldl_dedup_mem (l acc : List String) (x : String) :
    x ∈ l.foldl (fun a s => if a.contains s then a else a ++ [s]) acc ↔
      x ∈ acc ∨ x ∈ l := by
  induction l generalizing acc with
  | nil => simp
  | cons s rest ih =>
    simp only [List.foldl_cons, ih, dedup_step_mem, List.mem_cons]
    tauto

/-- A set-insertion fold preserves `Nodup`. -/
theorem foldl_dedup_nodup (l acc : List String) (h : acc.Nodup) :
    (l.foldl (fun a s => if a.contains s then a else a ++ [s]) acc).Nodup := by
  induction l generalizing acc with
  | nil => simpa
  | cons s rest ih =>
    simp only [List.foldl_cons]
    refine ih _ ?_
    by_cases hs : s ∈ acc
    · rwa [if_pos (by simpa using List.elem_iff.mpr hs)]
    · rw [if_neg (by simpa using hs)]
      simpa [List.nodup_append, h] using hs

/-- Membership in the two-level set-insertion fold used by
`combineSymbols` and `gatherTargets`. -/
theorem foldl_dedup2_mem (names : List String) (f : String → List String)
    (acc : List String) (x : String) :
    x ∈ names.foldl (fun a nm => (f nm).foldl
        (fun a2 s => if a2.contains s then a2 else a2 ++ [s]) a) acc ↔
      x ∈ acc ∨ ∃ nm ∈ names, x ∈ f nm := by
  induction names generalizing acc with
  | nil => simp
  | cons nm rest ih =>
    simp only [List.foldl_cons, ih, foldl_dedup_mem]
    constructor
    · rintro ((h | h) | ⟨nm2, hm, hx⟩)
      · exact Or.inl h
      · exact Or.inr ⟨nm, by simp, h⟩
      · exact Or.inr ⟨nm2, by simp [hm], hx⟩
    · rintro (h | ⟨nm2, hm, hx⟩)
      · exact Or.inl (Or.inl h)
      · rcases List.mem_cons.mp hm with h2 | h2
        · exact Or.inl (Or.inr (h2 ▸ hx))
        · exact Or.inr ⟨nm2, h2, hx⟩

/-- `Nodup` for the two-level set-insertion fold. -/
theorem foldl_dedup2_nodup (names : List String) (f : String → List String)
    (acc : List String) (h : acc.Nodup) :
    (names.foldl (fun a nm => (f nm).foldl
        (fun a2 s => if a2.contains s then a2 else a2 ++ [s]) a) acc).Nodup := by
  induction names generalizing acc with
  | nil => simpa
  | cons nm rest ih => exact ih _ (foldl_dedup_nodup _ _ h)

/-- The union fold of `gatherTargets` is the two-level fold over each row's
`symbolTargets` contribution. -/
theorem gatherTargets_eq_fold (m : StateMachine) (names : List String) (sk : String) :
    gatherTargets m names sk =
      names.foldl (fun a nm => (symbolTargets m nm sk).foldl
        (fun a2 s => if a2.contains s then a2 else a2 ++ [s]) a) [] := by
  unfold gatherTargets
  refine List.foldl_ext _ _ _ (fun acc nm _ => ?_)
  unfold symbolTargets
  cases halo : alookup (getRow m.fsa nm).transitions sk with
  | none => simp
  | some tgt => cases tgt <;> simp

/-- The symbol fold of `combineSymbols` is the two-level fold over
`rowSyms`. -/
theorem combineSymbols_eq_fold (m : StateMachine) (names : List String) :
    combineSymbols m names =
      names.foldl (fun a nm => (rowSyms (getRow m.fsa nm)).foldl
        (fun a2 s => if a2.contains s then a2 else a2 ++ [s]) a) [] := rfl

/-- Two characters neither of which is smaller are equal. -/
theorem char_eq_of_not_lt (a b : Char) (h1 : ¬ a.toNat < b.toNat)
    (h2 : ¬ b.toNat < a.toNat) : a = b := by
  have h1b : ¬ a.val.toNat < b.val.toNat := h1
  have h2b : ¬ b.val.toNat < a.val.toNat := h2
  exact Char.eq_of_val_eq (UInt32.ext (by omega))

/-- The executable character-list comparison agrees with the lexicographic
order on character lists. -/
theorem strLtB_iff (as bs : List Char) : strLtB as bs = true ↔ as < bs := by
  induction as generalizing bs with
  | nil =>
    cases bs with
    | nil =>
      simp only [strLtB, Bool.false_eq_true, false_iff]
      intro h; cases h
    | cons b bs2 =>
      simp only [strLtB, true_iff]
      exact List.Lex.nil
  | cons a as2 ih =>
    cases bs with
    | nil =>
      simp only [strLtB, Bool.false_eq_true, false_iff]
      intro h; cases h
    | cons b bs2 =>
      simp only [strLtB]
      by_cases hab : a.toNat < b.toNat
      · simp only [if_pos hab, true_iff]
        exact List.Lex.rel hab
      · rw [if_neg hab]
        by_cases hba : b.toNat < a.toNat
        · simp only [if_pos hba, Bool.false_eq_true, false_iff]
          intro h
          cases h with
          | cons h2 => exact absurd hba (lt_irrefl _)
          | rel h2 => exact hab h2
        · have heq : a = b := char_eq_of_not_lt a b hab hba
          subst heq
          rw [if_neg hba, ih]
          constructor
          · intro h
            exact List.Lex.cons h
          · intro h
            cases h with
            | cons h2 => exact h2
            | rel h2 => exact absurd h2 hab

/-- The executable string comparison is the string order. -/
theorem strLt_iff (a b : String) : strLt a b = true ↔ a < b := by
  rw [String.lt_iff_toList_lt]
  exact strLtB_iff a.data b.data

/-- `insLex` is Mathlib's ordered insertion for the ≤ order on strings. -/
theorem insLex_eq_orderedInsert (x : String) (l : List String) :
    insLex x l = List.orderedInsert (· ≤ ·) x l := by
  induction l with
  | nil => rfl
  | cons y ys ih =>
    simp only [insLex, List.orderedInsert]
    by_cases h : strLt y x
    · have hlt : y < x := (strLt_iff y x).mp h
      rw [if_pos h, if_neg (by simpa using hlt), ih]
    · have hle : x ≤ y := by
        have := (strLt_iff y x).not
        simp only [h] at this
        exact le_of_not_lt (by simpa using this.mp (by simp))
      rw [if_neg h, if_pos hle]

/-- `sortLex` is Mathlib's insertion sort for the ≤ order on strings. -/
theorem sortLex_eq_insertionSort (l : List String) :
    sortLex l = List.insertionSort (· ≤ ·) l := by
  induction l with
  | nil => rfl
  | cons x xs ih => simp only [sortLex, List.insertionSort, ih, insLex_eq_orderedInsert]

/-- `sortLex` permutes its input. -/
theorem sortLex_perm (l : List String) : (sortLex l).Perm l := by
  rw [sortLex_eq_insertionSort]; exact List.perm_insertionSort _ l

/-- `sortLex` sorts its input by ≤. -/
theorem sortLex_sorted (l : List String) : (sortLex l).Sorted (· ≤ ·) := by
  rw [sortLex_eq_insertionSort]; exact List.sorted_insertionSort _ l

/-- Looking a key up in a keyed map built over a symbol list. -/
theorem alookup_map_key (f : String → Target) (l : List String) (k : String) :
    alookup (l.map (fun sk => (sk, f sk))) k =
      if k ∈ l then some (f k) else none := by
  induction l with
  | nil => simp [alookup]
  | cons s rest ih =>
    simp only [List.map_cons, alookup, List.mem_cons]
    by_cases hs : s = k
    · subst hs; simp
    · rw [if_neg hs, ih]
      by_cases hk : k ∈ rest
      · rw [if_pos hk, if_pos (Or.inr hk)]
      · rw [if_neg hk, if_neg (by rintro (h | h); exacts [hs h.symm, hk h])]

/-- A collapse equal to a single target means a one-element union. -/
theorem collapseTargets_eq_single (l : List String) (t : String)
    (h : collapseTargets l = .single t) : l = [t] := by
  match l, h with
  | [t2], h => simp only [collapseTargets, Target.single.injEq] at h; rw [h]

/-- A collapse equal to a list target means the union itself, of length
other than one. -/
theorem collapseTargets_eq_multi (l l2 : List String)
    (h : collapseTargets l = .multi l2) : l = l2 ∧ l2.length ≠ 1 := by
  match l, h with
  | [], h =>
    simp only [collapseTargets, Target.multi.injEq] at h
    exact ⟨h, by rw [← h]; simp⟩
  | a :: b :: r, h =>
    simp only [collapseTargets, Target.multi.injEq] at h
    exact ⟨h, by rw [← h]; simp⟩

/-- Claim C7: for every non-empty list of existing state names,
`combine_states` returns a single row keyed by the braced, comma-joined,
lexicographically sorted names; `start` and `accept` are the disjunctions of
the input flags; a symbol key is present exactly when some input row defines
it, and its target is the union of that symbol's targets across the input
rows that define it, collapsed to the single target when the union is a
singleton and kept as a sorted duplicate-free set otherwise. -/
theorem combine_states_union_semantics
    (m : StateMachine) (names : List String)
    (_hne : names ≠ [])
    (hex : ∀ nm ∈ names, hasKey m.fsa nm = true) :
    ∃ row,
      combineStates m names =
        .ok ("\x7b" ++ String.intercalate "," (sortLex names) ++ "\x7d", row) ∧
      row.start = names.any (fun nm => (getRow m.fsa nm).start) ∧
      row.accept = names.any (fun nm => (getRow m.fsa nm).accept) ∧
      (∀ sk, (alookup row.transitions sk).isSome = true ↔
             ∃ nm ∈ names, sk ∈ rowSyms (getRow m.fsa nm)) ∧
      (∀ sk t, alookup row.transitions sk = some (.single t) →
        ∀ x, (x ∈ names.flatMap (fun nm => symbolTargets m nm sk) ↔ x = t)) ∧
      (∀ sk l, alookup row.transitions sk = some (.multi l) →
        (∀ x, x ∈ l ↔ x ∈ names.flatMap (fun nm => symbolTargets m nm sk)) ∧
        l.Nodup ∧ l.Sorted (· ≤ ·) ∧ l.length ≠ 1) := by
  have hfind : names.find? (fun nm => !hasKey m.fsa nm) = none := by
    rw [List.find?_eq_none]
    intro nm hnm
    simp [hex nm hnm]
  have hmemg : ∀ sk x, x ∈ gatherTargets m names sk ↔
      x ∈ names.flatMap (fun nm => symbolTargets m nm sk) := by
    intro sk x
    rw [gatherTargets_eq_fold, foldl_dedup2_mem]
    simp [List.mem_flatMap]
  have hnodg : ∀ sk, (gatherTargets m names sk).Nodup := by
    intro sk
    rw [gatherTargets_eq_fold]
    exact foldl_dedup2_nodup _ _ _ List.nodup_nil
  have hmemsort : ∀ sk x, x ∈ sortLex (gatherTargets m names sk) ↔
      x ∈ names.flatMap (fun nm => symbolTargets m nm sk) := by
    intro sk x
    rw [(sortLex_perm _).mem_iff, hmemg]
  unfold combineStates
  rw [hfind]
  refine ⟨_, rfl, rfl, rfl, ?_, ?_, ?_⟩
  · intro sk
    rw [alookup_map_key]
    by_cases hsk : sk ∈ combineSymbols m names
    · rw [if_pos hsk]
      rw [combineSymbols_eq_fold, foldl_dedup2_mem] at hsk
      simpa using hsk
    · rw [if_neg hsk]
      rw [combineSymbols_eq_fold, foldl_dedup2_mem] at hsk
      simpa using hsk
  · intro sk t hlook x
    rw [alookup_map_key] at hlook
    split at hlook
    · simp only [Option.some.injEq] at hlook
      have hl := collapseTargets_eq_single _ _ hlook
      rw [← hmemsort sk x, hl]
      simp
    · exact absurd hlook (by simp)
  · intro sk l hlook
    rw [alookup_map_key] at hlook
    split at hlook
    · simp only [Option.some.injEq] at hlook
      obtain ⟨hl, hlen⟩ := collapseTargets_eq_multi _ _ hlook
      have hnd : (sortLex (gatherTargets m names sk)).Nodup :=
        (sortLex_perm _).nodup_iff.mpr (hnodg sk)
      refine ⟨fun x => by rw [← hmemsort sk x, hl], ?_, ?_, hlen⟩
      · rw [← hl]; exact hnd
      · rw [← hl]; exact sortLex_sorted _
    · exact absurd hlook (by simp)

/-- Witness for C7: the theorem applied to the spec's concrete combiner
example (`combHost` rows `S1` and `S2`), together with the resulting row
computed outright: symbol `1` yields the sorted set `["S1", "S2"]` and
symbol `0` collapses to the single target `S1`, under the name
`{S1,S2}`. -/
theorem combine_states_union_semantics_witness :
    (∃ row,
      combineStates combHostM ["S1", "S2"] =
        .ok ("\x7b" ++ String.intercalate "," (sortLex ["S1", "S2"]) ++ "\x7d", row) ∧
      row.start = (["S1", "S2"].any (fun nm => (getRow combHostM.fsa nm).start)) ∧
      row.accept = (["S1", "S2"].any (fun nm => (getRow combHostM.fsa nm).accept)) ∧
      (∀ sk, (alookup row.transitions sk).isSome = true ↔
             ∃ nm ∈ ["S1", "S2"], sk ∈ rowSyms (getRow combHostM.fsa nm)) ∧
      (∀ sk t, alookup row.transitions sk = some (.single t) →
        ∀ x, (x ∈ ["S1", "S2"].flatMap (fun nm => symbolTargets combHostM nm sk) ↔ x = t)) ∧
      (∀ sk l, alookup row.transitions sk = some (.multi l) →
        (∀ x, x ∈ l ↔ x ∈ ["S1", "S2"].flatMap (fun nm => symbolTargets combHostM nm sk)) ∧
        l.Nodup ∧ l.Sorted (· ≤ ·) ∧ l.length ≠ 1)) ∧
    combineStates combHostM ["S1", "S2"] =
      .ok ("\x7bS1,S2\x7d",
        ⟨[("0", .single "S1"), ("1", .multi ["S1", "S2"])], false, true⟩) :=
  ⟨combine_states_union_semantics combHostM ["S1", "S2"] (by decide) (by decide), by decide⟩

/-! ### Claim C10 -/

/-- Value-mapped association lookup. -/
theorem alookup_map_val {α β : Type} (f : α → β) (l : List (String × α)) (k : String) :
    alookup (l.map (fun q => (q.1, f q.2))) k = (alookup l k).map f := by
  induction l with
  | nil => simp [alookup]
  | cons p rest ih =>
    simp only [List.map_cons, alookup]
    by_cases hp : p.1 = k
    · simp [hp]
    · simp [hp, ih]

/-- A successful association lookup is list membership. -/
theorem alookup_mem {α : Type} (l : List (String × α)) (k : String) (v : α)
    (h : alookup l k = some v) : (k, v) ∈ l := by
  induction l with
  | nil => simp [alookup] at h
  | cons p rest ih =>
    simp only [alookup] at h
    split at h
    · rename_i hp
      simp only [Option.some.injEq] at h
      obtain ⟨a, b⟩ := p
      simp only at hp h
      subst hp
      subst h
      exact List.mem_cons_self _ _
    · exact List.mem_cons_of_mem _ (ih h)

/-- Resolving a first-element-collapsed target equals resolving the
original, for targets that are not empty lists. -/
theorem resolveTarget_firstify (t : Target) (h : t ≠ Target.multi []) :
    resolveTarget (firstifyTarget t) = resolveTarget t := by
  match t, h with
  | .single t2, _ => rfl
  | .multi (x :: xs), _ => rfl
  | .multi [], h => exact absurd rfl h

/-- The symbol scan of the table fill is blind to elements of a list target
beyond the first: scanning the first-element-collapsed rows is the same
computation. -/
theorem scanSyms_firstify (n : Nat) (old : Table) (i j : Nat) (rowj : Row)
    (l : List (String × Target))
    (hl : ∀ q ∈ l, q.2 ≠ Target.multi [])
    (hrj : ∀ q ∈ rowj.transitions, q.2 ≠ Target.multi []) :
    ∀ t : Table,
    scanSyms n old t i j
        { rowj with transitions := rowj.transitions.map (fun q => (q.1, firstifyTarget q.2)) }
        (l.map (fun q => (q.1, firstifyTarget q.2)))
      = scanSyms n old t i j rowj l := by
  induction l with
  | nil => intro t; rfl
  | cons q rest ih =>
    intro t
    obtain ⟨sym, ti⟩ := q
    have hti : ti ≠ Target.multi [] := hl (sym, ti) (by simp)
    simp only [List.map_cons, scanSyms, alookup_map_val]
    cases halo : alookup rowj.transitions sym with
    | none => rfl
    | some tj =>
      have htj : tj ≠ Target.multi [] := hrj (sym, tj) (alookup_mem _ _ _ halo)
      simp only [Option.map_some']
      rw [resolveTarget_firstify ti hti, resolveTarget_firstify tj htj]
      repeat' split
      all_goals try rfl
      all_goals exact ih (fun q2 hq2 => hl q2 (List.mem_cons_of_mem _ hq2)) t

/-- Row lookups in the collapsed table. -/
theorem alookup_firstify (fsa : FSA) (k : String) :
    alookup (firstify fsa) k =
      (alookup fsa k).map (fun r =>
        { r with transitions := r.transitions.map (fun q => (q.1, firstifyTarget q.2)) }) := by
  unfold firstify
  exact alookup_map_val
    (fun r : Row =>
      { r with transitions := r.transitions.map (fun q : String × Target => (q.1, firstifyTarget q.2)) })
    fsa k

/-- The inner pair loop of a fill pass is blind to list elements beyond the
first. -/
theorem passJ_firstify (fsa : FSA) (n : Nat) (old : Table) (i : Nat)
    (hfsa : NoEmptyLists fsa) (js : List Nat) :
    ∀ acc, passJ (firstify fsa) n old i js acc = passJ fsa n old i js acc := by
  induction js with
  | nil => intro acc; rfl
  | cons j rest ih =>
    intro acc
    obtain ⟨t, ch⟩ := acc
    simp only [passJ]
    by_cases hm : tget t i j
    · rw [if_pos hm, if_pos hm]
      exact ih (t, ch)
    · rw [if_neg hm, if_neg hm]
      rw [alookup_firstify, alookup_firstify]
      cases hri : alookup fsa (mkS i) with
      | none => rfl
      | some rowi =>
        cases hrj : alookup fsa (mkS j) with
        | none => rfl
        | some rowj =>
          simp only [Option.map_some']
          rw [scanSyms_firstify n old i j rowj rowi.transitions
            (fun q hq => hfsa _ (alookup_mem _ _ _ hri) q hq)
            (fun q hq => hfsa _ (alookup_mem _ _ _ hrj) q hq) t]
          cases scanSyms n old t i j rowj rowi.transitions with
          | none => rfl
          | some res => exact ih (res.1, ch || res.2)

/-- The outer pair loop of a fill pass is blind to list elements beyond the
first. -/
theorem passI_firstify (fsa : FSA) (n : Nat) (old : Table)
    (hfsa : NoEmptyLists fsa) (is' : List Nat) :
    ∀ acc, passI (firstify fsa) n old is' acc = passI fsa n old is' acc := by
  induction is' with
  | nil => intro acc; rfl
  | cons i rest ih =>
    intro acc
    simp only [passI]
    rw [passJ_firstify fsa n old i hfsa (List.range i) acc]
    cases passJ fsa n old i (List.range i) acc with
    | none => rfl
    | some acc2 => exact ih acc2

/-- Claim C10: during the table-filling pass a list target is used through
its first element only, with no error raised on its account: the whole
fixpoint computation on an automaton with (non-empty) list targets equals
the computation on the automaton with every list target replaced by its
first element. -/
theorem fill_list_target_uses_head (fsa : FSA) (n : Nat) (fuel : Nat) (t : Table)
    (h : NoEmptyLists fsa) :
    fillLoop (firstify fsa) n fuel t = fillLoop fsa n fuel t := by
  induction fuel generalizing t with
  | zero => rfl
  | succ f ih =>
    simp only [fillLoop, fillPass]
    rw [passI_firstify fsa n t h (List.range n) (t, false)]
    cases passI fsa n t (List.range n) (t, false) with
    | none => rfl
    | some res =>
      obtain ⟨t2, ch⟩ := res
      by_cases hch : ch = true
      · simp only [hch, if_true]
        exact ih t2
      · simp only [if_neg hch]

/-- Witness for C10: filling the table of the NFA-shaped machine (state `S0`
has the two-element list target `["S1", "S0"]` on symbol `0`) computes
exactly as if that target were its first element `S1`, and does so without
an error. -/
theorem fill_list_target_uses_head_witness :
    fillLoop (firstify nfaTwoM.fsa) 2 6 (initTable 2 []) =
      fillLoop nfaTwoM.fsa 2 6 (initTable 2 []) ∧
    (fillLoop nfaTwoM.fsa 2 6 (initTable 2 [])).isSome = true :=
  ⟨fill_list_target_uses_head nfaTwoM.fsa 2 6 (initTable 2 [])
    (by unfold NoEmptyLists; decide), by decide⟩

/-! ### Table-fill machinery -/

/-- Positional lookup after a positional update, same index. -/
theorem nth_lset_self {α : Type} (l : List α) (i : Nat) (v : α) (h : i < l.length) :
    nth? (lset l i v) i = some v := by
  induction l generalizing i with
  | nil => simp at h
  | cons x xs ih =>
    cases i with
    | zero => rfl
    | succ n => exact ih n (by simpa using h)

/-- Positional lookup after a positional update, different index. -/
theorem nth_lset_ne {α : Type} (l : List α) (i a : Nat) (v : α) (h : i ≠ a) :
    nth? (lset l i v) a = nth? l a := by
  induction l generalizing i a with
  | nil => rfl
  | cons x xs ih =>
    cases i with
    | zero =>
      cases a with
      | zero => exact absurd rfl h
      | succ m => rfl
    | succ n =>
      cases a with
      | zero => rfl
      | succ m => exact ih n m (by omega)

/-- A positional update preserves length. -/
theorem length_lset {α : Type} (l : List α) (i : Nat) (v : α) :
    (lset l i v).length = l.length := by
  induction l generalizing i with
  | nil => rfl
  | cons x xs ih =>
    cases i with
    | zero => rfl
    | succ n => simp only [lset, List.length_cons, ih n]

/-- Members of an updated list are old members or the new value. -/
theorem mem_lset {α : Type} (l : List α) (i : Nat) (v a : α)
    (h : a ∈ lset l i v) : a ∈ l ∨ a = v := by
  induction l generalizing i with
  | nil => simp [lset] at h
  | cons x xs ih =>
    cases i with
    | zero =>
      rcases List.mem_cons.mp h with h2 | h2
      · exact Or.inr h2
      · exact Or.inl (List.mem_cons_of_mem _ h2)
    | succ n =>
      rcases List.mem_cons.mp h with h2 | h2
      · exact Or.inl (h2 ▸ List.mem_cons_self _ _)
      · rcases ih n h2 with h3 | h3
        · exact Or.inl (List.mem_cons_of_mem _ h3)
        · exact Or.inr h3

/-- In-range positional lookups succeed. -/
theorem nth_lt {α : Type} (l : List α) (i : Nat) (h : i < l.length) :
    ∃ x, nth? l i = some x := by
  induction l generalizing i with
  | nil => simp at h
  | cons x xs ih =>
    cases i with
    | zero => exact ⟨x, rfl⟩
    | succ n => exact ih n (by simpa using h)

/-- A successful positional lookup witnesses an in-range index. -/
theorem nth_some_lt {α : Type} (l : List α) (i : Nat) (x : α)
    (h : nth? l i = some x) : i < l.length := by
  induction l generalizing i with
  | nil => simp [nth?] at h
  | cons y ys ih =>
    cases i with
    | zero => simp
    | succ n =>
      simp only [List.length_cons]
      exact Nat.succ_lt_succ (ih n h)

/-- A successful positional lookup is membership. -/
theorem nth_mem {α : Type} (l : List α) (i : Nat) (x : α)
    (h : nth? l i = some x) : x ∈ l := by
  induction l generalizing i with
  | nil => simp [nth?] at h
  | cons y ys ih =>
    cases i with
    | zero =>
      simp only [nth?, Option.some.injEq] at h
      exact h ▸ List.mem_cons_self _ _
    | succ n => exact List.mem_cons_of_mem _ (ih n h)

/-- A table entry is true exactly when the row and cell are present and
true. -/
theorem tget_true_iff (t : Table) (a b : Nat) :
    tget t a b = true ↔ ∃ row, nth? t a = some row ∧ nth? row b = some true := by
  unfold tget
  cases hg : nth? t a with
  | none =>
    simp only [Option.getD_none, Option.getD_some]
    constructor
    · intro h; simp [nth?] at h
    · rintro ⟨row, h1, _⟩; exact absurd h1 (by simp)
  | some row =>
    simp only [Option.getD_some]
    cases hr : nth? row b with
    | none =>
      simp only [Option.getD_none]
      constructor
      · intro h; exact absurd h (by simp)
      · rintro ⟨row2, h1, h2⟩
        obtain rfl : row = row2 := by injection h1
        rw [hr] at h2
        exact absurd h2 (by simp)
    | some v =>
      simp only [Option.getD_some]
      constructor
      · intro h; exact ⟨row, rfl, by rw [hr, h]⟩
      · rintro ⟨row2, h1, h2⟩
        obtain rfl : row = row2 := by injection h1
        rw [hr] at h2
        injection h2

/-- Setting an entry to true never unsets a true entry. -/
theorem tset_true_mono (t : Table) (i j a b : Nat) (h : tget t a b = true) :
    tget (tset t i j true) a b = true := by
  obtain ⟨row, hg, hr⟩ := (tget_true_iff t a b).mp h
  unfold tset
  cases hgi : nth? t i with
  | none => exact h
  | some rowi =>
    refine (tget_true_iff _ a b).mpr ?_
    by_cases hia : i = a
    · subst hia
      obtain rfl : rowi = row := by
        rw [hg] at hgi
        exact (Option.some.inj hgi).symm
      have hlen : i < t.length := nth_some_lt t i rowi hg
      refine ⟨lset rowi j true, nth_lset_self t i _ hlen, ?_⟩
      by_cases hjb : j = b
      · subst hjb
        exact nth_lset_self rowi j true (nth_some_lt rowi j true hr)
      · rw [nth_lset_ne rowi j b true hjb]; exact hr
    · exact ⟨row, by rw [nth_lset_ne t i a _ hia]; exact hg, hr⟩

/-- Marking preserves true entries. -/
theorem mark_mono (t : Table) (i j a b : Nat) (h : tget t a b = true) :
    tget (mark t i j) a b = true :=
  tset_true_mono _ _ _ _ _ (tset_true_mono _ _ _ _ _ h)

/-- In a well-formed table, marking a pair sets its entry. -/
theorem tget_mark_self (t : Table) (n i j : Nat) (hwf : TableWF t n)
    (hi : i < n) (hj : j < n) : tget (mark t i j) i j = true := by
  have hlen : i < t.length := by rw [hwf.1]; exact hi
  obtain ⟨row, hg⟩ := nth_lt t i hlen
  have hrowlen : j < row.length := by
    rw [hwf.2 row (nth_mem t i row hg)]; exact hj
  have hset : tget (tset t i j true) i j = true := by
    refine (tget_true_iff _ i j).mpr ⟨lset row j true, ?_, ?_⟩
    · unfold tset
      rw [hg]
      exact nth_lset_self t i _ hlen
    · exact nth_lset_self row j true hrowlen
  exact tset_true_mono _ j i i j hset

/-- Setting preserves table well-formedness. -/
theorem tset_wf (t : Table) (n i j : Nat) (v : Bool) (hwf : TableWF t n) :
    TableWF (tset t i j v) n := by
  unfold tset
  cases hg : nth? t i with
  | none => exact hwf
  | some row =>
    constructor
    · rw [length_lset]; exact hwf.1
    · intro r hr
      rcases mem_lset t i _ r hr with h | h
      · exact hwf.2 r h
      · rw [h, length_lset]
        exact hwf.2 row (nth_mem t i row hg)

/-- Marking preserves table well-formedness. -/
theorem mark_wf (t : Table) (n i j : Nat) (hwf : TableWF t n) :
    TableWF (mark t i j) n :=
  tset_wf _ _ _ _ _ (tset_wf _ _ _ _ _ hwf)

/-- A symbol scan preserves well-formedness. -/
theorem scanSyms_wf (n : Nat) (old : Table) (i j : Nat) (rowj : Row)
    (l : List (String × Target)) :
    ∀ t t2 mk, scanSyms n old t i j rowj l = some (t2, mk) → TableWF t n →
      TableWF t2 n := by
  induction l with
  | nil =>
    intro t t2 mk h hwf
    simp only [scanSyms, Option.some.injEq, Prod.mk.injEq] at h
    rw [← h.1]; exact hwf
  | cons q rest ih =>
    intro t t2 mk h hwf
    obtain ⟨sym, ti⟩ := q
    simp only [scanSyms] at h
    split at h
    · simp at h
    · split at h
      · simp at h
      · split at h
        · simp at h
        · split at h
          · simp at h
          · split at h
            · simp at h
            · split at h
              · simp at h
              · split at h
                · simp only [Option.some.injEq, Prod.mk.injEq] at h
                  rw [← h.1]
                  exact mark_wf t n i j hwf
                · exact ih t t2 mk h hwf

/-- A symbol scan preserves true entries. -/
theorem scanSyms_mono (n : Nat) (old : Table) (i j : Nat) (rowj : Row)
    (l : List (String × Target)) :
    ∀ t t2 mk, scanSyms n old t i j rowj l = some (t2, mk) →
      ∀ a b, tget t a b = true → tget t2 a b = true := by
  induction l with
  | nil =>
    intro t t2 mk h a b hab
    simp only [scanSyms, Option.some.injEq, Prod.mk.injEq] at h
    rw [← h.1]; exact hab
  | cons q rest ih =>
    intro t t2 mk h a b hab
    obtain ⟨sym, ti⟩ := q
    simp only [scanSyms] at h
    split at h
    · simp at h
    · split at h
      · simp at h
      · split at h
        · simp at h
        · split at h
          · simp at h
          · split at h
            · simp at h
            · split at h
              · simp at h
              · split at h
                · simp only [Option.some.injEq, Prod.mk.injEq] at h
                  rw [← h.1]
                  exact mark_mono t i j a b hab
                · exact ih t t2 mk h a b hab

/-- A symbol scan that completes without marking leaves the table unchanged
and has looked every scanned symbol up on the counterpart row
successfully. -/
theorem scanSyms_nomark (n : Nat) (old : Table) (i j : Nat) (rowj : Row)
    (l : List (String × Target)) :
    ∀ t t2, scanSyms n old t i j rowj l = some (t2, false) →
      t2 = t ∧ ∀ q ∈ l, hasKey rowj.transitions q.1 = true := by
  induction l with
  | nil =>
    intro t t2 h
    simp only [scanSyms, Option.some.injEq, Prod.mk.injEq] at h
    exact ⟨h.1.symm, by simp⟩
  | cons q rest ih =>
    intro t t2 h
    obtain ⟨sym, ti⟩ := q
    simp only [scanSyms] at h
    split at h
    · simp at h
    · rename_i tj halo
      split at h
      · simp at h
      · split at h
        · simp at h
        · split at h
          · simp at h
          · split at h
            · simp at h
            · split at h
              · simp at h
              · split at h
                · simp only [Option.some.injEq, Prod.mk.injEq] at h
                  exact absurd h.2 (by simp)
                · obtain ⟨h2, hcov⟩ := ih t t2 h
                  refine ⟨h2, ?_⟩
                  intro q2 hq2
                  rcases List.mem_cons.mp hq2 with rfl | hq3
                  · simp [hasKey, halo]
                  · exact hcov q2 hq3

/-- A symbol scan that reports a mark has marked the scanned pair. -/
theorem scanSyms_marked (n : Nat) (old : Table) (i j : Nat) (rowj : Row)
    (l : List (String × Target)) (hi : i < n) (hj : j < n) :
    ∀ t t2, scanSyms n old t i j rowj l = some (t2, true) → TableWF t n →
      tget t2 i j = true := by
  induction l with
  | nil =>
    intro t t2 h hwf
    simp only [scanSyms, Option.some.injEq, Prod.mk.injEq] at h
    exact absurd h.2 (by simp)
  | cons q rest ih =>
    intro t t2 h hwf
    obtain ⟨sym, ti⟩ := q
    simp only [scanSyms] at h
    split at h
    · simp at h
    · split at h
      · simp at h
      · split at h
        · simp at h
        · split at h
          · simp at h
          · split at h
            · simp at h
            · split at h
              · simp at h
              · split at h
                · simp only [Option.some.injEq, Prod.mk.injEq] at h
                  rw [← h.1]
                  exact tget_mark_self t n i j hwf hi hj
                · exact ih t t2 h hwf

/-- The inner pair loop preserves well-formedness. -/
theorem passJ_wf (fsa : FSA) (n : Nat) (old : Table) (i : Nat) (js : List Nat) :
    ∀ acc res, passJ fsa n old i js acc = some res → TableWF acc.1 n →
      TableWF res.1 n := by
  induction js with
  | nil =>
    intro acc res h hwf
    simp only [passJ, Option.some.injEq] at h
    rw [← h]; exact hwf
  | cons j rest ih =>
    intro acc res h hwf
    obtain ⟨t, ch⟩ := acc
    simp only [passJ] at h
    split at h
    · exact ih (t, ch) res h hwf
    · split at h
      · rename_i rowi rowj heqi heqj
        split at h
        · simp at h
        · rename_i t2 marked hscan
          exact ih (t2, ch || marked) res h
            (scanSyms_wf n old i j rowj rowi.transitions t t2 marked hscan hwf)
      · simp at h

/-- The inner pair loop preserves true entries. -/
theorem passJ_mono (fsa : FSA) (n : Nat) (old : Table) (i : Nat) (js : List Nat) :
    ∀ acc res, passJ fsa n old i js acc = some res →
      ∀ a b, tget acc.1 a b = true → tget res.1 a b = true := by
  induction js with
  | nil =>
    intro acc res h a b hab
    simp only [passJ, Option.some.injEq] at h
    rw [← h]; exact hab
  | cons j rest ih =>
    intro acc res h a b hab
    obtain ⟨t, ch⟩ := acc
    simp only [passJ] at h
    split at h
    · exact ih (t, ch) res h a b hab
    · split at h
      · rename_i rowi rowj heqi heqj
        split at h
        · simp at h
        · rename_i t2 marked hscan
          exact ih (t2, ch || marked) res h a b
            (scanSyms_mono n old i j rowj rowi.transitions t t2 marked hscan a b hab)
      · simp at h

/-- Through the inner pair loop, a scanned pair ends marked or its symbols
were all found on the counterpart row. -/
theorem passJ_pair (fsa : FSA) (n : Nat) (old : Table) (i : Nat)
    (hi : i < n) (rowi : Row) (hri : alookup fsa (mkS i) = some rowi)
    (js : List Nat) :
    ∀ acc res, passJ fsa n old i js acc = some res → TableWF acc.1 n →
      ∀ j ∈ js, j < n →
      ∀ rowj, alookup fsa (mkS j) = some rowj →
      tget res.1 i j = true ∨
        ∀ q ∈ rowi.transitions, hasKey rowj.transitions q.1 = true := by
  induction js with
  | nil => intro acc res _ _ j hj; simp at hj
  | cons j0 rest ih =>
    intro acc res h hwf j hj hjn rowj hrj
    obtain ⟨t, ch⟩ := acc
    simp only [passJ] at h
    rcases List.mem_cons.mp hj with rfl | hjr
    · split at h
      · rename_i hmarked
        exact Or.inl (passJ_mono fsa n old i rest (t, ch) res h i j hmarked)
      · rw [hri, hrj] at h
        split at h
        · rename_i rowi2 rowj2 heqi2 heqj2
          obtain rfl := Option.some.inj heqi2
          obtain rfl := Option.some.inj heqj2
          split at h
          · simp at h
          · rename_i t2 marked hscan
            cases marked with
            | false =>
              obtain ⟨ht2, hcov⟩ :=
                scanSyms_nomark n old i j rowj rowi.transitions t t2 hscan
              exact Or.inr hcov
            | true =>
              refine Or.inl (passJ_mono fsa n old i rest _ res h i j ?_)
              exact scanSyms_marked n old i j rowj rowi.transitions hi hjn t t2 hscan hwf
        · rename_i hcontra
          exact absurd (hcontra rowi rowj rfl rfl) not_false
    · split at h
      · exact ih (t, ch) res h hwf j hjr hjn rowj hrj
      · split at h
        · rename_i rowi2 rowj2 heqi2 heqj2
          split at h
          · simp at h
          · rename_i t2 marked hscan
            exact ih (t2, ch || marked) res h
              (scanSyms_wf n old i j0 rowj2 rowi2.transitions t t2 marked hscan hwf)
              j hjr hjn rowj hrj
        · simp at h

/-- The outer pair loop preserves well-formedness. -/
theorem passI_wf (fsa : FSA) (n : Nat) (old : Table) (il : List Nat) :
    ∀ acc res, passI fsa n old il acc = some res → TableWF acc.1 n →
      TableWF res.1 n := by
  induction il with
  | nil =>
    intro acc res h hwf
    simp only [passI, Option.some.injEq] at h
    rw [← h]; exact hwf
  | cons i rest ih =>
    intro acc res h hwf
    simp only [passI] at h
    split at h
    · simp at h
    · rename_i acc2 hpj
      exact ih acc2 res h (passJ_wf fsa n old i (List.range i) acc acc2 hpj hwf)

/-- The outer pair loop preserves true entries. -/
theorem passI_mono (fsa : FSA) (n : Nat) (old : Table) (il : List Nat) :
    ∀ acc res, passI fsa n old il acc = some res →
      ∀ a b, tget acc.1 a b = true → tget res.1 a b = true := by
  induction il with
  | nil =>
    intro acc res h a b hab
    simp only [passI, Option.some.injEq] at h
    rw [← h]; exact hab
  | cons i rest ih =>
    intro acc res h a b hab
    simp only [passI] at h
    split at h
    · simp at h
    · rename_i acc2 hpj
      exact ih acc2 res h a b (passJ_mono fsa n old i (List.range i) acc acc2 hpj a b hab)

/-- Through the outer pair loop, every pair in range ends marked or was
fully scanned against the counterpart row. -/
theorem passI_pair (fsa : FSA) (n : Nat) (old : Table) (il : List Nat) :
    ∀ acc res, passI fsa n old il acc = some res → TableWF acc.1 n →
      ∀ i ∈ il, i < n → ∀ j, j < i →
      ∀ rowi rowj, alookup fsa (mkS i) = some rowi → alookup fsa (mkS j) = some rowj →
      tget res.1 i j = true ∨
        ∀ q ∈ rowi.transitions, hasKey rowj.transitions q.1 = true := by
  induction il with
  | nil => intro acc res _ _ i hi; simp at hi
  | cons i0 rest ih =>
    intro acc res h hwf i hi hin j hji rowi rowj hri hrj
    simp only [passI] at h
    split at h
    · simp at h
    · rename_i acc2 hpj
      rcases List.mem_cons.mp hi with rfl | hir
      · rcases passJ_pair fsa n old i hin rowi hri (List.range i) acc acc2 hpj hwf j
          (List.mem_range.mpr hji) (lt_trans hji hin) rowj hrj with hm | hcov
        · exact Or.inl (passI_mono fsa n old rest acc2 res h i j hm)
        · exact Or.inr hcov
      · exact ih acc2 res h (passJ_wf fsa n old i0 (List.range i0) acc acc2 hpj hwf)
          i hir hin j hji rowi rowj hri hrj

/-! ### Decimal rendering and parsing -/

/-- Digit characters are digits. -/
theorem isDigitChar_digitChar (d : Nat) (hd : d < 10) :
    isDigitChar (digitChar d) = true := by
  interval_cases d <;> decide

/-- The value of a digit character. -/
theorem digitVal_digitChar (d : Nat) (hd : d < 10) :
    digitVal (digitChar d) = d := by
  interval_cases d <;> decide

/-- Parsing across an append. -/
theorem parseNatAux_append (cs ds : List Char) (acc : Nat) :
    parseNatAux (cs ++ ds) acc =
      match parseNatAux cs acc with
      | none => none
      | some v => parseNatAux ds v := by
  induction cs generalizing acc with
  | nil => rfl
  | cons c cs2 ih =>
    cases hc : isDigitChar c with
    | true =>
      simp only [List.cons_append, parseNatAux, hc, if_true]
      exact ih (acc * 10 + digitVal c)
    | false =>
      simp only [List.cons_append, parseNatAux, hc]
      rfl

/-- Parsing a rendered number recovers it (generalized over the
accumulator). -/
theorem parseNatAux_natStrAux (f : Nat) :
    ∀ n acc, n < f →
      ∃ k, parseNatAux (natStrAux f n) acc = some (acc * 10 ^ k + n) ∧
        n < 10 ^ k ∧ 0 < k := by
  induction f with
  | zero => intro n acc h; omega
  | succ f2 ih =>
    intro n acc h
    by_cases hn : n < 10
    · refine ⟨1, ?_, by omega, by omega⟩
      simp only [natStrAux, if_pos hn, parseNatAux, isDigitChar_digitChar n hn,
        if_true, digitVal_digitChar n hn]
      norm_num
    · have hdiv : n / 10 < f2 := by omega
      obtain ⟨k, hk, hbound, hkpos⟩ := ih (n / 10) acc hdiv
      have hb2 : n < 10 ^ (k + 1) := by
        rw [pow_succ]
        omega
      refine ⟨k + 1, ?_, hb2, by omega⟩
      simp only [natStrAux, if_neg hn, parseNatAux_append, hk]
      have hmod : n % 10 < 10 := Nat.mod_lt _ (by omega)
      simp only [parseNatAux, isDigitChar_digitChar _ hmod, if_true,
        digitVal_digitChar _ hmod]
      have hsplit : n / 10 * 10 + n % 10 = n := by omega
      have : (acc * 10 ^ k + n / 10) * 10 + n % 10 = acc * 10 ^ (k + 1) + n := by
        rw [pow_succ]
        calc (acc * 10 ^ k + n / 10) * 10 + n % 10
            = acc * (10 ^ k * 10) + (n / 10 * 10 + n % 10) := by ring
          _ = acc * (10 ^ k * 10) + n := by rw [hsplit]
      rw [this]

/-- Round trip: parsing the decimal rendering of `n` gives `n`. -/
theorem parseNat_natStr (n : Nat) : parseNat (natStr n).data = some n := by
  obtain ⟨k, hk, _, _⟩ := parseNatAux_natStrAux (n + 1) n 0 (by omega)
  have hne : natStrAux (n + 1) n ≠ [] := by
    cases hlt : decide (n < 10) with
    | true => simp [natStrAux, of_decide_eq_true hlt]
    | false =>
      simp only [natStrAux, if_neg (of_decide_eq_false hlt)]
      simp
  unfold natStr parseNat
  cases hd : natStrAux (n + 1) n with
  | nil => exact absurd hd hne
  | cons c cs =>
    rw [← hd]
    simpa using hk

/-- The decimal rendering is injective. -/
theorem natStr_inj (a b : Nat) (h : natStr a = natStr b) : a = b := by
  have ha := parseNat_natStr a
  have hb := parseNat_natStr b
  rw [h] at ha
  rw [ha] at hb
  injection hb

/-- Canonical state names are injective. -/
theorem mkS_inj (a b : Nat) (h : mkS a = mkS b) : a = b := by
  unfold mkS at h
  have hdata : ("S" ++ natStr a).data = ("S" ++ natStr b).data := by rw [h]
  simp only [String.data_append] at hdata
  have : (natStr a).data = (natStr b).data := by simpa using hdata
  exact natStr_inj a b (String.ext this)

/-- The index of a canonical state name parses back. -/
theorem parseState_mkS (i : Nat) : parseState (mkS i) = some i := by
  unfold parseState mkS
  have : ("S" ++ natStr i).data = 'S' :: (natStr i).data := by
    simp [String.data_append]
  rw [this]
  simpa using parseNat_natStr i

/-! ### Claim C2 (amended theorem) -/

/-- Claim C2 (amended): the fill pass completes normally only when, for
every pair `(i, j)` (with `j < i < n`) left unmarked, every symbol of row
`i` was successfully looked up on row `j`; a missing counterpart symbol on a
pair that stays unmarked makes the pass raise `KeyError` (surfaced as
`MinimizationError`) rather than marking the pair. -/
theorem fillPass_ok_requires_counterpart_symbols
    (fsa : FSA) (n : Nat) (t t2 : Table) (ch : Bool)
    (hwf : TableWF t n)
    (hok : fillPass fsa n t = some (t2, ch))
    (i j : Nat) (hi : i < n) (hj : j < i)
    (hun : tget t2 i j = false)
    (rowi rowj : Row)
    (hri : alookup fsa (mkS i) = some rowi) (hrj : alookup fsa (mkS j) = some rowj) :
    ∀ sym ∈ rowSyms rowi, hasKey rowj.transitions sym = true := by
  intro sym hsym
  rcases passI_pair fsa n t (List.range n) (t, false) (t2, ch) hok hwf i
      (List.mem_range.mpr hi) hi j hj rowi rowj hri hrj with hm | hcov
  · rw [hm] at hun; exact absurd hun (by simp)
  · obtain ⟨q, hq, hq2⟩ := List.mem_map.mp hsym
    rw [← hq2]
    exact hcov q hq

/-- Witness for the amended C2 theorem: on the (normalized) Wikipedia
automaton the first fill pass completes; the pair `(1, 0)` is unmarked in
its result, and indeed every symbol of row `S1` is present on row `S0`. -/
theorem fillPass_ok_requires_counterpart_symbols_witness :
    hasKey (getRow wikiM0.fsa "S1").transitions "0" = true ∧
    hasKey (getRow wikiM0.fsa "S1").transitions "1" = true :=
  have h := fillPass_ok_requires_counterpart_symbols wikiM0.fsa 6
    (initTable 6 [2, 3, 4])
    (fillPass wikiM0.fsa 6 (initTable 6 [2, 3, 4])).get!.1
    (fillPass wikiM0.fsa 6 (initTable 6 [2, 3, 4])).get!.2
    (by unfold TableWF; decide) (by decide) 1 0 (by decide) (by decide) (by decide)
    (getRow wikiM0.fsa "S1") (getRow wikiM0.fsa "S0") (by decide) (by decide)
  ⟨h "0" (by decide), h "1" (by decide)⟩

/-! ### Claim C1 -/

/-- Claim C1 counterexample: `cexPre` is a valid, deterministic automaton,
constructed fresh; `minimize` returns normally on it, yet the word
`a a a b`, defined along the original run, is accepted by the original
machine and rejected by the minimized one. -/
theorem minimize_acceptance_counterexample :
    init cexPre = .ok cexM0 ∧
    Deterministic cexM0.fsa ∧
    FreshStart cexM0 ∧
    minimize cexM0 = .ok cexMinM ∧
    call cexM0 cexWord = ({ cexM0 with state := "S0" }, none) ∧
    (call cexM0 cexWord).1.accept = true ∧
    call cexMinM cexWord = ({ cexMinM with state := "S1", accept := false }, none) ∧
    (call cexMinM cexWord).1.accept = false :=
  ⟨rfl, by unfold Deterministic; decide, rfl, rfl, rfl, by decide, rfl, by decide⟩

/-! ### Claim C4: supporting lemmas on pruning, normalization and merging -/

/-- A list whose key image is a singleton is a singleton with that key. -/
theorem map_fst_singleton {α β : Type} (l : List (α × β)) (x : α)
    (h : l.map (·.1) = [x]) : ∃ e, l = [e] ∧ e.1 = x := by
  cases l with
  | nil => simp at h
  | cons e rest =>
    cases rest with
    | nil =>
      simp only [List.map_cons, List.map_nil, List.cons.injEq, and_true] at h
      exact ⟨e, rfl, h⟩
    | cons f rest2 => simp at h

/-- A fresh-start table's start rows form a singleton entry carrying the
pointer as its key. -/
theorem freshStart_filter (m : StateMachine) (hf : FreshStart m) :
    ∃ e, m.fsa.filter (·.2.start) = [e] ∧ e.1 = m.state :=
  map_fst_singleton _ _ hf

/-- The BFS never drops a recorded state. -/
theorem bfsAux_vis_mono (fsa : FSA) :
    ∀ (fuel : Nat) (q vis : List String) (x : String),
      x ∈ vis → x ∈ bfsAux fsa fuel q vis := by
  intro fuel
  induction fuel with
  | zero => intro q vis x hx; exact hx
  | succ f ih =>
    intro q vis x hx
    cases q with
    | nil => exact hx
    | cons c rest =>
      simp only [bfsAux]
      split
      · exact ih rest vis x hx
      · exact ih _ _ x (List.mem_append_left _ hx)

/-- The BFS of `remove_unreachable_states` records its own starting state. -/
theorem state_mem_reachableFrom (m : StateMachine) : m.state ∈ reachableFrom m := by
  have key : ∀ (fsa : FSA) (f : Nat) (s : String), s ∈ bfsAux fsa (f + 1) [s] [] := by
    intro fsa f s
    simp only [bfsAux]
    split
    · rename_i hc
      simp [List.contains] at hc
    · exact bfsAux_vis_mono fsa f _ _ s (by simp)
  exact key m.fsa (m.fsa.length + totalTargets m.fsa + 1) m.state

/-- Two filters commute. -/
theorem filter_swap {α : Type} (p q : α → Bool) (l : List α) :
    (l.filter p).filter q = (l.filter q).filter p := by
  induction l with
  | nil => rfl
  | cons x xs ih =>
    cases hp : p x <;> cases hq : q x <;>
      simp [List.filter_cons, hp, hq, ih]

/-- Composing two filters filters by the conjunction. -/
theorem filter_comp {α : Type} (p q : α → Bool) (l : List α) :
    (l.filter p).filter q = l.filter (fun a => p a && q a) := by
  induction l with
  | nil => rfl
  | cons x xs ih =>
    cases hp : p x <;> cases hq : q x <;>
      simp [List.filter_cons, hp, hq, ih]

/-- Pruning preserves the fresh-start property: the kept start rows are
exactly the original singleton, whose key the BFS always records. -/
theorem removeUnreachable_fresh (m : StateMachine) (hf : FreshStart m) :
    FreshStart (removeUnreachable m) := by
  obtain ⟨e, hfe, he1⟩ := freshStart_filter m hf
  have hP : (reachableFrom m).contains e.1 = true := by
    rw [he1]
    exact List.elem_iff.mpr (state_mem_reachableFrom m)
  unfold FreshStart startKeys removeUnreachable
  rw [filter_swap, hfe]
  simp [List.filter_cons, hP, he1, state_mem_reachableFrom m]

/-- A successful option-valued map is pointwise successful. -/
theorem mapO_forall2 {α β : Type} (f : α → Option β) :
    ∀ (l : List α) (l2 : List β), mapO f l = some l2 →
      List.Forall₂ (fun a b => f a = some b) l l2 := by
  intro l
  induction l with
  | nil =>
    intro l2 h
    simp only [mapO] at h
    obtain rfl := Option.some.inj h
    exact List.Forall₂.nil
  | cons a as ih =>
    intro l2 h
    simp only [mapO] at h
    cases hfa : f a with
    | none => rw [hfa] at h; exact Option.noConfusion h
    | some b =>
      rw [hfa] at h
      cases hrest : mapO f as with
      | none => rw [hrest] at h; exact Option.noConfusion h
      | some bs =>
        rw [hrest] at h
        obtain rfl : b :: bs = l2 := Option.some.inj h
        exact List.Forall₂.cons hfa (ih bs hrest)

/-- Every member of the right list of a pointwise relation has a related
left member. -/
theorem forall2_mem_right {α β : Type} {R : α → β → Prop} :
    ∀ {l : List α} {l2 : List β}, List.Forall₂ R l l2 →
      ∀ b ∈ l2, ∃ a ∈ l, R a b := by
  intro l l2 h
  induction h with
  | nil => intro b hb; simp at hb
  | cons hab hrest ih =>
    intro b hb
    rcases List.mem_cons.mp hb with rfl | hb2
    · exact ⟨_, List.mem_cons_self _ _, hab⟩
    · obtain ⟨a, ha, hr⟩ := ih b hb2
      exact ⟨a, List.mem_cons_of_mem _ ha, hr⟩

/-- A flag-preserving pointwise relation survives filtering by the flag. -/
theorem forall2_filter_start {R : (String × Row) → (String × Row) → Prop}
    {l l2 : FSA} (h : List.Forall₂ R l l2)
    (hR : ∀ a b, R a b → b.2.start = a.2.start) :
    List.Forall₂ R (l.filter (·.2.start)) (l2.filter (·.2.start)) := by
  induction h with
  | nil => exact List.Forall₂.nil
  | cons hab hrest ih =>
    rename_i a b as bs
    cases ha : a.2.start with
    | true =>
      have hb : b.2.start = true := by rw [hR a b hab, ha]
      simp only [List.filter_cons, ha, hb, if_true]
      exact List.Forall₂.cons hab ih
    | false =>
      have hb : b.2.start = false := by rw [hR a b hab, ha]
      simp only [List.filter_cons, ha, hb]
      exact ih

/-- Inversion of a pointwise relation whose left list is a singleton. -/
theorem forall2_singleton_right {α β : Type} {R : α → β → Prop} {e : α}
    {l2 : List β} (h : List.Forall₂ R [e] l2) : ∃ e2, l2 = [e2] ∧ R e e2 := by
  cases h with
  | cons hab htail =>
    rename_i b bs
    cases htail
    exact ⟨b, rfl, hab⟩

/-- Looking up a key absent from the enumerated name list fails. -/
theorem alookup_enumFrom_none :
    ∀ (names : List String) (i0 : Nat) (k : String), k ∉ names →
      alookup ((List.enumFrom i0 names).map (fun p => (p.2, mkS p.1))) k = none := by
  intro names
  induction names with
  | nil => intro i0 k _; rfl
  | cons x rest ih =>
    intro i0 k hk
    have hne : ¬ x = k := fun hx => hk (List.mem_cons.mpr (Or.inl hx.symm))
    simp only [List.enumFrom, List.map_cons, alookup, if_neg hne]
    exact ih (i0 + 1) k (fun hmem => hk (List.mem_cons_of_mem _ hmem))

/-- A successful lookup in the enumerated name list yields a canonical name
indexed within range. -/
theorem alookup_enumFrom_range :
    ∀ (names : List String) (i0 : Nat) (k v : String),
      alookup ((List.enumFrom i0 names).map (fun p => (p.2, mkS p.1))) k = some v →
      ∃ j, i0 ≤ j ∧ j < i0 + names.length ∧ v = mkS j := by
  intro names
  induction names with
  | nil => intro i0 k v h; exact Option.noConfusion h
  | cons x rest ih =>
    intro i0 k v h
    simp only [List.enumFrom, List.map_cons, alookup] at h
    split at h
    · obtain rfl : mkS i0 = v := Option.some.inj h
      refine ⟨i0, le_refl i0, ?_, rfl⟩
      simp only [List.length_cons]
      omega
    · obtain ⟨j, hj1, hj2, hj3⟩ := ih (i0 + 1) k v h
      refine ⟨j, by omega, ?_, hj3⟩
      simp only [List.length_cons]
      omega

/-- Distinct keys receive distinct canonical names from the enumeration. -/
theorem alookup_enumFrom_inj :
    ∀ (names : List String) (i0 : Nat) (k1 k2 v1 v2 : String), k1 ≠ k2 →
      alookup ((List.enumFrom i0 names).map (fun p => (p.2, mkS p.1))) k1 = some v1 →
      alookup ((List.enumFrom i0 names).map (fun p => (p.2, mkS p.1))) k2 = some v2 →
      v1 ≠ v2 := by
  intro names
  induction names with
  | nil => intro i0 k1 k2 v1 v2 _ h1 _; exact Option.noConfusion h1
  | cons x rest ih =>
    intro i0 k1 k2 v1 v2 hne h1 h2
    simp only [List.enumFrom, List.map_cons, alookup] at h1 h2
    split at h1
    · rename_i hx1
      obtain rfl : mkS i0 = v1 := Option.some.inj h1
      split at h2
      · rename_i hx2
        exact absurd (hx1.symm.trans hx2) hne
      · obtain ⟨j, hj1, hj2, hj3⟩ := alookup_enumFrom_range rest (i0 + 1) k2 v2 h2
        rw [hj3]
        intro hv
        have := mkS_inj _ _ hv
        omega
    · split at h2
      · rename_i hx1 hx2
        obtain rfl : mkS i0 = v2 := Option.some.inj h2
        obtain ⟨j, hj1, hj2, hj3⟩ := alookup_enumFrom_range rest (i0 + 1) k1 v1 h1
        rw [hj3]
        intro hv
        have := mkS_inj _ _ hv
        omega
      · exact ih (i0 + 1) k1 k2 v1 v2 hne h1 h2

/-- The rename mapping, written over the explicit enumeration. -/
theorem renameMap_eq (fsa : FSA) :
    renameMap fsa =
      (List.enumFrom 0 (sortStates (fsa.map (·.1)))).map (fun p => (p.2, mkS p.1)) := rfl

/-- The normalizer insertion is a permutation. -/
theorem sortIns_perm (x : String) : ∀ (l : List String), List.Perm (sortIns x l) (x :: l) := by
  intro l
  induction l with
  | nil => exact List.Perm.refl _
  | cons y ys ih =>
    simp only [sortIns]
    split
    · exact (ih.cons y).trans (List.Perm.swap x y ys)
    · exact List.Perm.refl _

/-- The normalizer sort is a permutation. -/
theorem sortStates_perm : ∀ (l : List String), List.Perm (sortStates l) l := by
  intro l
  induction l with
  | nil => exact List.Perm.refl _
  | cons x xs ih => exact (sortIns_perm x (sortStates xs)).trans (ih.cons x)

/-- Keys absent from a table are absent from its rename mapping. -/
theorem alookup_renameMap_none (fsa : FSA) (k : String)
    (hk : ¬ k ∈ fsa.map (·.1)) : alookup (renameMap fsa) k = none := by
  rw [renameMap_eq]
  apply alookup_enumFrom_none
  intro hmem
  exact hk ((sortStates_perm _).mem_iff.mp hmem)

/-- Renaming a row leaves its flags unchanged. -/
theorem renameRow_flags (mp : List (String × String)) (r r2 : Row)
    (h : renameRow mp r = some r2) : r2.start = r.start ∧ r2.accept = r.accept := by
  unfold renameRow at h
  split at h
  · exact Option.noConfusion h
  · rename_i tr heq
    obtain rfl : ({ r with transitions := tr } : Row) = r2 := Option.some.inj h
    exact ⟨rfl, rfl⟩

/-- What a successful normalization produces: unchanged scalar fields, the
pointer renamed through the mapping, and the table rebuilt pointwise with
renamed keys and unchanged flags. -/
theorem normalize_spec (m m2 : StateMachine) (h : normalize m = some m2) :
    m2.accept = m.accept ∧ m2.is_min = m.is_min ∧
    alookup (renameMap m.fsa) m.state = some m2.state ∧
    List.Forall₂ (fun p q => alookup (renameMap m.fsa) p.1 = some q.1 ∧
      q.2.start = p.2.start ∧ q.2.accept = p.2.accept) m.fsa m2.fsa := by
  simp only [normalize] at h
  split at h
  · exact Option.noConfusion h
  · rename_i rows hrows
    split at h
    · exact Option.noConfusion h
    · rename_i st hst
      obtain rfl : ({ m with fsa := rows, state := st } : StateMachine) = m2 :=
        Option.some.inj h
      refine ⟨rfl, rfl, hst, ?_⟩
      have h2 := mapO_forall2 _ _ _ hrows
      refine List.Forall₂.imp ?_ h2
      intro p q hpq
      cases hnn : alookup (renameMap m.fsa) p.1 with
      | none =>
        cases hr : renameRow (renameMap m.fsa) p.2 with
        | none => rw [hnn, hr] at hpq; exact Option.noConfusion hpq
        | some r => rw [hnn, hr] at hpq; exact Option.noConfusion hpq
      | some nn =>
        cases hr : renameRow (renameMap m.fsa) p.2 with
        | none => rw [hnn, hr] at hpq; exact Option.noConfusion hpq
        | some r =>
          rw [hnn, hr] at hpq
          obtain rfl : (nn, r) = q := Option.some.inj hpq
          obtain ⟨hs, ha⟩ := renameRow_flags _ _ _ hr
          exact ⟨by simp [hnn], hs, ha⟩

/-- Normalization preserves the fresh-start property. -/
theorem normalize_fresh (m m2 : StateMachine) (hf : FreshStart m)
    (h : normalize m = some m2) : FreshStart m2 := by
  obtain ⟨-, -, hst, hfa⟩ := normalize_spec m m2 h
  obtain ⟨e, hfe, he1⟩ := freshStart_filter m hf
  have hfilt := forall2_filter_start hfa (fun a b hab => hab.2.1)
  rw [hfe] at hfilt
  obtain ⟨e2, hfe2, hrel⟩ := forall2_singleton_right hfilt
  have he2 : e2.1 = m2.state := by
    have h1 := hrel.1
    rw [he1, hst] at h1
    exact (Option.some.inj h1).symm
  unfold FreshStart startKeys
  rw [hfe2, List.map_cons, List.map_nil, he2]

/-- Pointwise injective renaming of keys preserves their distinctness. -/
theorem nodup_keys_forall2 (mp : List (String × String))
    (hinj : ∀ k1 k2 v1 v2, k1 ≠ k2 → alookup mp k1 = some v1 →
      alookup mp k2 = some v2 → v1 ≠ v2) :
    ∀ (l l2 : FSA), List.Forall₂ (fun p q => alookup mp p.1 = some q.1) l l2 →
      (l.map (·.1)).Nodup → (l2.map (·.1)).Nodup := by
  intro l l2 h
  induction h with
  | nil => intro _; simp
  | cons hab htail ih =>
    rename_i a b as bs
    intro hnd
    simp only [List.map_cons, List.nodup_cons] at hnd ⊢
    obtain ⟨hna, hnd2⟩ := hnd
    refine ⟨?_, ih hnd2⟩
    intro hbmem
    obtain ⟨k2, hk2mem, hk2⟩ := List.mem_map.mp hbmem
    obtain ⟨a2, ha2mem, hrel⟩ := forall2_mem_right htail k2 hk2mem
    have hane : a.1 ≠ a2.1 := by
      intro he
      exact hna (List.mem_map.mpr ⟨a2, ha2mem, he.symm⟩)
    exact hinj a.1 a2.1 b.1 k2.1 hane hab hrel hk2.symm

/-- Normalization keeps state names distinct: distinct keys are enumerated
at distinct indices and `S<i>` is injective. -/
theorem normalize_nodup (m m2 : StateMachine) (hnd : (m.fsa.map (·.1)).Nodup)
    (h : normalize m = some m2) : (m2.fsa.map (·.1)).Nodup := by
  obtain ⟨-, -, -, hfa⟩ := normalize_spec m m2 h
  refine nodup_keys_forall2 (renameMap m.fsa) ?_ m.fsa m2.fsa
    (hfa.imp (fun a b hp => hp.1)) hnd
  intro k1 k2 v1 v2 hne h1 h2
  rw [renameMap_eq] at h1 h2
  exact alookup_enumFrom_inj _ 0 k1 k2 v1 v2 hne h1 h2

/-- Deleting a state filters the table. -/
theorem delState_filter (fsa : FSA) (k : String) (fsa2 : FSA)
    (h : delState fsa k = some fsa2) : fsa2 = fsa.filter (fun p => p.1 ≠ k) := by
  unfold delState at h
  split at h
  · exact (Option.some.inj h).symm
  · exact Option.noConfusion h

/-- Deleting the members of one group filters the table. -/
theorem delMany_filter (keep : String) :
    ∀ (idxs : List Nat) (fsa : FSA) (mp : List (String × String)) (fsa2 : FSA)
      (mp2 : List (String × String)),
      delMany keep fsa mp idxs = some (fsa2, mp2) → ∃ P, fsa2 = fsa.filter P := by
  intro idxs
  induction idxs with
  | nil =>
    intro fsa mp fsa2 mp2 h
    simp only [delMany, Option.some.injEq, Prod.mk.injEq] at h
    obtain ⟨rfl, rfl⟩ := h
    exact ⟨fun _ => true, (List.filter_true _).symm⟩
  | cons idx rest ih =>
    intro fsa mp fsa2 mp2 h
    simp only [delMany] at h
    cases hd : delState fsa (mkS idx) with
    | none => rw [hd] at h; exact Option.noConfusion h
    | some fsaD =>
      rw [hd] at h
      obtain ⟨P, hP⟩ := ih fsaD _ fsa2 mp2 h
      refine ⟨fun a => decide (a.1 ≠ mkS idx) && P a, ?_⟩
      rw [hP, delState_filter fsa (mkS idx) fsaD hd, filter_comp]

/-- Walking the whole group list filters the table. -/
theorem mergeMap_filter :
    ∀ (gs : List (List Nat)) (fsa : FSA) (mp : List (String × String)) (fsa2 : FSA)
      (mp2 : List (String × String)),
      mergeMap fsa mp gs = some (fsa2, mp2) → ∃ P, fsa2 = fsa.filter P := by
  intro gs
  induction gs with
  | nil =>
    intro fsa mp fsa2 mp2 h
    simp only [mergeMap, Option.some.injEq, Prod.mk.injEq] at h
    obtain ⟨rfl, rfl⟩ := h
    exact ⟨fun _ => true, (List.filter_true _).symm⟩
  | cons g gs2 ih =>
    intro fsa mp fsa2 mp2 h
    cases g with
    | nil =>
      simp only [mergeMap] at h
      exact ih fsa mp fsa2 mp2 h
    | cons g0 g1s =>
      cases g1s with
      | nil =>
        simp only [mergeMap] at h
        exact ih fsa mp fsa2 mp2 h
      | cons g1 grest =>
        simp only [mergeMap] at h
        cases hd : delMany (mkS g0) fsa mp (g1 :: grest) with
        | none => rw [hd] at h; exact Option.noConfusion h
        | some pr =>
          obtain ⟨fsaD, mpD⟩ := pr
          rw [hd] at h
          obtain ⟨P1, hP1⟩ := delMany_filter (mkS g0) (g1 :: grest) fsa mp fsaD mpD hd
          obtain ⟨P2, hP2⟩ := ih fsaD mpD fsa2 mp2 h
          refine ⟨fun a => P1 a && P2 a, ?_⟩
          rw [hP2, hP1, filter_comp]

/-- Merging filters the table and then rewrites targets pointwise. -/
theorem mergeGroups_spec (fsa : FSA) (groups : List (List Nat)) (fsa3 : FSA)
    (h : mergeGroups fsa groups = some fsa3) :
    ∃ P mp, fsa3 = (fsa.filter P).map (fun p =>
      (p.1, { p.2 with transitions := p.2.transitions.map (fun q : String × Target => (q.1, renTgt mp q.2)) })) := by
  unfold mergeGroups at h
  cases hm : mergeMap fsa [] groups with
  | none => rw [hm] at h; exact Option.noConfusion h
  | some pr =>
    obtain ⟨fsa2, mp⟩ := pr
    rw [hm] at h
    obtain ⟨P, hP⟩ := mergeMap_filter groups fsa [] fsa2 mp hm
    refine ⟨P, mp, ?_⟩
    rw [← hP]
    exact (Option.some.inj h).symm

/-- The merge rewrite touches neither keys nor flags: key list. -/
theorem keys_merge_map (l : FSA) (mp : List (String × String)) :
    (l.map (fun p =>
      (p.1, { p.2 with transitions := p.2.transitions.map (fun q : String × Target => (q.1, renTgt mp q.2)) }))).map
        (·.1) = l.map (·.1) := by
  induction l with
  | nil => rfl
  | cons x xs ih => simp only [List.map_cons, ih]

/-- The merge rewrite touches neither keys nor flags: start rows. -/
theorem startKeys_merge_map (l : FSA) (mp : List (String × String)) :
    startKeys (l.map (fun p =>
      (p.1, { p.2 with transitions := p.2.transitions.map (fun q : String × Target => (q.1, renTgt mp q.2)) })))
      = startKeys l := by
  induction l with
  | nil => rfl
  | cons x xs ih =>
    unfold startKeys at ih ⊢
    cases hx : x.2.start <;>
      simp [List.filter_cons, hx, ih]

/-- CLAIM C4 counterexample (original wording): `chainM1` is the valid
two-state chain machine after simulating the symbol `1`, so its pointer
rests on `S1` while `S0` still carries `start = true`; `minimize` returns
normally on it, yet the result has no `start = true` state at all, because
the reachability prune ran from the pointer and deleted the start row. -/
theorem minimize_start_invariant_counterexample :
    call chainM0 [Sym.int 1] = (chainM1, none) ∧
    startKeys chainM1.fsa = ["S0"] ∧
    minimize chainM1 =
      .ok ⟨[("S0", ⟨[("1", .single "S0")], false, true⟩)], "S0", true, true⟩ ∧
    startKeys [("S0", (⟨[("1", .single "S0")], false, true⟩ : Row))] = [] :=
  ⟨rfl, rfl, rfl, rfl⟩

/-! ### Claim C1: association list toolkit -/

/-- A lookup fails exactly when no entry carries the key. -/
theorem alookup_eq_none_iff {α : Type} (l : List (String × α)) (k : String) :
    alookup l k = none ↔ ∀ p ∈ l, p.1 ≠ k := by
  induction l with
  | nil => simp [alookup]
  | cons p rest ih =>
    simp only [alookup]
    by_cases hp : p.1 = k
    · rw [if_pos hp]
      simp only [reduceCtorEq, false_iff, not_forall]
      exact ⟨p, List.mem_cons_self p rest, not_not_intro hp⟩
    · rw [if_neg hp, ih]
      constructor
      · intro h q hq
        rcases List.mem_cons.mp hq with rfl | hq2
        · exact hp
        · exact h q hq2
      · intro h q hq
        exact h q (List.mem_cons_of_mem p hq)

/-- First-match lookup of a present key under distinct keys. -/
theorem alookup_of_mem_nodup {α : Type} (l : List (String × α)) (k : String) (v : α)
    (hnd : (l.map (·.1)).Nodup) (hmem : (k, v) ∈ l) : alookup l k = some v := by
  induction l with
  | nil => simp at hmem
  | cons p rest ih =>
    simp only [List.map_cons, List.nodup_cons] at hnd
    rcases List.mem_cons.mp hmem with rfl | hmem2
    · simp [alookup]
    · have hne : ¬ p.1 = k := by
        intro he
        exact hnd.1 (List.mem_map.mpr ⟨(k, v), hmem2, he.symm⟩)
      simp only [alookup, if_neg hne]
      exact ih hnd.2 hmem2

/-- Lookup of a key all of whose entries agree on their value. -/
theorem alookup_some_const {α : Type} (l : List (String × α)) (k : String) (v : α)
    (hmem : (k, v) ∈ l) (hconst : ∀ p ∈ l, p.1 = k → p.2 = v) :
    alookup l k = some v := by
  induction l with
  | nil => simp at hmem
  | cons p rest ih =>
    by_cases hp : p.1 = k
    · simp only [alookup, if_pos hp]
      rw [hconst p (List.mem_cons_self p rest) hp]
    · simp only [alookup, if_neg hp]
      rcases List.mem_cons.mp hmem with rfl | hmem2
      · exact absurd rfl hp
      · exact ih hmem2 (fun q hq => hconst q (List.mem_cons_of_mem p hq))

/-- Deleting one key preserves the lookup of any other key. -/
theorem alookup_filter_ne {α : Type} (l : List (String × α)) (k k2 : String)
    (hne : k2 ≠ k) :
    alookup (l.filter (fun p => p.1 ≠ k)) k2 = alookup l k2 := by
  induction l with
  | nil => rfl
  | cons p rest ih =>
    by_cases hp : p.1 = k
    · rw [List.filter_cons, if_neg (by simp [hp])]
      rw [ih]
      have hne2 : ¬ p.1 = k2 := fun he => hne (he.symm.trans hp)
      simp only [alookup, if_neg hne2]
    · rw [List.filter_cons, if_pos (by simp [hp])]
      simp only [alookup]
      by_cases hp2 : p.1 = k2
      · rw [if_pos hp2, if_pos hp2]
      · rw [if_neg hp2, if_neg hp2, ih]

/-- Deleting a key removes its lookup. -/
theorem alookup_filter_self {α : Type} (l : List (String × α)) (k : String) :
    alookup (l.filter (fun p => p.1 ≠ k)) k = none := by
  rw [alookup_eq_none_iff]
  intro p hp
  exact of_decide_eq_true (List.mem_filter.mp hp).2

/-- A failed lookup stays failed under any filtering. -/
theorem alookup_filter_none {α : Type} (P : String × α → Bool) (l : List (String × α))
    (k : String) (h : alookup l k = none) : alookup (l.filter P) k = none := by
  rw [alookup_eq_none_iff] at h ⊢
  intro p hp
  exact h p (List.mem_filter.mp hp).1

/-- Filtering preserves a key's lookup when every entry of that key passes
the filter. -/
theorem alookup_filter_keep {α : Type} (P : String × α → Bool) (l : List (String × α))
    (k : String) (hP : ∀ p ∈ l, p.1 = k → P p = true) :
    alookup (l.filter P) k = alookup l k := by
  induction l with
  | nil => rfl
  | cons p rest ih =>
    by_cases hp : p.1 = k
    · have hPp := hP p (List.mem_cons_self p rest) hp
      rw [List.filter_cons, if_pos (by simp [hPp])]
      simp only [alookup, if_pos hp]
    · have ih2 := ih (fun q hq2 he => hP q (List.mem_cons_of_mem p hq2) he)
      cases hq : P p with
      | true =>
        rw [List.filter_cons, if_pos (by simp [hq])]
        simp only [alookup, if_neg hp]
        exact ih2
      | false =>
        rw [List.filter_cons, if_neg (by simp [hq]), ih2]
        simp only [alookup, if_neg hp]

/-- Membership transfer along a pointwise relation, left version. -/
theorem forall2_mem_left {α β : Type} {R : α → β → Prop} :
    ∀ {l : List α} {l2 : List β}, List.Forall₂ R l l2 →
      ∀ a ∈ l, ∃ b ∈ l2, R a b := by
  intro l l2 h
  induction h with
  | nil => intro a ha; simp at ha
  | cons hab hrest ih =>
    intro a ha
    rcases List.mem_cons.mp ha with rfl | ha2
    · exact ⟨_, List.mem_cons_self _ _, hab⟩
    · obtain ⟨b, hb, hr⟩ := ih a ha2
      exact ⟨b, List.mem_cons_of_mem _ hb, hr⟩

/-- Key presence is key-list membership. -/
theorem hasKey_iff_mem {α : Type} (l : List (String × α)) (k : String) :
    hasKey l k = true ↔ k ∈ l.map (·.1) := by
  unfold hasKey
  cases h : alookup l k with
  | none =>
    simp only [Option.isSome_none, Bool.false_eq_true, false_iff]
    intro hmem
    obtain ⟨p, hp, hp1⟩ := List.mem_map.mp hmem
    exact (alookup_eq_none_iff l k).mp h p hp hp1
  | some v =>
    simp only [Option.isSome_some, true_iff]
    exact List.mem_map.mpr ⟨(k, v), alookup_mem l k v h, rfl⟩

/-- Keys present in the name list are in the enumeration's domain. -/
theorem alookup_enumFrom_isSome :
    ∀ (names : List String) (i0 : Nat) (k : String), k ∈ names →
      ∃ v, alookup ((List.enumFrom i0 names).map (fun p => (p.2, mkS p.1))) k = some v := by
  intro names
  induction names with
  | nil => intro i0 k hk; simp at hk
  | cons x rest ih =>
    intro i0 k hk
    by_cases hx : x = k
    · exact ⟨mkS i0, by simp [List.enumFrom, alookup, hx]⟩
    · rcases List.mem_cons.mp hk with rfl | hk2
      · exact absurd rfl hx
      · obtain ⟨v, hv⟩ := ih (i0 + 1) k hk2
        refine ⟨v, ?_⟩
        simp only [List.enumFrom, List.map_cons, alookup, if_neg hx]
        exact hv

/-- A table key's rename is defined and lands in `S0..S(n-1)`. -/
theorem renameMap_defined (fsa : FSA) (k : String) (hk : k ∈ fsa.map (·.1)) :
    ∃ j, j < fsa.length ∧ alookup (renameMap fsa) k = some (mkS j) := by
  have hk2 : k ∈ sortStates (fsa.map (·.1)) := (sortStates_perm _).mem_iff.mpr hk
  obtain ⟨v, hv⟩ := alookup_enumFrom_isSome (sortStates (fsa.map (·.1))) 0 k hk2
  obtain ⟨j, hj0, hjlt, hjv⟩ := alookup_enumFrom_range _ 0 k v hv
  refine ⟨j, ?_, ?_⟩
  · have hlen : (sortStates (fsa.map (·.1))).length = fsa.length := by
      rw [(sortStates_perm _).length_eq, List.length_map]
    omega
  · rw [renameMap_eq, hv, hjv]

/-! ### Claim C1: the reachability prune keeps the whole run -/

/-- Appending an element changes no other membership test. -/
theorem contains_append_ne (vis : List String) (c x : String) (hne : x ≠ c) :
    (vis ++ [c]).contains x = vis.contains x := by
  by_cases hmem : x ∈ vis
  · have h1 : (vis ++ [c]).contains x = true :=
      List.elem_iff.mpr (List.mem_append_left _ hmem)
    have h2 : vis.contains x = true := List.elem_iff.mpr hmem
    rw [h1, h2]
  · have h1 : (vis ++ [c]).contains x = false := by
      rw [Bool.eq_false_iff]
      intro hcon
      rcases List.mem_append.mp (List.elem_iff.mp hcon) with h | h
      · exact hmem h
      · exact hne (List.mem_singleton.mp h)
    have h2 : vis.contains x = false := by
      rw [Bool.eq_false_iff]
      intro hcon
      exact hmem (List.elem_iff.mp hcon)
    rw [h1, h2]

/-- Before anything is visited the potential is the total target count. -/
theorem unvisited_nil (fsa : FSA) : unvisitedTargets fsa [] = totalTargets fsa := by
  unfold unvisitedTargets totalTargets
  have hfe : fsa.filter (fun p => !([] : List String).contains p.1) = fsa :=
    List.filter_eq_self.mpr (fun a _ => rfl)
  rw [hfe]

/-- Recording a state that is no table key leaves the potential unchanged. -/
theorem unvisited_nonkey (fsa : FSA) (c : String) (vis : List String)
    (hc : ¬ c ∈ fsa.map (·.1)) :
    unvisitedTargets fsa (vis ++ [c]) = unvisitedTargets fsa vis := by
  unfold unvisitedTargets
  induction fsa with
  | nil => rfl
  | cons p rest ih =>
    simp only [List.map_cons, List.mem_cons] at hc
    push_neg at hc
    have hne : p.1 ≠ c := fun he => hc.1 he.symm
    rw [List.filter_cons, List.filter_cons, contains_append_ne vis c p.1 hne]
    have ih2 := ih hc.2
    split
    · simp only [List.map_cons, List.sum_cons, ih2]
    · exact ih2

/-- Recording a fresh table key removes exactly its row's targets from the
potential. -/
theorem unvisited_record (fsa : FSA) (hnd : (fsa.map (·.1)).Nodup) (c : String)
    (vis : List String) (hcv : ¬ c ∈ vis) :
    ∀ (r : Row), alookup fsa c = some r →
      unvisitedTargets fsa vis =
        unvisitedTargets fsa (vis ++ [c]) + (rowTargets r).length := by
  induction fsa with
  | nil => intro r h; exact Option.noConfusion h
  | cons p rest ih =>
    intro r h
    simp only [List.map_cons, List.nodup_cons] at hnd
    simp only [alookup] at h
    by_cases hp : p.1 = c
    · rw [if_pos hp] at h
      obtain rfl : p.2 = r := Option.some.inj h
      have hkept : (!vis.contains p.1) = true := by
        rw [hp]
        have : vis.contains c = false := by
          rw [Bool.eq_false_iff]
          intro hcon
          exact hcv (List.elem_iff.mp hcon)
        rw [this]
        rfl
      have hdrop : (!(vis ++ [c]).contains p.1) = false := by
        rw [hp]
        have : (vis ++ [c]).contains c = true :=
          List.elem_iff.mpr (List.mem_append_right _ (List.mem_singleton_self c))
        rw [this]
        rfl
      have hrest : unvisitedTargets rest (vis ++ [c]) = unvisitedTargets rest vis :=
        unvisited_nonkey rest c vis (fun hmem => hnd.1 (hp.symm ▸ hmem))
      unfold unvisitedTargets
      rw [List.filter_cons, List.filter_cons, if_pos hkept, if_neg (by rw [hdrop]; exact fun hcon => Bool.noConfusion hcon)]
      simp only [List.map_cons, List.sum_cons]
      unfold unvisitedTargets at hrest
      rw [hrest]
      omega
    · rw [if_neg hp] at h
      have ih2 := ih hnd.2 r h
      have hne : p.1 ≠ c := hp
      unfold unvisitedTargets
      rw [List.filter_cons, List.filter_cons, contains_append_ne vis c p.1 hne]
      unfold unvisitedTargets at ih2
      split
      · simp only [List.map_cons, List.sum_cons]
        omega
      · exact ih2

/-- With fuel above the potential, the BFS result is closed under
transition targets: the frontier invariant is maintained and the queue is
exhausted before the fuel. -/
theorem bfs_closed_aux (fsa : FSA) (hnd : (fsa.map (·.1)).Nodup) :
    ∀ (fuel : Nat) (queue vis : List String),
      queue.length + unvisitedTargets fsa vis < fuel →
      (∀ s ∈ vis, ∀ t ∈ rowTargets (getRow fsa s), t ∈ vis ∨ t ∈ queue) →
      ∀ s ∈ bfsAux fsa fuel queue vis, ∀ t ∈ rowTargets (getRow fsa s),
        t ∈ bfsAux fsa fuel queue vis := by
  intro fuel
  induction fuel with
  | zero => intro queue vis hfuel; omega
  | succ f ih =>
    intro queue vis hfuel hinv
    cases queue with
    | nil =>
      intro s hs t ht
      rcases hinv s hs t ht with h | h
      · exact h
      · simp at h
    | cons c rest =>
      simp only [bfsAux]
      split
      · rename_i hc
        apply ih rest vis ?_ ?_
        · simp only [List.length_cons] at hfuel
          omega
        · intro s hs t ht
          rcases hinv s hs t ht with h | h
          · exact Or.inl h
          · rcases List.mem_cons.mp h with rfl | h2
            · exact Or.inl (List.elem_iff.mp hc)
            · exact Or.inr h2
      · rename_i hc
        have hcv : ¬ c ∈ vis := fun hmem => hc (List.elem_iff.mpr hmem)
        apply ih _ _ ?_ ?_
        · simp only [List.length_cons] at hfuel
          rw [List.length_append]
          by_cases hck : c ∈ fsa.map (·.1)
          · have hsome : (alookup fsa c).isSome = true := (hasKey_iff_mem fsa c).mpr hck
            obtain ⟨r, hr⟩ := Option.isSome_iff_exists.mp hsome
            have hrow : getRow fsa c = r := by unfold getRow; rw [hr]; rfl
            have hrec := unvisited_record fsa hnd c vis hcv r hr
            have hfl := List.length_filter_le (fun t => !(vis ++ [c]).contains t)
              (rowTargets (getRow fsa c))
            have hlen2 : (rowTargets (getRow fsa c)).length = (rowTargets r).length := by
              rw [hrow]
            omega
          · have hrow : getRow fsa c = ⟨[], false, false⟩ := by
              unfold getRow
              rw [(alookup_eq_none_iff fsa c).mpr ?_]
              · rfl
              · intro p hp hpc
                exact hck (List.mem_map.mpr ⟨p, hp, hpc⟩)
            have hun := unvisited_nonkey fsa c vis hck
            have hz : (rowTargets (getRow fsa c)).filter
                (fun t => !(vis ++ [c]).contains t) = [] := by
              rw [hrow]
              rfl
            rw [hz]
            simp only [List.length_nil]
            omega
        · intro s hs t ht
          rcases List.mem_append.mp hs with hsv | hsc
          · rcases hinv s hsv t ht with h | h
            · exact Or.inl (List.mem_append_left _ h)
            · rcases List.mem_cons.mp h with rfl | h2
              · exact Or.inl (List.mem_append_right _ (List.mem_singleton_self t))
              · exact Or.inr (List.mem_append_left _ h2)
          · obtain rfl : c = s := (List.mem_singleton.mp hsc).symm
            by_cases htv : t ∈ vis ++ [c]
            · exact Or.inl htv
            · refine Or.inr (List.mem_append_right _ ?_)
              refine List.mem_filter.mpr ⟨ht, ?_⟩
              have hcf : (vis ++ [c]).contains t = false := by
                rw [Bool.eq_false_iff]
                intro hcon
                exact htv (List.elem_iff.mp hcon)
              rw [hcf]
              rfl

/-- The BFS result is closed under transition targets. -/
theorem reachableFrom_closed (m : StateMachine) (hnd : (m.fsa.map (·.1)).Nodup) :
    ∀ s ∈ reachableFrom m, ∀ t ∈ rowTargets (getRow m.fsa s), t ∈ reachableFrom m := by
  unfold reachableFrom
  apply bfs_closed_aux m.fsa hnd (m.fsa.length + totalTargets m.fsa + 2) [m.state] []
  · rw [unvisited_nil]
    simp only [List.length_singleton]
    omega
  · intro s hs
    simp at hs

/-- A successful symbol step lands on a target of the current row. -/
theorem processSymbol_mem_targets (fsa : FSA) (s : String) (sym : Sym) (st2 : String)
    (h : processSymbol fsa s sym = .ok st2) : st2 ∈ rowTargets (getRow fsa s) := by
  unfold processSymbol at h
  split at h
  · exact Except.noConfusion h
  · rename_i t halo
    obtain rfl : t = st2 := Except.ok.inj h
    unfold rowTargets
    refine List.mem_flatMap.mpr ⟨(sym.toKey, Target.single t), alookup_mem _ _ _ halo, ?_⟩
    exact List.mem_singleton_self t
  · rename_i ts halo
    split at h
    · rename_i t
      obtain rfl : t = st2 := Except.ok.inj h
      unfold rowTargets
      refine List.mem_flatMap.mpr ⟨(sym.toKey, Target.multi [t]), ?_, ?_⟩
      · exact alookup_mem _ _ _ halo
      · exact List.mem_singleton_self t
    · exact Except.noConfusion h

/-- Rows of states the BFS reached are looked up unchanged in the pruned
table. -/
theorem getRow_prune (m : StateMachine) (s : String) (hs : s ∈ reachableFrom m) :
    getRow (removeUnreachable m).fsa s = getRow m.fsa s := by
  unfold removeUnreachable getRow
  have : alookup (m.fsa.filter (fun p => (reachableFrom m).contains p.1)) s =
      alookup m.fsa s := by
    apply alookup_filter_keep
    intro p _ hp1
    rw [hp1]
    exact List.elem_iff.mpr hs
  rw [this]

/-- The simulation loop is unchanged by the reachability prune, along any
input, because the run stays inside the BFS closure. -/
theorem callGo_prune (m : StateMachine) (hnd : (m.fsa.map (·.1)).Nodup) :
    ∀ (w : List Sym) (s : String), s ∈ reachableFrom m →
      callGo (removeUnreachable m).fsa s w = callGo m.fsa s w := by
  intro w
  induction w with
  | nil => intro s _; rfl
  | cons sym rest ih =>
    intro s hs
    have hps : processSymbol (removeUnreachable m).fsa s sym = processSymbol m.fsa s sym := by
      unfold processSymbol
      rw [getRow_prune m s hs]
    simp only [callGo, hps]
    cases hp : processSymbol m.fsa s sym with
    | error e => rfl
    | ok st2 =>
      have hst2 : st2 ∈ reachableFrom m :=
        reachableFrom_closed m hnd s hs st2 (processSymbol_mem_targets m.fsa s sym st2 hp)
      exact ih st2 hst2

/-- The pruned table keeps the structural invariants of the original and is
still closed: a kept row's targets are reachable, hence kept. -/
theorem prune_props (m : StateMachine) (hnd : (m.fsa.map (·.1)).Nodup)
    (hrows : ∀ p ∈ m.fsa, (p.2.transitions.map (·.1)).Nodup)
    (hdet : Deterministic m.fsa) (huni : UniformSyms m.fsa)
    (hcl : ClosedTargets m.fsa) :
    ((removeUnreachable m).fsa.map (·.1)).Nodup ∧
    (∀ p ∈ (removeUnreachable m).fsa, (p.2.transitions.map (·.1)).Nodup) ∧
    Deterministic (removeUnreachable m).fsa ∧
    UniformSyms (removeUnreachable m).fsa ∧
    ClosedTargets (removeUnreachable m).fsa := by
  have hsub : ∀ p ∈ (removeUnreachable m).fsa, p ∈ m.fsa := by
    intro p hp
    exact (List.mem_filter.mp hp).1
  refine ⟨?_, ?_, ?_, ?_, ?_⟩
  · exact hnd.sublist (List.Sublist.map _ (List.filter_sublist _))
  · intro p hp
    exact hrows p (hsub p hp)
  · intro p hp q hq
    exact hdet p (hsub p hp) q hq
  · intro p hp p2 hp2 s hsym
    exact huni p (hsub p hp) p2 (hsub p2 hp2) s hsym
  · intro p hp t ht
    obtain ⟨hpin, hkeep⟩ := List.mem_filter.mp hp
    have hreach : p.1 ∈ reachableFrom m := List.elem_iff.mp hkeep
    have hrow : getRow m.fsa p.1 = p.2 := by
      unfold getRow
      rw [alookup_of_mem_nodup m.fsa p.1 p.2 hnd hpin]
      rfl
    have htreach : t ∈ reachableFrom m := by
      apply reachableFrom_closed m hnd p.1 hreach
      rw [hrow]
      exact ht
    have htkey : t ∈ m.fsa.map (·.1) := hcl p hpin t ht
    obtain ⟨q, hqin, hq1⟩ := List.mem_map.mp htkey
    refine List.mem_map.mpr ⟨q, List.mem_filter.mpr ⟨hqin, ?_⟩, hq1⟩
    rw [hq1]
    exact List.elem_iff.mpr htreach

/-! ### Claim C1: the normalizer is a run-preserving renaming -/

/-- Pointwise table characterization of a successful normalization, keyed
rows included. -/
theorem normalize_spec2 (m m2 : StateMachine) (h : normalize m = some m2) :
    List.Forall₂ (fun p q => alookup (renameMap m.fsa) p.1 = some q.1 ∧
      renameRow (renameMap m.fsa) p.2 = some q.2) m.fsa m2.fsa := by
  simp only [normalize] at h
  split at h
  · exact Option.noConfusion h
  · rename_i rows hrows
    split at h
    · exact Option.noConfusion h
    · rename_i st hst
      obtain rfl : ({ m with fsa := rows, state := st } : StateMachine) = m2 :=
        Option.some.inj h
      have h2 := mapO_forall2 _ _ _ hrows
      refine List.Forall₂.imp ?_ h2
      intro p q hpq
      cases hnn : alookup (renameMap m.fsa) p.1 with
      | none =>
        cases hr : renameRow (renameMap m.fsa) p.2 with
        | none => rw [hnn, hr] at hpq; exact Option.noConfusion hpq
        | some r => rw [hnn, hr] at hpq; exact Option.noConfusion hpq
      | some nn =>
        cases hr : renameRow (renameMap m.fsa) p.2 with
        | none => rw [hnn, hr] at hpq; exact Option.noConfusion hpq
        | some r =>
          rw [hnn, hr] at hpq
          obtain rfl : (nn, r) = q := Option.some.inj hpq
          exact ⟨by simp [hnn], by simp [hr]⟩

/-- Distinct keys rename to distinct names. -/
theorem renameMap_inj (fsa : FSA) (k1 k2 v1 v2 : String) (hne : k1 ≠ k2)
    (h1 : alookup (renameMap fsa) k1 = some v1)
    (h2 : alookup (renameMap fsa) k2 = some v2) : v1 ≠ v2 := by
  rw [renameMap_eq] at h1 h2
  exact alookup_enumFrom_inj _ 0 k1 k2 v1 v2 hne h1 h2

/-- The transition list of a renamed row, pointwise: keys unchanged,
targets renamed. -/
theorem renameRow_trans (mp : List (String × String)) (r r2 : Row)
    (h : renameRow mp r = some r2) :
    List.Forall₂ (fun q q2 => q2.1 = q.1 ∧ renameTarget mp q.2 = some q2.2)
      r.transitions r2.transitions := by
  unfold renameRow at h
  split at h
  · exact Option.noConfusion h
  · rename_i tr htr
    obtain rfl : ({ r with transitions := tr } : Row) = r2 := Option.some.inj h
    have h2 := mapO_forall2 _ _ _ htr
    refine List.Forall₂.imp ?_ h2
    intro q q2 hq
    cases hrt : renameTarget mp q.2 with
    | none => rw [hrt] at hq; exact Option.noConfusion hq
    | some t2 =>
      rw [hrt] at hq
      obtain rfl : (q.1, t2) = q2 := Option.some.inj hq
      exact ⟨by simp, by simp [hrt]⟩

/-- Key-preserving pointwise relations synchronize lookups. -/
theorem forall2_alookup_sync {α β : Type} (S : α → β → Prop)
    {R : (String × α) → (String × β) → Prop}
    (hR : ∀ a b, R a b → b.1 = a.1 ∧ S a.2 b.2) :
    ∀ {l : List (String × α)} {l2 : List (String × β)},
      List.Forall₂ R l l2 →
      ∀ k, (alookup l k = none ∧ alookup l2 k = none) ∨
        (∃ v v2, alookup l k = some v ∧ alookup l2 k = some v2 ∧ S v v2) := by
  intro l l2 h
  induction h with
  | nil => intro k; exact Or.inl ⟨rfl, rfl⟩
  | cons hab hrest ih =>
    rename_i q q2 qs q2s
    intro k
    obtain ⟨hk, hS⟩ := hR q q2 hab
    by_cases hqk : q.1 = k
    · refine Or.inr ⟨q.2, q2.2, ?_, ?_, hS⟩
      · simp [alookup, hqk]
      · simp [alookup, hk, hqk]
    · rcases ih k with ⟨h1, h2⟩ | ⟨v, v2, h1, h2, hSv⟩
      · refine Or.inl ⟨?_, ?_⟩
        · simp [alookup, hqk, h1]
        · simp [alookup, hk, hqk, h2]
      · refine Or.inr ⟨v, v2, ?_, ?_, hSv⟩
        · simp [alookup, hqk, h1]
        · simp [alookup, hk, hqk, h2]

/-- A present key's lookup transports through a normalization. -/
theorem forall2_rename_lookup (mp : List (String × String))
    (hinj : ∀ k1 k2 v1 v2, k1 ≠ k2 → alookup mp k1 = some v1 →
      alookup mp k2 = some v2 → v1 ≠ v2) :
    ∀ {l l2 : FSA}, List.Forall₂ (fun p q => alookup mp p.1 = some q.1 ∧
      renameRow mp p.2 = some q.2) l l2 →
    ∀ k r, alookup l k = some r →
      ∃ k2 r2, alookup mp k = some k2 ∧ alookup l2 k2 = some r2 ∧
        renameRow mp r = some r2 := by
  intro l l2 h
  induction h with
  | nil => intro k r hk; exact Option.noConfusion hk
  | cons hpq hrest ih =>
    rename_i p q ps qs
    intro k r hk
    simp only [alookup] at hk
    by_cases hpk : p.1 = k
    · rw [if_pos hpk] at hk
      obtain rfl : p.2 = r := Option.some.inj hk
      refine ⟨q.1, q.2, ?_, ?_, hpq.2⟩
      · rw [← hpk]; exact hpq.1
      · simp [alookup]
    · rw [if_neg hpk] at hk
      obtain ⟨k2, r2, hphi, hl2, hren⟩ := ih k r hk
      refine ⟨k2, r2, hphi, ?_, hren⟩
      have hne : ¬ q.1 = k2 := hinj p.1 k q.1 k2 hpk hpq.1 hphi
      simp only [alookup, if_neg hne]
      exact hl2

/-- Renaming a single target renames the state through the mapping. -/
theorem renameTarget_single (mp : List (String × String)) (t : String) (tgt2 : Target)
    (h : renameTarget mp (Target.single t) = some tgt2) :
    ∃ t2, tgt2 = Target.single t2 ∧ alookup mp t = some t2 := by
  simp only [renameTarget] at h
  cases ha : alookup mp t with
  | none => rw [ha] at h; exact Option.noConfusion h
  | some t2 =>
    rw [ha] at h
    obtain rfl : Target.single t2 = tgt2 := Option.some.inj h
    exact ⟨t2, rfl, rfl⟩

/-- Key lists agree along a key-preserving pointwise relation. -/
theorem forall2_fst_eq {α β : Type} {R : (String × α) → (String × β) → Prop} :
    ∀ {l : List (String × α)} {l2 : List (String × β)},
      List.Forall₂ R l l2 → (∀ a b, R a b → b.1 = a.1) →
      l2.map (·.1) = l.map (·.1) := by
  intro l l2 h
  induction h with
  | nil => intro _; rfl
  | cons hab hrest ih =>
    intro hR
    simp only [List.map_cons, ih hR, hR _ _ hab]

/-- Every target of a renamed row is the rename of a target of the
original row. -/
theorem renameRow_targets (mp : List (String × String)) (r r2 : Row)
    (h : renameRow mp r = some r2) :
    ∀ t2 ∈ rowTargets r2, ∃ t ∈ rowTargets r, alookup mp t = some t2 := by
  intro t2 ht2
  have htrans := renameRow_trans mp r r2 h
  unfold rowTargets at ht2 ⊢
  obtain ⟨q2, hq2, hmem⟩ := List.mem_flatMap.mp ht2
  obtain ⟨q, hq, hrel⟩ := forall2_mem_right htrans q2 hq2
  obtain ⟨hkeq, hrt⟩ := hrel
  cases hqt : q.2 with
  | single t =>
    rw [hqt] at hrt
    obtain ⟨t2x, hq2eq, hphit⟩ := renameTarget_single mp t q2.2 hrt
    rw [hq2eq] at hmem
    have hmem2 : t2 ∈ [t2x] := hmem
    obtain rfl : t2 = t2x := List.mem_singleton.mp hmem2
    refine ⟨t, List.mem_flatMap.mpr ⟨q, hq, ?_⟩, hphit⟩
    rw [hqt]
    exact List.mem_singleton_self t
  | multi ts =>
    rw [hqt] at hrt
    simp only [renameTarget] at hrt
    cases hmo : mapO (alookup mp) ts with
    | none => rw [hmo] at hrt; exact Option.noConfusion hrt
    | some ts2 =>
      rw [hmo] at hrt
      have hq22 : q2.2 = Target.multi ts2 := (Option.some.inj hrt).symm
      rw [hq22] at hmem
      have hmem2 : t2 ∈ ts2 := hmem
      obtain ⟨t, ht, hphit⟩ := forall2_mem_right (mapO_forall2 _ _ _ hmo) t2 hmem2
      refine ⟨t, List.mem_flatMap.mpr ⟨q, hq, ?_⟩, hphit⟩
      rw [hqt]
      exact ht

/-- Normalization preserves the structural invariants: per-row distinct
keys, determinism, uniform symbol sets and target closure. -/
theorem normalize_props (m m2 : StateMachine)
    (hnd : (m.fsa.map (·.1)).Nodup)
    (hrows : ∀ p ∈ m.fsa, (p.2.transitions.map (·.1)).Nodup)
    (hdet : Deterministic m.fsa) (huni : UniformSyms m.fsa)
    (hcl : ClosedTargets m.fsa) (h : normalize m = some m2) :
    (∀ p ∈ m2.fsa, (p.2.transitions.map (·.1)).Nodup) ∧
    Deterministic m2.fsa ∧ UniformSyms m2.fsa ∧ ClosedTargets m2.fsa := by
  have hspec := normalize_spec2 m m2 h
  have hinj := renameMap_inj m.fsa
  refine ⟨?_, ?_, ?_, ?_⟩
  · intro q hq
    obtain ⟨p, hp, hrel⟩ := forall2_mem_right hspec q hq
    have hkeys := forall2_fst_eq (renameRow_trans _ _ _ hrel.2) (fun a b hab => hab.1)
    rw [hkeys]
    exact hrows p hp
  · intro q hq e2 he2
    obtain ⟨p, hp, hrel⟩ := forall2_mem_right hspec q hq
    have htrans := renameRow_trans _ _ _ hrel.2
    obtain ⟨e, he, herel⟩ := forall2_mem_right htrans e2 he2
    have hsingle := hdet p hp e he
    cases het : e.2 with
    | multi ts => rw [het] at hsingle; exact absurd hsingle (by simp [Target.isSingle])
    | single t =>
      rw [het] at herel
      obtain ⟨t2, he2t, -⟩ := renameTarget_single _ t e2.2 herel.2
      rw [he2t]
      rfl
  · intro q hq q2 hq2 s hsym
    obtain ⟨p, hp, hrel⟩ := forall2_mem_right hspec q hq
    obtain ⟨p2, hp2, hrel2⟩ := forall2_mem_right hspec q2 hq2
    have hk1 := forall2_fst_eq (renameRow_trans _ _ _ hrel.2) (fun a b hab => hab.1)
    have hk2 := forall2_fst_eq (renameRow_trans _ _ _ hrel2.2) (fun a b hab => hab.1)
    unfold rowSyms at hsym ⊢
    rw [hk2]
    rw [hk1] at hsym
    exact huni p hp p2 hp2 s hsym
  · intro q hq t2 ht2
    obtain ⟨p, hp, hrel⟩ := forall2_mem_right hspec q hq
    obtain ⟨t, ht, hphit⟩ := renameRow_targets _ _ _ hrel.2 t2 ht2
    have htkey : t ∈ m.fsa.map (·.1) := hcl p hp t ht
    have hsome := (hasKey_iff_mem m.fsa t).mpr htkey
    obtain ⟨rt, hrt⟩ := Option.isSome_iff_exists.mp hsome
    obtain ⟨k2, r2, hphi2, hl2, -⟩ := forall2_rename_lookup _ hinj hspec t rt hrt
    have hkeq : t2 = k2 := Option.some.inj (hphit.symm.trans hphi2)
    rw [hkeq]
    exact List.mem_map.mpr ⟨(k2, r2), alookup_mem _ _ _ hl2, rfl⟩

/-- The simulation loop transports through a normalization: a run that
completes without error completes identically on the renamed machine, with
renamed states and equal flags. -/
theorem callGo_rename (m m2 : StateMachine)
    (hnd : (m.fsa.map (·.1)).Nodup) (hdet : Deterministic m.fsa)
    (hcl : ClosedTargets m.fsa) (h : normalize m = some m2) :
    ∀ (w : List Sym) (s s2 : String) (r : Row),
      alookup m.fsa s = some r → alookup (renameMap m.fsa) s = some s2 →
      ∀ sf, callGo m.fsa s w = (sf, none) →
        ∃ sf2 rf rf2, callGo m2.fsa s2 w = (sf2, none) ∧
          alookup m.fsa sf = some rf ∧
          alookup (renameMap m.fsa) sf = some sf2 ∧
          alookup m2.fsa sf2 = some rf2 ∧ rf2.accept = rf.accept := by
  have hspec := normalize_spec2 m m2 h
  have hinj := renameMap_inj m.fsa
  intro w
  induction w with
  | nil =>
    intro s s2 r hr hphi sf hcall
    have hcall2 : (s, (none : Option SimError)) = (sf, none) := hcall
    injection hcall2 with h1 h2
    subst h1
    obtain ⟨s2x, r2, hphi2, hl2, hren⟩ := forall2_rename_lookup _ hinj hspec s r hr
    obtain rfl : s2 = s2x := Option.some.inj (hphi.symm.trans hphi2)
    obtain ⟨-, hacc2⟩ := renameRow_flags _ r r2 hren
    exact ⟨s2, r, r2, rfl, hr, hphi, hl2, hacc2⟩
  | cons sym rest ih =>
    intro s s2 r hr hphi sf hcall
    simp only [callGo] at hcall
    cases hp : processSymbol m.fsa s sym with
    | error e =>
      rw [hp] at hcall
      have hcall2 : (s, some e) = (sf, none) := hcall
      injection hcall2 with h1 h2
      exact Option.noConfusion h2
    | ok st2 =>
      rw [hp] at hcall
      have hrowm : getRow m.fsa s = r := by unfold getRow; rw [hr]; rfl
      unfold processSymbol at hp
      rw [hrowm] at hp
      cases hlo : alookup r.transitions sym.toKey with
      | none => rw [hlo] at hp; exact Except.noConfusion hp
      | some tgt =>
        rw [hlo] at hp
        have hmem : (sym.toKey, tgt) ∈ r.transitions := alookup_mem _ _ _ hlo
        have hsingle : tgt.isSingle = true :=
          hdet (s, r) (alookup_mem _ _ _ hr) (sym.toKey, tgt) hmem
        cases tgt with
        | multi ts => exact absurd hsingle (by simp [Target.isSingle])
        | single t =>
          obtain rfl : t = st2 := Except.ok.inj hp
          have htkey : t ∈ m.fsa.map (·.1) := by
            apply hcl (s, r) (alookup_mem _ _ _ hr)
            unfold rowTargets
            exact List.mem_flatMap.mpr
              ⟨(sym.toKey, Target.single t), hmem, List.mem_singleton_self t⟩
          have hsome := (hasKey_iff_mem m.fsa t).mpr htkey
          obtain ⟨rt, hrt⟩ := Option.isSome_iff_exists.mp hsome
          obtain ⟨s2x, r2, hphi2, hl2, hren⟩ := forall2_rename_lookup _ hinj hspec s r hr
          obtain rfl : s2 = s2x := Option.some.inj (hphi.symm.trans hphi2)
          have htrans := renameRow_trans _ r r2 hren
          rcases forall2_alookup_sync (fun tgtA tgtB => renameTarget (renameMap m.fsa) tgtA = some tgtB) (fun a b hab => hab) htrans sym.toKey with ⟨hn1, -⟩ | ⟨v, v2, hv1, hv2, hS⟩
          · rw [hlo] at hn1; exact Option.noConfusion hn1
          · obtain rfl : v = Target.single t := by
              rw [hlo] at hv1
              exact (Option.some.inj hv1).symm
            obtain ⟨t2, rfl, hphit⟩ := renameTarget_single _ t v2 hS
            have hps2 : processSymbol m2.fsa s2 sym = .ok t2 := by
              unfold processSymbol
              have hrow2 : getRow m2.fsa s2 = r2 := by unfold getRow; rw [hl2]; rfl
              rw [hrow2, hv2]
            obtain ⟨sf2, rf, rf2, hc2, hf1, hf2x, hf3, hf4⟩ :=
              ih t t2 rt hrt hphit sf hcall
            refine ⟨sf2, rf, rf2, ?_, hf1, hf2x, hf3, hf4⟩
            simp only [callGo, hps2]
            exact hc2

/-! ### Claim C1: soundness of the filling pipeline -/

/-- Setting an in-range entry sets it. -/
theorem tget_tset_self (t : Table) (n i j : Nat) (hwf : TableWF t n)
    (hi : i < n) (hj : j < n) : tget (tset t i j true) i j = true := by
  have hlen : i < t.length := by rw [hwf.1]; exact hi
  obtain ⟨row, hg⟩ := nth_lt t i hlen
  have hrowlen : j < row.length := by
    rw [hwf.2 row (nth_mem t i row hg)]; exact hj
  refine (tget_true_iff _ i j).mpr ⟨lset row j true, ?_, ?_⟩
  · unfold tset
    rw [hg]
    exact nth_lset_self t i _ hlen
  · exact nth_lset_self row j true hrowlen

/-- Marking a pair also sets its mirror entry. -/
theorem tget_mark_self2 (t : Table) (n i j : Nat) (hwf : TableWF t n)
    (hi : i < n) (hj : j < n) : tget (mark t i j) j i = true := by
  unfold mark
  exact tget_tset_self (tset t i j true) n j i (tset_wf t n i j true hwf) hj hi

/-- Entries true after a set were true before or are the set entry. -/
theorem tget_tset_true_inv (t : Table) (i j a b : Nat)
    (h : tget (tset t i j true) a b = true) :
    tget t a b = true ∨ (a = i ∧ b = j) := by
  unfold tset at h
  cases hgi : nth? t i with
  | none => rw [hgi] at h; exact Or.inl h
  | some row =>
    rw [hgi] at h
    by_cases hia : a = i
    · subst hia
      obtain ⟨row2, hg2, hr2⟩ := (tget_true_iff _ a b).mp h
      rw [nth_lset_self t a (lset row j true) (nth_some_lt t a row hgi)] at hg2
      obtain rfl : lset row j true = row2 := Option.some.inj hg2
      by_cases hjb : b = j
      · exact Or.inr ⟨rfl, hjb⟩
      · refine Or.inl ((tget_true_iff t a b).mpr ⟨row, hgi, ?_⟩)
        rw [nth_lset_ne row j b true (fun he => hjb he.symm)] at hr2
        exact hr2
    · obtain ⟨row2, hg2, hr2⟩ := (tget_true_iff _ a b).mp h
      rw [nth_lset_ne t i a (lset row j true) (fun he => hia he.symm)] at hg2
      exact Or.inl ((tget_true_iff t a b).mpr ⟨row2, hg2, hr2⟩)

/-- Entries true after a symmetric mark were true before or are the marked
pair in one of its two orientations. -/
theorem tget_mark_inv (t : Table) (i j a b : Nat)
    (h : tget (mark t i j) a b = true) :
    tget t a b = true ∨ (a = i ∧ b = j) ∨ (a = j ∧ b = i) := by
  unfold mark at h
  rcases tget_tset_true_inv _ j i a b h with h2 | ⟨rfl, rfl⟩
  · rcases tget_tset_true_inv _ i j a b h2 with h3 | ⟨rfl, rfl⟩
    · exact Or.inl h3
    · exact Or.inr (Or.inl ⟨rfl, rfl⟩)
  · exact Or.inr (Or.inr ⟨rfl, rfl⟩)

/-- Distinguishability is symmetric. -/
theorem dist_symm (fsa : FSA) (a b : Nat) (h : Dist fsa a b) : Dist fsa b a := by
  obtain ⟨u, va, vb, h1, h2, h3⟩ := h
  exact ⟨u, vb, va, h2, h1, fun he => h3 he.symm⟩

/-- A justified symmetric mark preserves the soundness invariant. -/
theorem sound_mark (fsa : FSA) (n : Nat) (t : Table) (i j : Nat)
    (hs : Sound fsa n t) (hwf : TableWF t n)
    (hi : i < n) (hj : j < n) (hne : i ≠ j) (hd : Dist fsa i j) :
    Sound fsa n (mark t i j) := by
  intro a b hab
  rcases tget_mark_inv t i j a b hab with h | ⟨rfl, rfl⟩ | ⟨rfl, rfl⟩
  · obtain ⟨h1, h2, h3, h4, h5⟩ := hs a b h
    exact ⟨h1, h2, h3, mark_mono t i j b a h4, h5⟩
  · exact ⟨hi, hj, hne, tget_mark_self2 t n a b hwf hi hj, hd⟩
  · exact ⟨hj, hi, fun he => hne he.symm, tget_mark_self t n b a hwf hi hj,
      dist_symm fsa b a hd⟩

/-- Positional reads of a constant-mapped list. -/
theorem nth_map_const {α β : Type} (l : List α) (c : β) :
    ∀ (b : Nat), nth? (l.map (fun _ => c)) b = none ∨
      nth? (l.map (fun _ => c)) b = some c := by
  induction l with
  | nil => intro b; exact Or.inl rfl
  | cons x xs ih =>
    intro b
    cases b with
    | zero => exact Or.inr rfl
    | succ b2 => exact ih b2

/-- The all-zero table is well-formed. -/
theorem zeros_wf (n : Nat) :
    TableWF ((List.range n).map (fun _ => (List.range n).map (fun _ => false))) n := by
  constructor
  · rw [List.length_map, List.length_range]
  · intro row hrow
    obtain ⟨x, hx, hxe⟩ := List.mem_map.mp hrow
    rw [← hxe, List.length_map, List.length_range]

/-- The all-zero table has no marks. -/
theorem tget_zeros (n a b : Nat) :
    tget ((List.range n).map (fun _ => (List.range n).map (fun _ => false))) a b
      = false := by
  unfold tget
  rcases nth_map_const (List.range n) ((List.range n).map (fun _ => false)) a with h | h
  · rw [h]
    rfl
  · rw [h]
    simp only [Option.getD_some]
    rcases nth_map_const (List.range n) false b with h2 | h2
    · rw [h2]
      rfl
    · rw [h2]
      rfl

/-- The inner initialization loop never unsets an entry. -/
theorem initInner_mono (acc : List Nat) (i a b : Nat) :
    ∀ (js : List Nat) (t : Table), tget t a b = true →
      tget (js.foldl (fun t2 j2 =>
        if acc.contains i ≠ acc.contains j2 then mark t2 i j2 else t2) t) a b = true := by
  intro js
  induction js with
  | nil => intro t h; exact h
  | cons j0 js2 ih =>
    intro t h
    simp only [List.foldl_cons]
    apply ih
    split
    · exact mark_mono t i j0 a b h
    · exact h

/-- The inner initialization loop preserves well-formedness. -/
theorem initInner_wf (n : Nat) (acc : List Nat) (i : Nat) :
    ∀ (js : List Nat) (t : Table), TableWF t n →
      TableWF (js.foldl (fun t2 j2 =>
        if acc.contains i ≠ acc.contains j2 then mark t2 i j2 else t2) t) n := by
  intro js
  induction js with
  | nil => intro t h; exact h
  | cons j0 js2 ih =>
    intro t h
    simp only [List.foldl_cons]
    apply ih
    split
    · exact mark_wf t n i j0 h
    · exact h

/-- The inner initialization loop marks every pair whose accept flags
differ. -/
theorem initInner_marks (n : Nat) (acc : List Nat) (i j : Nat) (hi : i < n)
    (hjn : j < n) (hcond : acc.contains i ≠ acc.contains j) :
    ∀ (js : List Nat) (t : Table), TableWF t n → j ∈ js →
      tget (js.foldl (fun t2 j2 =>
        if acc.contains i ≠ acc.contains j2 then mark t2 i j2 else t2) t) i j = true := by
  intro js
  induction js with
  | nil => intro t _ hj; simp at hj
  | cons j0 js2 ih =>
    intro t hwf hj
    simp only [List.foldl_cons]
    rcases List.mem_cons.mp hj with rfl | hj2
    · apply initInner_mono
      rw [if_pos hcond]
      exact tget_mark_self t n i j hwf hi hjn
    · apply ih _ ?_ hj2
      split
      · exact mark_wf t n i j0 hwf
      · exact hwf

/-- The outer initialization loop never unsets an entry. -/
theorem initOuter_mono (acc : List Nat) (a b : Nat) :
    ∀ (il : List Nat) (t : Table), tget t a b = true →
      tget (il.foldl (fun t2 i => (List.range i).foldl (fun t3 j2 =>
        if acc.contains i ≠ acc.contains j2 then mark t3 i j2 else t3) t2) t) a b
        = true := by
  intro il
  induction il with
  | nil => intro t h; exact h
  | cons i0 il2 ih =>
    intro t h
    simp only [List.foldl_cons]
    exact ih _ (initInner_mono acc i0 a b (List.range i0) t h)

/-- The outer initialization loop preserves well-formedness. -/
theorem initOuter_wf (n : Nat) (acc : List Nat) :
    ∀ (il : List Nat) (t : Table), TableWF t n →
      TableWF (il.foldl (fun t2 i => (List.range i).foldl (fun t3 j2 =>
        if acc.contains i ≠ acc.contains j2 then mark t3 i j2 else t3) t2) t) n := by
  intro il
  induction il with
  | nil => intro t h; exact h
  | cons i0 il2 ih =>
    intro t h
    simp only [List.foldl_cons]
    exact ih _ (initInner_wf n acc i0 (List.range i0) t h)

/-- The initial table is well-formed. -/
theorem initTable_wf (n : Nat) (acc : List Nat) : TableWF (initTable n acc) n := by
  unfold initTable
  exact initOuter_wf n acc (List.range n) _ (zeros_wf n)

/-- The initial table marks every ordered pair whose accept flags differ. -/
theorem initTable_marks (n : Nat) (acc : List Nat) (i j : Nat) (hj : j < i)
    (hi : i < n) (hcond : acc.contains i ≠ acc.contains j) :
    tget (initTable n acc) i j = true := by
  unfold initTable
  have hjn : j < n := lt_trans hj hi
  have key : ∀ (il : List Nat) (t : Table), TableWF t n → i ∈ il →
      tget (il.foldl (fun t2 i2 => (List.range i2).foldl (fun t3 j2 =>
        if acc.contains i2 ≠ acc.contains j2 then mark t3 i2 j2 else t3) t2) t) i j
        = true := by
    intro il
    induction il with
    | nil => intro t _ hmem; simp at hmem
    | cons i0 il2 ih =>
      intro t hwf hmem
      simp only [List.foldl_cons]
      rcases List.mem_cons.mp hmem with rfl | hmem2
      · apply initOuter_mono
        exact initInner_marks n acc i j hi hjn hcond (List.range i) t hwf
          (List.mem_range.mpr hj)
      · exact ih _ (initInner_wf n acc i0 (List.range i0) t hwf) hmem2
  exact key (List.range n) _ (zeros_wf n) (List.mem_range.mpr hi)

/-- The initial table is sound when the accepting index list describes the
accept flags: every initial mark separates an accepting index from a
non-accepting one. -/
theorem initTable_sound (fsa : FSA) (n : Nat) (acc : List Nat)
    (haccS : ∀ a, a < n → acc.contains a = acceptIdx fsa a) :
    Sound fsa n (initTable n acc) := by
  unfold initTable
  have inner : ∀ (i : Nat), i < n → ∀ (js : List Nat), (∀ j2 ∈ js, j2 < i) →
      ∀ t, TableWF t n ∧ Sound fsa n t →
      TableWF (js.foldl (fun t2 j2 =>
        if acc.contains i ≠ acc.contains j2 then mark t2 i j2 else t2) t) n ∧
      Sound fsa n (js.foldl (fun t2 j2 =>
        if acc.contains i ≠ acc.contains j2 then mark t2 i j2 else t2) t) := by
    intro i hi js
    induction js with
    | nil => intro _ t h; exact h
    | cons j0 js2 ih =>
      intro hjs t h
      simp only [List.foldl_cons]
      apply ih (fun j2 hj2 => hjs j2 (List.mem_cons_of_mem j0 hj2))
      have hj0 : j0 < i := hjs j0 (List.mem_cons_self j0 js2)
      split
      · rename_i hcond
        have hj0n : j0 < n := lt_trans hj0 hi
        have hdiff : acceptIdx fsa i ≠ acceptIdx fsa j0 := by
          rw [← haccS i hi, ← haccS j0 hj0n]
          exact hcond
        refine ⟨mark_wf t n i j0 h.1, ?_⟩
        exact sound_mark fsa n t i j0 h.2 h.1 hi hj0n (by omega)
          ⟨[], i, j0, rfl, rfl, hdiff⟩
      · exact h
  have outer : ∀ (il : List Nat), (∀ i ∈ il, i < n) →
      ∀ t, TableWF t n ∧ Sound fsa n t →
      TableWF (il.foldl (fun t2 i => (List.range i).foldl (fun t3 j2 =>
        if acc.contains i ≠ acc.contains j2 then mark t3 i j2 else t3) t2) t) n ∧
      Sound fsa n (il.foldl (fun t2 i => (List.range i).foldl (fun t3 j2 =>
        if acc.contains i ≠ acc.contains j2 then mark t3 i j2 else t3) t2) t) := by
    intro il
    induction il with
    | nil => intro _ t h; exact h
    | cons i0 il2 ih =>
      intro hil t h
      simp only [List.foldl_cons]
      apply ih (fun i2 hi2 => hil i2 (List.mem_cons_of_mem i0 hi2))
      exact inner i0 (hil i0 (List.mem_cons_self i0 il2)) (List.range i0)
        (fun j2 hj2 => List.mem_range.mp hj2) t h
  refine (outer (List.range n) (fun i2 hi2 => List.mem_range.mp hi2) _
    ⟨zeros_wf n, ?_⟩).2
  intro a b hab
  rw [tget_zeros n a b] at hab
  exact Bool.noConfusion hab

/-- A symbol scan preserves soundness: a new mark on the scanned pair is
justified by the sound snapshot through the scanned symbol. -/
theorem scanSyms_sound (fsa : FSA) (n : Nat) (old : Table) (i j : Nat)
    (rowi rowj : Row) (hri : alookup fsa (mkS i) = some rowi)
    (hrj : alookup fsa (mkS j) = some rowj)
    (hndi : (rowi.transitions.map (·.1)).Nodup)
    (hi : i < n) (hj : j < n) (hne : i ≠ j)
    (hsOld : Sound fsa n old) :
    ∀ (l : List (String × Target)), (∀ q ∈ l, q ∈ rowi.transitions) →
      ∀ t t2 mk, scanSyms n old t i j rowj l = some (t2, mk) →
        TableWF t n → Sound fsa n t → Sound fsa n t2 := by
  intro l
  induction l with
  | nil =>
    intro hsub t t2 mk h hwf hs
    simp only [scanSyms, Option.some.injEq, Prod.mk.injEq] at h
    rw [← h.1]
    exact hs
  | cons q rest ih =>
    intro hsub t t2 mk h hwf hs
    obtain ⟨sym, ti⟩ := q
    simp only [scanSyms] at h
    split at h
    · simp at h
    · rename_i tj hlj
      split at h
      · simp at h
      · rename_i x hx
        split at h
        · simp at h
        · rename_i y hy
          split at h
          · simp at h
          · rename_i xi hxi
            split at h
            · simp at h
            · rename_i yj hyj
              split at h
              · simp at h
              · split at h
                · rename_i hold
                  simp only [Option.some.injEq, Prod.mk.injEq] at h
                  rw [← h.1]
                  have hdold := (hsOld xi yj hold).2.2.2.2
                  have halo2 : alookup rowi.transitions sym = some ti :=
                    alookup_of_mem_nodup _ _ _ hndi (hsub (sym, ti) (List.mem_cons_self _ _))
                  have hstepi : stepIdx fsa i sym = some xi := by
                    simp only [stepIdx, hri, halo2, hx, hxi]
                  have hstepj : stepIdx fsa j sym = some yj := by
                    simp only [stepIdx, hrj, hlj, hy, hyj]
                  obtain ⟨u, va, vb, hu1, hu2, hu3⟩ := hdold
                  have hdij : Dist fsa i j := by
                    refine ⟨sym :: u, va, vb, ?_, ?_, hu3⟩
                    · simp only [runIdx, hstepi]
                      exact hu1
                    · simp only [runIdx, hstepj]
                      exact hu2
                  exact sound_mark fsa n t i j hs hwf hi hj hne hdij
                · exact ih (fun q2 hq2 => hsub q2 (List.mem_cons_of_mem _ hq2))
                    t t2 mk h hwf hs

/-- The inner pair loop preserves soundness. -/
theorem passJ_sound (fsa : FSA) (n : Nat) (old : Table) (i : Nat) (hi : i < n)
    (hrows : ∀ p ∈ fsa, (p.2.transitions.map (·.1)).Nodup)
    (hsOld : Sound fsa n old) :
    ∀ (js : List Nat), (∀ j2 ∈ js, j2 < i) →
      ∀ acc res, passJ fsa n old i js acc = some res →
        TableWF acc.1 n → Sound fsa n acc.1 → Sound fsa n res.1 := by
  intro js
  induction js with
  | nil =>
    intro _ acc res h hwf hs
    simp only [passJ, Option.some.injEq] at h
    rw [← h]
    exact hs
  | cons j rest ih =>
    intro hjs acc res h hwf hs
    obtain ⟨t, ch⟩ := acc
    simp only [passJ] at h
    split at h
    · exact ih (fun j2 hj2 => hjs j2 (List.mem_cons_of_mem _ hj2)) (t, ch) res h hwf hs
    · split at h
      · rename_i rowi rowj heqi heqj
        split at h
        · simp at h
        · rename_i t2 marked hscan
          have hj : j < i := hjs j (List.mem_cons_self j rest)
          have hs2 := scanSyms_sound fsa n old i j rowi rowj heqi heqj
            (hrows (mkS i, rowi) (alookup_mem _ _ _ heqi))
            hi (lt_trans hj hi) (by omega) hsOld rowi.transitions (fun q hq => hq)
            t t2 marked hscan hwf hs
          exact ih (fun j2 hj2 => hjs j2 (List.mem_cons_of_mem _ hj2))
            (t2, ch || marked) res h
            (scanSyms_wf n old i j rowj rowi.transitions t t2 marked hscan hwf) hs2
      · simp at h

/-- The outer pair loop preserves soundness. -/
theorem passI_sound (fsa : FSA) (n : Nat) (old : Table)
    (hrows : ∀ p ∈ fsa, (p.2.transitions.map (·.1)).Nodup)
    (hsOld : Sound fsa n old) :
    ∀ (il : List Nat), (∀ i2 ∈ il, i2 < n) →
      ∀ acc res, passI fsa n old il acc = some res →
        TableWF acc.1 n → Sound fsa n acc.1 → Sound fsa n res.1 := by
  intro il
  induction il with
  | nil =>
    intro _ acc res h hwf hs
    simp only [passI, Option.some.injEq] at h
    rw [← h]
    exact hs
  | cons i rest ih =>
    intro hil acc res h hwf hs
    simp only [passI] at h
    split at h
    · simp at h
    · rename_i acc2 hpj
      have hi : i < n := hil i (List.mem_cons_self i rest)
      have hs2 := passJ_sound fsa n old i hi hrows hsOld (List.range i)
        (fun j2 hj2 => List.mem_range.mp hj2) acc acc2 hpj hwf hs
      exact ih (fun i2 hi2 => hil i2 (List.mem_cons_of_mem _ hi2)) acc2 res h
        (passJ_wf fsa n old i (List.range i) acc acc2 hpj hwf) hs2

/-- The changed flag only ever grows through the inner loop. -/
theorem passJ_ch_mono (fsa : FSA) (n : Nat) (old : Table) (i : Nat) :
    ∀ (js : List Nat) (acc res : Table × Bool),
      passJ fsa n old i js acc = some res → acc.2 = true → res.2 = true := by
  intro js
  induction js with
  | nil =>
    intro acc res h h2
    simp only [passJ, Option.some.injEq] at h
    rw [← h]
    exact h2
  | cons j rest ih =>
    intro acc res h h2
    obtain ⟨t, ch⟩ := acc
    obtain rfl : ch = true := h2
    simp only [passJ] at h
    split at h
    · exact ih (t, true) res h rfl
    · split at h
      · rename_i rowi rowj heqi heqj
        split at h
        · simp at h
        · rename_i t2 marked hscan
          exact ih (t2, true || marked) res h rfl
      · simp at h

/-- The changed flag only ever grows through the outer loop. -/
theorem passI_ch_mono (fsa : FSA) (n : Nat) (old : Table) :
    ∀ (il : List Nat) (acc res : Table × Bool),
      passI fsa n old il acc = some res → acc.2 = true → res.2 = true := by
  intro il
  induction il with
  | nil =>
    intro acc res h h2
    simp only [passI, Option.some.injEq] at h
    rw [← h]
    exact h2
  | cons i rest ih =>
    intro acc res h h2
    simp only [passI] at h
    split at h
    · simp at h
    · rename_i acc2 hpj
      exact ih acc2 res h (passJ_ch_mono fsa n old i (List.range i) acc acc2 hpj h2)

/-- An inner loop that reports no change leaves the table untouched. -/
theorem passJ_nochange (fsa : FSA) (n : Nat) (old : Table) (i : Nat) :
    ∀ (js : List Nat) (t : Table) (res : Table × Bool),
      passJ fsa n old i js (t, false) = some res → res.2 = false → res.1 = t := by
  intro js
  induction js with
  | nil =>
    intro t res h _
    simp only [passJ, Option.some.injEq] at h
    rw [← h]
  | cons j rest ih =>
    intro t res h hres
    simp only [passJ] at h
    split at h
    · exact ih t res h hres
    · split at h
      · rename_i rowi rowj heqi heqj
        split at h
        · simp at h
        · rename_i t2 marked hscan
          cases hm : marked with
          | true =>
            rw [hm] at h
            have := passJ_ch_mono fsa n old i rest (t2, false || true) res h rfl
            rw [hres] at this
            exact Bool.noConfusion this
          | false =>
            rw [hm] at hscan h
            obtain ⟨ht2, -⟩ :=
              scanSyms_nomark n old i j rowj rowi.transitions t t2 hscan
            obtain rfl : t = t2 := ht2.symm
            exact ih t res h hres
      · simp at h

/-- An outer loop that reports no change leaves the table untouched. -/
theorem passI_nochange (fsa : FSA) (n : Nat) (old : Table) :
    ∀ (il : List Nat) (t : Table) (res : Table × Bool),
      passI fsa n old il (t, false) = some res → res.2 = false → res.1 = t := by
  intro il
  induction il with
  | nil =>
    intro t res h _
    simp only [passI, Option.some.injEq] at h
    rw [← h]
  | cons i rest ih =>
    intro t res h hres
    simp only [passI] at h
    split at h
    · simp at h
    · rename_i acc2 hpj
      obtain ⟨t2, ch2⟩ := acc2
      cases hch : ch2 with
      | true =>
        rw [hch] at h
        have := passI_ch_mono fsa n old rest (t2, true) res h rfl
        rw [hres] at this
        exact Bool.noConfusion this
      | false =>
        rw [hch] at h hpj
        obtain rfl : t = t2 :=
          (passJ_nochange fsa n old i (List.range i) t (t2, false) hpj rfl).symm
        exact ih t res h hres

/-- A pass that reports no change returns its input table. -/
theorem fillPass_nochange (fsa : FSA) (n : Nat) (t t2 : Table)
    (h : fillPass fsa n t = some (t2, false)) : t2 = t := by
  unfold fillPass at h
  exact passI_nochange fsa n t (List.range n) t (t2, false) h rfl

/-- A scan that completes without marking found, for every scanned symbol,
a counterpart transition whose resolved target pair is unmarked in the
snapshot and within range. -/
theorem scanSyms_fix (n : Nat) (old : Table) (i j : Nat) (rowj : Row) :
    ∀ (l : List (String × Target)) (t t2 : Table),
      scanSyms n old t i j rowj l = some (t2, false) →
      ∀ sym ti, (sym, ti) ∈ l →
        ∃ tj x y xi yj, alookup rowj.transitions sym = some tj ∧
          resolveTarget ti = some x ∧ resolveTarget tj = some y ∧
          parseState x = some xi ∧ parseState y = some yj ∧
          xi < n ∧ yj < n ∧ tget old xi yj = false := by
  intro l
  induction l with
  | nil => intro t t2 h sym ti hmem; simp at hmem
  | cons q rest ih =>
    intro t t2 h sym ti hmem
    obtain ⟨sym0, ti0⟩ := q
    simp only [scanSyms] at h
    split at h
    · simp at h
    · rename_i tj0 hlj
      split at h
      · simp at h
      · rename_i x0 hx
        split at h
        · simp at h
        · rename_i y0 hy
          split at h
          · simp at h
          · rename_i xi0 hxi
            split at h
            · simp at h
            · rename_i yj0 hyj
              split at h
              · simp at h
              · rename_i hrange
                split at h
                · simp only [Option.some.injEq, Prod.mk.injEq] at h
                  exact absurd h.2 (by simp)
                · rename_i hold
                  rcases List.mem_cons.mp hmem with heq | hmem2
                  · injection heq with h1 h2
                    subst h1
                    subst h2
                    push_neg at hrange
                    refine ⟨tj0, x0, y0, xi0, yj0, hlj, hx, hy, hxi, hyj,
                      hrange.1, hrange.2, ?_⟩
                    exact Bool.eq_false_iff.mpr hold
                  · exact ih t t2 h sym ti hmem2

/-- In a no-change inner loop, each unmarked scanned pair was scanned in
full without marking. -/
theorem passJ_fix (fsa : FSA) (n : Nat) (old : Table) (i : Nat) :
    ∀ (js : List Nat) (t : Table) (res : Table × Bool),
      passJ fsa n old i js (t, false) = some res → res.2 = false →
      ∀ j ∈ js, tget t i j = false →
        ∃ rowi rowj, alookup fsa (mkS i) = some rowi ∧
          alookup fsa (mkS j) = some rowj ∧
          scanSyms n old t i j rowj rowi.transitions = some (t, false) := by
  intro js
  induction js with
  | nil => intro t res _ _ j hj; simp at hj
  | cons j0 rest ih =>
    intro t res h hres j hj hum
    simp only [passJ] at h
    rcases List.mem_cons.mp hj with rfl | hj2
    · split at h
      · rename_i hmark
        rw [hum] at hmark
        exact Bool.noConfusion hmark
      · split at h
        · rename_i rowi rowj heqi heqj
          split at h
          · simp at h
          · rename_i t2 marked hscan
            cases hm : marked with
            | true =>
              rw [hm] at h
              have := passJ_ch_mono fsa n old i rest (t2, false || true) res h rfl
              rw [hres] at this
              exact Bool.noConfusion this
            | false =>
              rw [hm] at hscan
              obtain ⟨ht2, -⟩ :=
                scanSyms_nomark n old i j rowj rowi.transitions t t2 hscan
              obtain rfl : t = t2 := ht2.symm
              exact ⟨rowi, rowj, heqi, heqj, hscan⟩
        · simp at h
    · split at h
      · exact ih t res h hres j hj2 hum
      · split at h
        · rename_i rowi rowj heqi heqj
          split at h
          · simp at h
          · rename_i t2 marked hscan
            cases hm : marked with
            | true =>
              rw [hm] at h
              have := passJ_ch_mono fsa n old i rest (t2, false || true) res h rfl
              rw [hres] at this
              exact Bool.noConfusion this
            | false =>
              rw [hm] at hscan h
              obtain ⟨ht2, -⟩ :=
                scanSyms_nomark n old i j0 rowj rowi.transitions t t2 hscan
              obtain rfl : t = t2 := ht2.symm
              exact ih t res h hres j hj2 hum
        · simp at h

/-- In a no-change outer loop, every in-range unmarked pair was scanned in
full without marking. -/
theorem passI_fix (fsa : FSA) (n : Nat) (old : Table) :
    ∀ (il : List Nat) (t : Table) (res : Table × Bool),
      passI fsa n old il (t, false) = some res → res.2 = false →
      ∀ i ∈ il, ∀ j, j < i → tget t i j = false →
        ∃ rowi rowj, alookup fsa (mkS i) = some rowi ∧
          alookup fsa (mkS j) = some rowj ∧
          scanSyms n old t i j rowj rowi.transitions = some (t, false) := by
  intro il
  induction il with
  | nil => intro t res _ _ i hi; simp at hi
  | cons i0 rest ih =>
    intro t res h hres i hi j hji hum
    simp only [passI] at h
    split at h
    · simp at h
    · rename_i acc2 hpj
      obtain ⟨t2, ch2⟩ := acc2
      cases hch : ch2 with
      | true =>
        rw [hch] at h
        have := passI_ch_mono fsa n old rest (t2, true) res h rfl
        rw [hres] at this
        exact Bool.noConfusion this
      | false =>
        rw [hch] at h hpj
        obtain rfl : t = t2 :=
          (passJ_nochange fsa n old i0 (List.range i0) t (t2, false) hpj rfl).symm
        rcases List.mem_cons.mp hi with rfl | hi2
        · exact passJ_fix fsa n old i (List.range i) t (t, false) hpj rfl j
            (List.mem_range.mpr hji) hum
        · exact ih t res h hres i hi2 j hji hum

/-- The fueled fixpoint loop yields a well-formed, sound table that a
further pass leaves unchanged, while preserving all existing marks. -/
theorem fillLoop_props (fsa : FSA) (n : Nat)
    (hrows : ∀ p ∈ fsa, (p.2.transitions.map (·.1)).Nodup) :
    ∀ (fuel : Nat) (t T : Table), fillLoop fsa n fuel t = some T →
      TableWF t n → Sound fsa n t →
      TableWF T n ∧ Sound fsa n T ∧
      (∀ a b, tget t a b = true → tget T a b = true) ∧
      fillPass fsa n T = some (T, false) := by
  intro fuel
  induction fuel with
  | zero => intro t T h; exact Option.noConfusion h
  | succ f ih =>
    intro t T h hwf hs
    simp only [fillLoop] at h
    cases hp : fillPass fsa n t with
    | none => rw [hp] at h; exact Option.noConfusion h
    | some pr =>
      obtain ⟨t2, ch⟩ := pr
      rw [hp] at h
      have hpi : passI fsa n t (List.range n) (t, false) = some (t2, ch) := hp
      have hwf2 : TableWF t2 n :=
        passI_wf fsa n t (List.range n) (t, false) (t2, ch) hpi hwf
      have hs2 : Sound fsa n t2 :=
        passI_sound fsa n t hrows hs (List.range n)
          (fun i2 hi2 => List.mem_range.mp hi2) (t, false) (t2, ch) hpi hwf hs
      have hmono2 : ∀ a b, tget t a b = true → tget t2 a b = true :=
        fun a b hab => passI_mono fsa n t (List.range n) (t, false) (t2, ch) hpi a b hab
      cases ch with
      | true =>
        obtain ⟨hA, hB, hC, hD⟩ := ih t2 T h hwf2 hs2
        exact ⟨hA, hB, fun a b hab => hC a b (hmono2 a b hab), hD⟩
      | false =>
        obtain rfl : T = t2 := (Option.some.inj h).symm
        obtain rfl : t = T := (fillPass_nochange fsa n t T hp).symm
        exact ⟨hwf, hs, fun a b hab => hab, hp⟩

/-! ### Claim C1: the fixpoint relation on the normalized machine -/

/-- On a deterministic, closed, canonically keyed table, a defined index
step lands on a canonical in-range target. -/
theorem stepIdx_spec (fsa : FSA) (n : Nat) (T : Table) (hc : MinCtx fsa n T)
    (a a2 : Nat) (s : String) (h : stepIdx fsa a s = some a2) :
    a2 < n ∧ ∃ rowa, alookup fsa (mkS a) = some rowa ∧
      alookup rowa.transitions s = some (Target.single (mkS a2)) := by
  simp only [stepIdx] at h
  cases h1 : alookup fsa (mkS a) with
  | none => rw [h1] at h; exact Option.noConfusion h
  | some rowa =>
    simp only [h1] at h
    cases h2 : alookup rowa.transitions s with
    | none => rw [h2] at h; exact Option.noConfusion h
    | some tgt =>
      simp only [h2] at h
      have hsingle : tgt.isSingle = true :=
        hc.hdet (mkS a, rowa) (alookup_mem _ _ _ h1) (s, tgt) (alookup_mem _ _ _ h2)
      cases tgt with
      | multi ts => exact absurd hsingle (by simp [Target.isSingle])
      | single t =>
        simp only [resolveTarget] at h
        have htmem : t ∈ rowTargets rowa := by
          unfold rowTargets
          exact List.mem_flatMap.mpr
            ⟨(s, Target.single t), alookup_mem _ _ _ h2, List.mem_singleton_self t⟩
        have htkey : t ∈ fsa.map (·.1) :=
          hc.hcl (mkS a, rowa) (alookup_mem _ _ _ h1) t htmem
        obtain ⟨i0, hi0, rfl⟩ := (hc.hkeys t).mp htkey
        rw [parseState_mkS i0] at h
        obtain rfl : i0 = a2 := Option.some.inj h
        exact ⟨hi0, rowa, rfl, h2⟩

/-- The accepting index list read off the table describes the accept
flags of the canonical states. -/
theorem acceptingList_contains (fsa : FSA) (n : Nat) (acc : List Nat)
    (hlen : fsa.length = n)
    (hkeys : ∀ k, k ∈ fsa.map (·.1) ↔ ∃ i, i < n ∧ k = mkS i)
    (hnd : (fsa.map (·.1)).Nodup)
    (hal : acceptingList fsa = some acc) :
    ∀ a, a < n → acc.contains a = acceptIdx fsa a := by
  unfold acceptingList at hal
  have hfa := mapO_forall2 _ _ _ hal
  intro a ha
  cases hacc : acceptIdx fsa a with
  | true =>
    have hmemk : mkS a ∈ fsa.map (·.1) := (hkeys (mkS a)).mpr ⟨a, ha, rfl⟩
    obtain ⟨r, hr⟩ := Option.isSome_iff_exists.mp ((hasKey_iff_mem fsa (mkS a)).mpr hmemk)
    have hacc2 : r.accept = true := by
      unfold acceptIdx getRow at hacc
      rw [hr] at hacc
      exact hacc
    have hfil : (mkS a, r) ∈ fsa.filter (·.2.accept) :=
      List.mem_filter.mpr ⟨alookup_mem _ _ _ hr, hacc2⟩
    obtain ⟨v, hv, hpv⟩ := forall2_mem_left hfa (mkS a, r) hfil
    have hva : v = a := Option.some.inj ((parseState_mkS a).symm.trans hpv).symm
    rw [hva] at hv
    exact List.elem_iff.mpr hv
  | false =>
    rw [Bool.eq_false_iff]
    intro hcon
    obtain ⟨p, hp, hpv⟩ := forall2_mem_right hfa a (List.elem_iff.mp hcon)
    obtain ⟨hpin, hpacc⟩ := List.mem_filter.mp hp
    have hpkey : p.1 ∈ fsa.map (·.1) := List.mem_map.mpr ⟨p, hpin, rfl⟩
    obtain ⟨i0, hi0, hpi0⟩ := (hkeys p.1).mp hpkey
    rw [hpi0, parseState_mkS i0] at hpv
    obtain rfl : a = i0 := (Option.some.inj hpv).symm
    have hlook : alookup fsa p.1 = some p.2 := alookup_of_mem_nodup _ _ _ hnd hpin
    rw [hpi0] at hlook
    have hx : acceptIdx fsa a = true := by
      unfold acceptIdx getRow
      rw [hlook]
      exact hpacc
    rw [hacc] at hx
    exact Bool.noConfusion hx

/-- Unmarked entries are symmetric, since marks are. -/
theorem minctx_unmarked_symm (fsa : FSA) (n : Nat) (T : Table) (hc : MinCtx fsa n T)
    (a b : Nat) (h : tget T a b = false) : tget T b a = false := by
  cases hba : tget T b a with
  | false => rfl
  | true =>
    have := (hc.hsound b a hba).2.2.2.1
    rw [h] at this
    exact Bool.noConfusion this

/-- The diagonal is never marked. -/
theorem minctx_diag (fsa : FSA) (n : Nat) (T : Table) (hc : MinCtx fsa n T)
    (a : Nat) : tget T a a = false := by
  cases h : tget T a a with
  | false => rfl
  | true => exact absurd rfl (hc.hsound a a h).2.2.1

/-- At the fixpoint, an unmarked ordered pair was fully scanned without a
mark against the final table itself. -/
theorem minctx_fix_pair (fsa : FSA) (n : Nat) (T : Table) (hc : MinCtx fsa n T)
    (i j : Nat) (hi : i < n) (hj : j < i) (hum : tget T i j = false) :
    ∃ rowi rowj, alookup fsa (mkS i) = some rowi ∧
      alookup fsa (mkS j) = some rowj ∧
      ∀ sym ti, (sym, ti) ∈ rowi.transitions →
        ∃ tj x y xi yj, alookup rowj.transitions sym = some tj ∧
          resolveTarget ti = some x ∧ resolveTarget tj = some y ∧
          parseState x = some xi ∧ parseState y = some yj ∧
          xi < n ∧ yj < n ∧ tget T xi yj = false := by
  have hfix := hc.hfix
  unfold fillPass at hfix
  obtain ⟨rowi, rowj, h1, h2, hscan⟩ := passI_fix fsa n T (List.range n) T (T, false)
    hfix rfl i (List.mem_range.mpr hi) j hj hum
  exact ⟨rowi, rowj, h1, h2,
    fun sym ti hmem => scanSyms_fix n T i j rowj rowi.transitions T T hscan sym ti hmem⟩

/-- One defined symbol step preserves the unmarked relation. -/
theorem bisim_step (fsa : FSA) (n : Nat) (T : Table) (hc : MinCtx fsa n T)
    (a b a2 : Nat) (s : String) (ha : a < n) (hb : b < n)
    (hR : tget T a b = false) (hstep : stepIdx fsa a s = some a2) :
    ∃ b2, stepIdx fsa b s = some b2 ∧ tget T a2 b2 = false ∧ a2 < n ∧ b2 < n := by
  obtain ⟨ha2lt, rowa, h1x, hlo⟩ := stepIdx_spec fsa n T hc a a2 s hstep
  by_cases hab : a = b
  · subst hab
    exact ⟨a2, hstep, minctx_diag fsa n T hc a2, ha2lt, ha2lt⟩
  · rcases Nat.lt_or_ge b a with hba | hba2
    · obtain ⟨rowi, rowj, h1, h2, hdata⟩ := minctx_fix_pair fsa n T hc a b ha hba hR
      obtain rfl : rowa = rowi := Option.some.inj (h1x.symm.trans h1)
      have hmem : (s, Target.single (mkS a2)) ∈ rowa.transitions := alookup_mem _ _ _ hlo
      obtain ⟨tj, x, y, xi, yj, hltj, hrx, hry, hpx, hpy, hxin, hyjn, hTxy⟩ :=
        hdata s _ hmem
      obtain rfl : mkS a2 = x := Option.some.inj hrx
      rw [parseState_mkS a2] at hpx
      obtain rfl : a2 = xi := Option.some.inj hpx
      have hstepb : stepIdx fsa b s = some yj := by
        simp only [stepIdx, h2, hltj, hry, hpy]
      exact ⟨yj, hstepb, hTxy, ha2lt, hyjn⟩
    · have hba3 : a < b := by omega
      have hRba : tget T b a = false := minctx_unmarked_symm fsa n T hc a b hR
      obtain ⟨rowb, rowa2, h1, h2, hdata⟩ := minctx_fix_pair fsa n T hc b a hb hba3 hRba
      obtain rfl : rowa = rowa2 := Option.some.inj (h1x.symm.trans h2)
      have hsmem : s ∈ rowSyms rowa :=
        List.mem_map.mpr ⟨(s, Target.single (mkS a2)), alookup_mem _ _ _ hlo, rfl⟩
      have hsb : s ∈ rowSyms rowb :=
        hc.huni (mkS a, rowa) (alookup_mem _ _ _ h1x) (mkS b, rowb)
          (alookup_mem _ _ _ h1) s hsmem
      obtain ⟨qb, hqb, hqb1⟩ := List.mem_map.mp hsb
      have hmemb : (s, qb.2) ∈ rowb.transitions := by
        rw [← hqb1]
        exact hqb
      obtain ⟨tj, x, y, xi, yj, hltj, hrx, hry, hpx, hpy, hxin, hyjn, hTxy⟩ :=
        hdata s qb.2 hmemb
      obtain rfl : tj = Target.single (mkS a2) := Option.some.inj (hltj.symm.trans hlo)
      obtain rfl : mkS a2 = y := Option.some.inj hry
      rw [parseState_mkS a2] at hpy
      obtain rfl : a2 = yj := Option.some.inj hpy
      have hndb : (rowb.transitions.map (·.1)).Nodup :=
        hc.hrows (mkS b, rowb) (alookup_mem _ _ _ h1)
      have hlob : alookup rowb.transitions s = some qb.2 :=
        alookup_of_mem_nodup _ _ _ hndb hmemb
      have hstepb : stepIdx fsa b s = some xi := by
        simp only [stepIdx, h1, hlob, hrx, hpx]
      exact ⟨xi, hstepb, minctx_unmarked_symm fsa n T hc xi a2 hTxy, ha2lt, hxin⟩

/-- A whole run preserves the unmarked relation. -/
theorem bisim_run (fsa : FSA) (n : Nat) (T : Table) (hc : MinCtx fsa n T) :
    ∀ (u : List String) (a b va : Nat), a < n → b < n → tget T a b = false →
      runIdx fsa a u = some va →
      ∃ vb, runIdx fsa b u = some vb ∧ tget T va vb = false ∧ va < n ∧ vb < n := by
  intro u
  induction u with
  | nil =>
    intro a b va ha hb hR hrun
    obtain rfl : a = va := Option.some.inj hrun
    exact ⟨b, rfl, hR, ha, hb⟩
  | cons s rest ih =>
    intro a b va ha hb hR hrun
    simp only [runIdx] at hrun
    cases hstep : stepIdx fsa a s with
    | none => rw [hstep] at hrun; exact Option.noConfusion hrun
    | some a2 =>
      rw [hstep] at hrun
      obtain ⟨b2, hstepb, hR2, ha2, hb2⟩ := bisim_step fsa n T hc a b a2 s ha hb hR hstep
      obtain ⟨vb, hrunb, hRv, hva, hvb⟩ := ih a2 b2 va ha2 hb2 hR2 hrun
      refine ⟨vb, ?_, hRv, hva, hvb⟩
      simp only [runIdx, hstepb]
      exact hrunb

/-- At the fixpoint the unmarked relation is transitive on total
automata: a mark between the endpoints would be distinguishing, yet both
legs simulate each other. -/
theorem minctx_trans (fsa : FSA) (n : Nat) (T : Table) (hc : MinCtx fsa n T)
    (a b c : Nat) (ha : a < n) (hb : b < n) (hcn : c < n)
    (hab : tget T a b = false) (hbc : tget T b c = false) :
    tget T a c = false := by
  cases hac : tget T a c with
  | false => rfl
  | true =>
    exfalso
    obtain ⟨-, -, -, -, hdist⟩ := hc.hsound a c hac
    obtain ⟨u, va, vc, hua, huc, hne⟩ := hdist
    obtain ⟨vb, hub, hRab, hvan, hvbn⟩ := bisim_run fsa n T hc u a b va ha hb hab hua
    obtain ⟨vc2, huc2, hRbc, -, hvc2n⟩ := bisim_run fsa n T hc u b c vb hb hcn hbc hub
    obtain rfl : vc = vc2 := Option.some.inj (huc.symm.trans huc2)
    have h1 := hc.hacc va vb hvan hvbn hRab
    have h2 := hc.hacc vb vc hvbn hvc2n hRbc
    exact hne (h1.trans h2)

/-- The first element of a filtered range is the least satisfying index at
or below any satisfying index. -/
theorem filter_range_head (n : Nat) (p : Nat → Bool) :
    ∀ (j : Nat), j < n → p j = true →
      ∃ h rest, (List.range n).filter p = h :: rest ∧ h ≤ j ∧ p h = true ∧ h < n ∧
        ∀ i2, i2 < h → p i2 = false := by
  induction n with
  | zero => intro j hj; exact absurd hj (by omega)
  | succ n2 ih =>
    intro j hj hpj
    rw [List.range_succ, List.filter_append]
    by_cases hjn : j < n2
    · obtain ⟨h, rest, hfe, hle, hph, hhn, hmin⟩ := ih j hjn hpj
      rw [hfe]
      exact ⟨h, rest ++ List.filter p [n2], rfl, hle, hph, by omega, hmin⟩
    · have hj2 : j = n2 := by omega
      subst hj2
      cases hfe : (List.range j).filter p with
      | nil =>
        refine ⟨j, [], ?_, le_refl j, hpj, by omega, ?_⟩
        · simp [List.filter_cons, hpj]
        · intro i2 hi2
          cases hp2 : p i2 with
          | false => rfl
          | true =>
            have hmem : i2 ∈ (List.range j).filter p :=
              List.mem_filter.mpr ⟨List.mem_range.mpr hi2, hp2⟩
            rw [hfe] at hmem
            simp at hmem
      | cons h rest =>
        have hmem : h ∈ (List.range j).filter p := by
          rw [hfe]
          exact List.mem_cons_self h rest
        obtain ⟨hin, hp⟩ := List.mem_filter.mp hmem
        obtain ⟨h2, rest2, hfe2, hle2, hph2, hh2n, hmin2⟩ :=
          ih h (List.mem_range.mp hin) hp
        have heq : h :: rest = h2 :: rest2 := hfe.symm.trans hfe2
        injection heq with hh hr
        subst hh
        subst hr
        refine ⟨h, rest ++ List.filter p [j], rfl, ?_, hph2, by omega, hmin2⟩
        have := List.mem_range.mp hin
        omega

/-- The representative of a state: least related index, related, minimal. -/
theorem repIdx_spec (fsa : FSA) (n : Nat) (T : Table) (hc : MinCtx fsa n T)
    (a : Nat) (ha : a < n) :
    repIdx T n a ≤ a ∧ repIdx T n a < n ∧ tget T (repIdx T n a) a = false ∧
    ∀ i2, i2 < repIdx T n a → tget T i2 a = true := by
  have hdiag := minctx_diag fsa n T hc a
  have hpa : (!tget T a a) = true := by rw [hdiag]; rfl
  obtain ⟨h, rest, hfe, hle, hph, hhn, hmin⟩ :=
    filter_range_head n (fun i2 => !tget T i2 a) a ha hpa
  unfold repIdx
  rw [hfe]
  have hph2 : tget T h a = false := by
    cases hx : tget T h a with
    | false => rfl
    | true => rw [hx] at hph; exact Bool.noConfusion hph
  refine ⟨hle, hhn, hph2, ?_⟩
  intro i2 hi2
  have := hmin i2 hi2
  cases hx : tget T i2 a with
  | true => rfl
  | false =>
    rw [hx] at this
    exact Bool.noConfusion this

/-- Relatedness forces equal representatives. -/
theorem repIdx_compat (fsa : FSA) (n : Nat) (T : Table) (hc : MinCtx fsa n T)
    (a b : Nat) (ha : a < n) (hb : b < n) (hR : tget T a b = false) :
    repIdx T n a = repIdx T n b := by
  obtain ⟨hle, hrn, hrel, hmin⟩ := repIdx_spec fsa n T hc a ha
  obtain ⟨hle2, hrn2, hrel2, hmin2⟩ := repIdx_spec fsa n T hc b hb
  have h1 : tget T (repIdx T n a) b = false :=
    minctx_trans fsa n T hc (repIdx T n a) a b hrn ha hb hrel hR
  have h2 : tget T (repIdx T n b) a = false :=
    minctx_trans fsa n T hc (repIdx T n b) b a hrn2 hb ha hrel2
      (minctx_unmarked_symm fsa n T hc a b hR)
  rcases Nat.lt_trichotomy (repIdx T n a) (repIdx T n b) with hlt | heq | hgt
  · have := hmin2 (repIdx T n a) hlt
    rw [h1] at this
    exact Bool.noConfusion this
  · exact heq
  · have := hmin (repIdx T n b) hgt
    rw [h2] at this
    exact Bool.noConfusion this

/-- Taking the representative is idempotent. -/
theorem repIdx_idem (fsa : FSA) (n : Nat) (T : Table) (hc : MinCtx fsa n T)
    (a : Nat) (ha : a < n) : repIdx T n (repIdx T n a) = repIdx T n a := by
  obtain ⟨hle, hrn, hrel, hmin⟩ := repIdx_spec fsa n T hc a ha
  exact repIdx_compat fsa n T hc (repIdx T n a) a hrn ha hrel

/-! ### Claim C1: the groups are the classes of the unmarked relation -/

/-- Tail membership unfolds to the range, order and mark conditions. -/
theorem groupTail_mem (T : Table) (n k d : Nat) :
    d ∈ groupTail T n k ↔ d < n ∧ k < d ∧ tget T k d = false := by
  unfold groupTail
  rw [List.mem_filter, List.mem_range]
  constructor
  · rintro ⟨h1, h2⟩
    rw [Bool.and_eq_true] at h2
    obtain ⟨h3, h4⟩ := h2
    refine ⟨h1, of_decide_eq_true h3, ?_⟩
    cases hx : tget T k d with
    | false => rfl
    | true => rw [hx] at h4; exact Bool.noConfusion h4
  · rintro ⟨h1, h2, h3⟩
    refine ⟨h1, ?_⟩
    rw [Bool.and_eq_true]
    refine ⟨decide_eq_true h2, ?_⟩
    rw [h3]
    rfl

/-- The group walk of `_find_equivalent_states`, characterized: every
emitted group is headed by a self-representative and collects exactly its
class members above it, and every class with an unprocessed representative
is emitted. -/
theorem findEquivAux_spec (fsa : FSA) (n : Nat) (T : Table) (hc : MinCtx fsa n T) :
    ∀ (len k : Nat) (proc : List Nat), k + len = n →
      (∀ a, a ∈ proc ↔ a < n ∧ repIdx T n a < k) →
      (∀ g ∈ findEquivAux T n (List.range' k len) proc,
        ∃ r, g = r :: groupTail T n r ∧ r < n ∧ repIdx T n r = r ∧
          (∀ d ∈ groupTail T n r, r < d ∧ d < n ∧ repIdx T n d = r)) ∧
      (∀ a, a < n → k ≤ repIdx T n a →
        (repIdx T n a :: groupTail T n (repIdx T n a)) ∈
            findEquivAux T n (List.range' k len) proc ∧
          (a = repIdx T n a ∨ a ∈ groupTail T n (repIdx T n a))) := by
  intro len
  induction len with
  | zero =>
    intro k proc hkn hproc
    constructor
    · intro g hg
      simp [findEquivAux] at hg
    · intro a ha hk
      obtain ⟨-, hrn, -, -⟩ := repIdx_spec fsa n T hc a ha
      omega
  | succ len2 ih =>
    intro k proc hkn hproc
    have hkn2 : k < n := by omega
    by_cases hkproc : k ∈ proc
    · have hrk : repIdx T n k < k := ((hproc k).mp hkproc).2
      have hstep : findEquivAux T n (List.range' k (len2 + 1)) proc =
          findEquivAux T n (List.range' (k + 1) len2) proc := by
        show findEquivAux T n (k :: List.range' (k + 1) len2) proc = _
        simp only [findEquivAux]
        rw [if_pos (List.elem_iff.mpr hkproc)]
      have hnotk : ∀ a, a < n → repIdx T n a ≠ k := by
        intro a ha h4
        obtain ⟨-, -, hrel, -⟩ := repIdx_spec fsa n T hc a ha
        rw [h4] at hrel
        have := repIdx_compat fsa n T hc k a hkn2 ha hrel
        omega
      have hproc2 : ∀ a, a ∈ proc ↔ a < n ∧ repIdx T n a < k + 1 := by
        intro a
        rw [hproc a]
        constructor
        · rintro ⟨h1, h2⟩
          exact ⟨h1, by omega⟩
        · rintro ⟨h1, h2⟩
          have := hnotk a h1
          exact ⟨h1, by omega⟩
      obtain ⟨hC1, hC2⟩ := ih (k + 1) proc (by omega) hproc2
      rw [hstep]
      refine ⟨hC1, ?_⟩
      intro a ha hk2
      have := hnotk a ha
      exact hC2 a ha (by omega)
    · have hrk : repIdx T n k = k := by
        obtain ⟨hle, -, -, -⟩ := repIdx_spec fsa n T hc k hkn2
        have hcon : ¬ (k < n ∧ repIdx T n k < k) :=
          fun hcon => hkproc ((hproc k).mpr hcon)
        omega
      have htail : ∀ d ∈ groupTail T n k, k < d ∧ d < n ∧ repIdx T n d = k := by
        intro d hd
        obtain ⟨h1, h2, h3⟩ := (groupTail_mem T n k d).mp hd
        refine ⟨h2, h1, ?_⟩
        have hcomp := repIdx_compat fsa n T hc k d hkn2 h1 h3
        rw [← hcomp]
        exact hrk
      have hstep : findEquivAux T n (List.range' k (len2 + 1)) proc =
          (k :: groupTail T n k) ::
            findEquivAux T n (List.range' (k + 1) len2) (proc ++ k :: groupTail T n k) := by
        show findEquivAux T n (k :: List.range' (k + 1) len2) proc = _
        simp only [findEquivAux]
        rw [if_neg (fun hcon => hkproc (List.elem_iff.mp hcon))]
        rfl
      have hmemtail : ∀ a, a < n → repIdx T n a = k → a ≠ k → a ∈ groupTail T n k := by
        intro a h1 h4 hak
        obtain ⟨hle, -, hrel, -⟩ := repIdx_spec fsa n T hc a h1
        rw [h4] at hrel hle
        refine (groupTail_mem T n k a).mpr ⟨h1, ?_, hrel⟩
        omega
      have hproc2 : ∀ a, a ∈ proc ++ k :: groupTail T n k ↔
          a < n ∧ repIdx T n a < k + 1 := by
        intro a
        rw [List.mem_append, List.mem_cons, hproc a]
        constructor
        · rintro (⟨h1, h2⟩ | rfl | hmem)
          · exact ⟨h1, by omega⟩
          · exact ⟨hkn2, by omega⟩
          · obtain ⟨hq1, hq2, hq3⟩ := htail a hmem
            exact ⟨hq2, by omega⟩
        · rintro ⟨h1, h2⟩
          rcases Nat.lt_or_ge (repIdx T n a) k with h3 | h3
          · exact Or.inl ⟨h1, h3⟩
          · have h4 : repIdx T n a = k := by omega
            by_cases hak : a = k
            · exact Or.inr (Or.inl hak)
            · exact Or.inr (Or.inr (hmemtail a h1 h4 hak))
      obtain ⟨hC1, hC2⟩ := ih (k + 1) (proc ++ k :: groupTail T n k) (by omega) hproc2
      rw [hstep]
      constructor
      · intro g hg
        rcases List.mem_cons.mp hg with rfl | hg2
        · exact ⟨k, rfl, hkn2, hrk, htail⟩
        · exact hC1 g hg2
      · intro a ha hk2
        rcases Nat.lt_or_ge (repIdx T n a) (k + 1) with h3 | h3
        · have h4 : repIdx T n a = k := by omega
          rw [h4]
          refine ⟨List.mem_cons_self _ _, ?_⟩
          by_cases hak : a = k
          · exact Or.inl hak
          · exact Or.inr (hmemtail a ha h4 hak)
        · obtain ⟨hmem, hor⟩ := hC2 a ha h3
          exact ⟨List.mem_cons_of_mem _ hmem, hor⟩

/-- Characterization of the full group list read off the fixpoint table. -/
theorem findEquiv_spec (fsa : FSA) (n : Nat) (T : Table) (hc : MinCtx fsa n T) :
    (∀ g ∈ findEquiv T n,
      ∃ r, g = r :: groupTail T n r ∧ r < n ∧ repIdx T n r = r ∧
        (∀ d ∈ groupTail T n r, r < d ∧ d < n ∧ repIdx T n d = r)) ∧
    (∀ a, a < n →
      (repIdx T n a :: groupTail T n (repIdx T n a)) ∈ findEquiv T n ∧
        (a = repIdx T n a ∨ a ∈ groupTail T n (repIdx T n a))) := by
  have h := findEquivAux_spec fsa n T hc n 0 [] (by omega)
    (by intro a; simp)
  rw [← List.range_eq_range'] at h
  exact ⟨h.1, fun a ha => h.2 a ha (Nat.zero_le _)⟩

/-- Group deletion only appends mapping entries. -/
theorem delMany_mp_mono (keep : String) :
    ∀ (idxs : List Nat) (fsa fsa2 : FSA) (mp mp2 : List (String × String)),
      delMany keep fsa mp idxs = some (fsa2, mp2) → ∀ e ∈ mp, e ∈ mp2 := by
  intro idxs
  induction idxs with
  | nil =>
    intro fsa fsa2 mp mp2 h e he
    simp only [delMany, Option.some.injEq, Prod.mk.injEq] at h
    rw [← h.2]
    exact he
  | cons idx rest ih =>
    intro fsa fsa2 mp mp2 h e he
    simp only [delMany] at h
    cases hd : delState fsa (mkS idx) with
    | none => rw [hd] at h; exact Option.noConfusion h
    | some fsaD =>
      rw [hd] at h
      exact ih fsaD fsa2 _ mp2 h e (List.mem_append_left _ he)

/-- The mapping entries a group deletion adds, and their coverage. -/
theorem delMany_mp (keep : String) :
    ∀ (idxs : List Nat) (fsa fsa2 : FSA) (mp mp2 : List (String × String)),
      delMany keep fsa mp idxs = some (fsa2, mp2) →
      (∀ e ∈ mp2, e ∈ mp ∨ ∃ d ∈ idxs, e = (mkS d, keep)) ∧
      (∀ d ∈ idxs, (mkS d, keep) ∈ mp2) := by
  intro idxs
  induction idxs with
  | nil =>
    intro fsa fsa2 mp mp2 h
    simp only [delMany, Option.some.injEq, Prod.mk.injEq] at h
    constructor
    · intro e he
      rw [← h.2] at he
      exact Or.inl he
    · intro d hd
      simp at hd
  | cons idx rest ih =>
    intro fsa fsa2 mp mp2 h
    simp only [delMany] at h
    cases hd : delState fsa (mkS idx) with
    | none => rw [hd] at h; exact Option.noConfusion h
    | some fsaD =>
      rw [hd] at h
      obtain ⟨ih1, ih2⟩ := ih fsaD fsa2 _ mp2 h
      constructor
      · intro e he
        rcases ih1 e he with hin | ⟨d, hdin, hde⟩
        · rcases List.mem_append.mp hin with h1 | h1
          · exact Or.inl h1
          · obtain rfl : e = (mkS idx, keep) := List.mem_singleton.mp h1
            exact Or.inr ⟨idx, List.mem_cons_self _ _, rfl⟩
        · exact Or.inr ⟨d, List.mem_cons_of_mem _ hdin, hde⟩
      · intro d hdmem
        rcases List.mem_cons.mp hdmem with rfl | hd2
        · exact delMany_mp_mono keep rest fsaD fsa2 _ mp2 h (mkS d, keep)
            (List.mem_append_right _ (List.mem_singleton_self _))
        · exact ih2 d hd2

/-- Lookups after a group deletion: other keys unchanged, deleted keys
gone. -/
theorem delMany_lookup (keep : String) :
    ∀ (idxs : List Nat) (fsa fsa2 : FSA) (mp mp2 : List (String × String)),
      delMany keep fsa mp idxs = some (fsa2, mp2) →
      (∀ k, (∀ d ∈ idxs, k ≠ mkS d) → alookup fsa2 k = alookup fsa k) ∧
      (∀ d ∈ idxs, alookup fsa2 (mkS d) = none) := by
  intro idxs
  induction idxs with
  | nil =>
    intro fsa fsa2 mp mp2 h
    simp only [delMany, Option.some.injEq, Prod.mk.injEq] at h
    constructor
    · intro k _
      rw [h.1]
    · intro d hd
      simp at hd
  | cons idx rest ih =>
    intro fsa fsa2 mp mp2 h
    simp only [delMany] at h
    cases hd : delState fsa (mkS idx) with
    | none => rw [hd] at h; exact Option.noConfusion h
    | some fsaD =>
      rw [hd] at h
      have hfD : fsaD = fsa.filter (fun p => p.1 ≠ mkS idx) :=
        delState_filter fsa (mkS idx) fsaD hd
      obtain ⟨ih1, ih2⟩ := ih fsaD fsa2 _ mp2 h
      constructor
      · intro k hk
        rw [ih1 k (fun d hd2 => hk d (List.mem_cons_of_mem _ hd2)), hfD]
        exact alookup_filter_ne fsa (mkS idx) k (hk idx (List.mem_cons_self _ _))
      · intro d hdmem
        rcases List.mem_cons.mp hdmem with rfl | hd2
        · obtain ⟨P, hP⟩ := delMany_filter keep rest fsaD _ fsa2 mp2 h
          rw [hP]
          apply alookup_filter_none
          rw [hfD]
          exact alookup_filter_self fsa (mkS d)
        · exact ih2 d hd2

/-- The merge walk only appends mapping entries. -/
theorem mergeMap_mp_mono :
    ∀ (gs : List (List Nat)) (fsa fsa2 : FSA) (mp mp2 : List (String × String)),
      mergeMap fsa mp gs = some (fsa2, mp2) → ∀ e ∈ mp, e ∈ mp2 := by
  intro gs
  induction gs with
  | nil =>
    intro fsa fsa2 mp mp2 h e he
    simp only [mergeMap, Option.some.injEq, Prod.mk.injEq] at h
    rw [← h.2]
    exact he
  | cons g gs2 ih =>
    intro fsa fsa2 mp mp2 h e he
    cases g with
    | nil =>
      simp only [mergeMap] at h
      exact ih fsa fsa2 mp mp2 h e he
    | cons g0 g1s =>
      cases g1s with
      | nil =>
        simp only [mergeMap] at h
        exact ih fsa fsa2 mp mp2 h e he
      | cons g1 grest =>
        simp only [mergeMap] at h
        cases hdm : delMany (mkS g0) fsa mp (g1 :: grest) with
        | none => rw [hdm] at h; exact Option.noConfusion h
        | some pr =>
          obtain ⟨fsaD, mpD⟩ := pr
          rw [hdm] at h
          exact ih fsaD fsa2 mpD mp2 h e
            (delMany_mp_mono (mkS g0) (g1 :: grest) fsa fsaD mp mpD hdm e he)

/-- The merge walk: every mapping entry comes from a group tail pointing
at its head, every tail member is covered and deleted, and all other rows
are looked up unchanged. -/
theorem mergeMap_facts :
    ∀ (gs : List (List Nat)) (fsa fsa2 : FSA) (mp mp2 : List (String × String)),
      mergeMap fsa mp gs = some (fsa2, mp2) →
      (∀ e ∈ mp2, e ∈ mp ∨
        ∃ g ∈ gs, ∃ r tail, g = r :: tail ∧ ∃ d ∈ tail, e = (mkS d, mkS r)) ∧
      (∀ g ∈ gs, ∀ r tail, g = r :: tail → ∀ d ∈ tail, (mkS d, mkS r) ∈ mp2) ∧
      (∀ k, (∀ g ∈ gs, ∀ r tail, g = r :: tail → ∀ d ∈ tail, k ≠ mkS d) →
        alookup fsa2 k = alookup fsa k) ∧
      (∀ g ∈ gs, ∀ r tail, g = r :: tail → ∀ d ∈ tail, alookup fsa2 (mkS d) = none) := by
  intro gs
  induction gs with
  | nil =>
    intro fsa fsa2 mp mp2 h
    simp only [mergeMap, Option.some.injEq, Prod.mk.injEq] at h
    refine ⟨?_, ?_, ?_, ?_⟩
    · intro e he
      rw [← h.2] at he
      exact Or.inl he
    · intro g hg; simp at hg
    · intro k _
      rw [h.1]
    · intro g hg; simp at hg
  | cons g gs2 ih =>
    intro fsa fsa2 mp mp2 h
    cases g with
    | nil =>
      simp only [mergeMap] at h
      obtain ⟨ih1, ih2, ih3, ih4⟩ := ih fsa fsa2 mp mp2 h
      refine ⟨?_, ?_, ?_, ?_⟩
      · intro e he
        rcases ih1 e he with h1 | ⟨g2, hg2, hrest⟩
        · exact Or.inl h1
        · exact Or.inr ⟨g2, List.mem_cons_of_mem _ hg2, hrest⟩
      · intro g2 hg2 r tail hge d hd
        rcases List.mem_cons.mp hg2 with rfl | hg3
        · exact absurd hge (by simp)
        · exact ih2 g2 hg3 r tail hge d hd
      · intro k hk
        exact ih3 k (fun g2 hg2 => hk g2 (List.mem_cons_of_mem _ hg2))
      · intro g2 hg2 r tail hge d hd
        rcases List.mem_cons.mp hg2 with rfl | hg3
        · exact absurd hge (by simp)
        · exact ih4 g2 hg3 r tail hge d hd
    | cons g0 g1s =>
      cases g1s with
      | nil =>
        simp only [mergeMap] at h
        obtain ⟨ih1, ih2, ih3, ih4⟩ := ih fsa fsa2 mp mp2 h
        refine ⟨?_, ?_, ?_, ?_⟩
        · intro e he
          rcases ih1 e he with h1 | ⟨g2, hg2, hrest⟩
          · exact Or.inl h1
          · exact Or.inr ⟨g2, List.mem_cons_of_mem _ hg2, hrest⟩
        · intro g2 hg2 r tail hge d hd
          rcases List.mem_cons.mp hg2 with rfl | hg3
          · obtain ⟨rfl, rfl⟩ : g0 = r ∧ ([] : List Nat) = tail := by
              injection hge with h1 h2
              exact ⟨h1, h2⟩
            simp at hd
          · exact ih2 g2 hg3 r tail hge d hd
        · intro k hk
          exact ih3 k (fun g2 hg2 => hk g2 (List.mem_cons_of_mem _ hg2))
        · intro g2 hg2 r tail hge d hd
          rcases List.mem_cons.mp hg2 with rfl | hg3
          · obtain ⟨rfl, rfl⟩ : g0 = r ∧ ([] : List Nat) = tail := by
              injection hge with h1 h2
              exact ⟨h1, h2⟩
            simp at hd
          · exact ih4 g2 hg3 r tail hge d hd
      | cons g1 grest =>
        simp only [mergeMap] at h
        cases hdm : delMany (mkS g0) fsa mp (g1 :: grest) with
        | none => rw [hdm] at h; exact Option.noConfusion h
        | some pr =>
          obtain ⟨fsaD, mpD⟩ := pr
          rw [hdm] at h
          obtain ⟨ih1, ih2, ih3, ih4⟩ := ih fsaD fsa2 mpD mp2 h
          obtain ⟨dm1, dm2⟩ := delMany_mp (mkS g0) (g1 :: grest) fsa fsaD mp mpD hdm
          obtain ⟨dl1, dl2⟩ := delMany_lookup (mkS g0) (g1 :: grest) fsa fsaD mp mpD hdm
          refine ⟨?_, ?_, ?_, ?_⟩
          · intro e he
            rcases ih1 e he with h1 | ⟨g2, hg2, hrest⟩
            · rcases dm1 e h1 with h2 | ⟨d, hdin, hde⟩
              · exact Or.inl h2
              · exact Or.inr ⟨g0 :: g1 :: grest, List.mem_cons_self _ _,
                  g0, g1 :: grest, rfl, d, hdin, hde⟩
            · exact Or.inr ⟨g2, List.mem_cons_of_mem _ hg2, hrest⟩
          · intro g2 hg2 r tail hge d hd
            rcases List.mem_cons.mp hg2 with rfl | hg3
            · obtain ⟨rfl, rfl⟩ : g0 = r ∧ g1 :: grest = tail := by
                injection hge with h1 h2
                exact ⟨h1, h2⟩
              exact mergeMap_mp_mono gs2 fsaD fsa2 mpD mp2 h _ (dm2 d hd)
            · exact ih2 g2 hg3 r tail hge d hd
          · intro k hk
            rw [ih3 k (fun g2 hg2 => hk g2 (List.mem_cons_of_mem _ hg2))]
            exact dl1 k (fun d hdin =>
              hk (g0 :: g1 :: grest) (List.mem_cons_self _ _) g0 (g1 :: grest) rfl d hdin)
          · intro g2 hg2 r tail hge d hd
            rcases List.mem_cons.mp hg2 with rfl | hg3
            · obtain ⟨rfl, rfl⟩ : g0 = r ∧ g1 :: grest = tail := by
                injection hge with h1 h2
                exact ⟨h1, h2⟩
              obtain ⟨P, hP⟩ := mergeMap_filter gs2 fsaD mpD fsa2 mp2 h
              rw [hP]
              exact alookup_filter_none P fsaD (mkS d) (dl2 d hd)
            · exact ih4 g2 hg3 r tail hge d hd

/-- After merging the fixpoint groups, the state mapping has no entry for a
representative (or any index that is its own representative). -/
theorem merge_mp_none (fsa : FSA) (n : Nat) (T : Table) (hc : MinCtx fsa n T)
    (fsa2 : FSA) (mpF : List (String × String))
    (hmm : mergeMap fsa [] (findEquiv T n) = some (fsa2, mpF))
    (b : Nat) (hrb : repIdx T n b = b) : alookup mpF (mkS b) = none := by
  obtain ⟨f1, _, _, _⟩ := mergeMap_facts (findEquiv T n) fsa fsa2 [] mpF hmm
  rw [alookup_eq_none_iff]
  intro p hp
  rcases f1 p hp with h | ⟨g, hg, r, tail, hge, d, hd, hpe⟩
  · simp at h
  · obtain ⟨r2, hgeq, hr2n, hrep2, htail⟩ := (findEquiv_spec fsa n T hc).1 g hg
    rw [hge] at hgeq
    obtain ⟨rfl, rfl⟩ : r = r2 ∧ tail = groupTail T n r2 := by
      injection hgeq with h1 h2
      exact ⟨h1, h2⟩
    subst hpe
    intro hk
    have hdb : d = b := mkS_inj d b hk
    obtain ⟨hlt, hdn, hrd⟩ := htail d hd
    rw [hdb, hrb] at hrd
    omega

/-- After merging the fixpoint groups, the state mapping sends every
non-representative index to the name of its representative. -/
theorem merge_mp_some (fsa : FSA) (n : Nat) (T : Table) (hc : MinCtx fsa n T)
    (fsa2 : FSA) (mpF : List (String × String))
    (hmm : mergeMap fsa [] (findEquiv T n) = some (fsa2, mpF))
    (b : Nat) (hb : b < n) (hrb : repIdx T n b ≠ b) :
    alookup mpF (mkS b) = some (mkS (repIdx T n b)) := by
  obtain ⟨f1, f2, _, _⟩ := mergeMap_facts (findEquiv T n) fsa fsa2 [] mpF hmm
  obtain ⟨hgmem, hpos⟩ := (findEquiv_spec fsa n T hc).2 b hb
  have hbtail : b ∈ groupTail T n (repIdx T n b) := by
    rcases hpos with h | h
    · exact absurd h.symm hrb
    · exact h
  apply alookup_some_const
  · exact f2 _ hgmem (repIdx T n b) (groupTail T n (repIdx T n b)) rfl b hbtail
  · intro p hp hk
    rcases f1 p hp with h | ⟨g, hg, r, tail, hge, d, hd, hpe⟩
    · simp at h
    · obtain ⟨r2, hgeq, hr2n, hrep2, htail⟩ := (findEquiv_spec fsa n T hc).1 g hg
      rw [hge] at hgeq
      obtain ⟨rfl, rfl⟩ : r = r2 ∧ tail = groupTail T n r2 := by
        injection hgeq with h1 h2
        exact ⟨h1, h2⟩
      subst hpe
      have hdb : d = b := mkS_inj d b hk
      obtain ⟨hlt, hdn, hrd⟩ := htail d hd
      rw [hdb] at hrd
      rw [hrd]

/-- Rows of representatives survive the merge deletions unchanged. -/
theorem merge_lookup_rep (fsa : FSA) (n : Nat) (T : Table) (hc : MinCtx fsa n T)
    (fsa2 : FSA) (mpF : List (String × String))
    (hmm : mergeMap fsa [] (findEquiv T n) = some (fsa2, mpF))
    (r : Nat) (hr : repIdx T n r = r) :
    alookup fsa2 (mkS r) = alookup fsa (mkS r) := by
  obtain ⟨_, _, f3, _⟩ := mergeMap_facts (findEquiv T n) fsa fsa2 [] mpF hmm
  apply f3
  intro g hg r2 tail hge d hd hk
  obtain ⟨r3, hgeq, hr3n, hrep3, htail⟩ := (findEquiv_spec fsa n T hc).1 g hg
  rw [hge] at hgeq
  obtain ⟨rfl, rfl⟩ : r2 = r3 ∧ tail = groupTail T n r3 := by
    injection hgeq with h1 h2
    exact ⟨h1, h2⟩
  have hrd : r = d := mkS_inj r d hk
  obtain ⟨hlt, hdn, hrepd⟩ := htail d hd
  rw [← hrd] at hrepd
  have h1 : r2 = r := hrepd.symm.trans hr
  omega

/-- Rows of merged (non-representative) indices are deleted by the merge. -/
theorem merge_lookup_del (fsa : FSA) (n : Nat) (T : Table) (hc : MinCtx fsa n T)
    (fsa2 : FSA) (mpF : List (String × String))
    (hmm : mergeMap fsa [] (findEquiv T n) = some (fsa2, mpF))
    (b : Nat) (hb : b < n) (hrb : repIdx T n b ≠ b) :
    alookup fsa2 (mkS b) = none := by
  obtain ⟨_, _, _, f4⟩ := mergeMap_facts (findEquiv T n) fsa fsa2 [] mpF hmm
  obtain ⟨hgmem, hpos⟩ := (findEquiv_spec fsa n T hc).2 b hb
  have hbtail : b ∈ groupTail T n (repIdx T n b) := by
    rcases hpos with h | h
    · exact absurd h.symm hrb
    · exact h
  exact f4 _ hgmem (repIdx T n b) _ rfl b hbtail

/-- The merge mapping rewrites a single target to its representative. -/
theorem renTgt_single_rep (fsa : FSA) (n : Nat) (T : Table) (hc : MinCtx fsa n T)
    (fsa2 : FSA) (mpF : List (String × String))
    (hmm : mergeMap fsa [] (findEquiv T n) = some (fsa2, mpF))
    (b : Nat) (hb : b < n) :
    renTgt mpF (Target.single (mkS b)) = Target.single (mkS (repIdx T n b)) := by
  simp only [renTgt]
  by_cases hrb : repIdx T n b = b
  · rw [merge_mp_none fsa n T hc fsa2 mpF hmm b hrb, hrb]
    rfl
  · rw [merge_mp_some fsa n T hc fsa2 mpF hmm b hb hrb]
    rfl

/-- Looking up a state in the transition-rewritten table rewrites the row. -/
theorem alookup_merge_rewrite (mp : List (String × String)) (l : FSA) (k : String) :
    alookup (l.map (fun p =>
      (p.1, { p.2 with transitions := p.2.transitions.map (fun q : String × Target => (q.1, renTgt mp q.2)) }))) k
      = (alookup l k).map (fun r =>
          { r with transitions := r.transitions.map (fun q : String × Target => (q.1, renTgt mp q.2)) }) := by
  induction l with
  | nil => rfl
  | cons p rest ih =>
    simp only [List.map_cons, alookup]
    by_cases hp : p.1 = k
    · simp [hp]
    · simp [hp, ih]

/-- Extract the two components of a successful `mergeGroups`. -/
theorem mergeGroups_parts (fsa : FSA) (G : List (List Nat)) (fsa3 : FSA)
    (h : mergeGroups fsa G = some fsa3) :
    ∃ fsa2 mpF, mergeMap fsa [] G = some (fsa2, mpF) ∧
      fsa3 = fsa2.map (fun p =>
        (p.1, { p.2 with transitions := p.2.transitions.map (fun q : String × Target => (q.1, renTgt mpF q.2)) })) := by
  unfold mergeGroups at h
  cases hmm : mergeMap fsa [] G with
  | none => rw [hmm] at h; exact Option.noConfusion h
  | some pr =>
    obtain ⟨fsa2, mpF⟩ := pr
    rw [hmm] at h
    exact ⟨fsa2, mpF, rfl, (Option.some.inj h).symm⟩

/-- Every in-range index has a row in a table with canonical keys. -/
theorem minctx_row (fsa : FSA) (n : Nat) (T : Table) (hc : MinCtx fsa n T)
    (a : Nat) (ha : a < n) : ∃ row, alookup fsa (mkS a) = some row := by
  have hk : mkS a ∈ fsa.map (·.1) := (hc.hkeys (mkS a)).mpr ⟨a, ha, rfl⟩
  have := (hasKey_iff_mem fsa (mkS a)).mpr hk
  unfold hasKey at this
  exact Option.isSome_iff_exists.mp this

/-- A successful symbol step of the simulator on a canonical table is a
successful index step landing in range. -/
theorem processSymbol_stepIdx (fsa : FSA) (n : Nat) (T : Table) (hc : MinCtx fsa n T)
    (a : Nat) (ha : a < n) (sym : Sym) (t : String)
    (h : processSymbol fsa (mkS a) sym = .ok t) :
    ∃ b, b < n ∧ t = mkS b ∧ stepIdx fsa a (Sym.toKey sym) = some b := by
  obtain ⟨rowa, hrowa⟩ := minctx_row fsa n T hc a ha
  have hgr : getRow fsa (mkS a) = rowa := by rw [getRow, hrowa]; rfl
  simp only [processSymbol, hgr] at h
  cases hlo : alookup rowa.transitions (Sym.toKey sym) with
  | none => rw [hlo] at h; exact Except.noConfusion h
  | some tgt =>
    rw [hlo] at h
    have hpa : (mkS a, rowa) ∈ fsa := alookup_mem fsa (mkS a) rowa hrowa
    have hq : (Sym.toKey sym, tgt) ∈ rowa.transitions := alookup_mem _ _ _ hlo
    have hsing := hc.hdet (mkS a, rowa) hpa (Sym.toKey sym, tgt) hq
    cases tgt with
    | multi ts => simp [Target.isSingle] at hsing
    | single t0 =>
      have ht0 : t0 = t := by injection h
      subst ht0
      have htmem : t0 ∈ rowTargets rowa :=
        List.mem_flatMap.mpr ⟨(Sym.toKey sym, Target.single t0), hq, List.mem_singleton_self t0⟩
      have hkey := hc.hcl (mkS a, rowa) hpa t0 htmem
      obtain ⟨b, hb, rfl⟩ := (hc.hkeys t0).mp hkey
      refine ⟨b, hb, rfl, ?_⟩
      simp only [stepIdx, hrowa, hlo, resolveTarget]
      exact parseState_mkS b

/-- One symbol of the merged machine: from the representative of `a` it
steps to the representative of wherever the original machine steps from
`a`. -/
theorem processSymbol_merge (fsa : FSA) (n : Nat) (T : Table) (hc : MinCtx fsa n T)
    (fsa2 : FSA) (mpF : List (String × String))
    (hmm : mergeMap fsa [] (findEquiv T n) = some (fsa2, mpF))
    (fsa3 : FSA)
    (hf3 : fsa3 = fsa2.map (fun p =>
      (p.1, { p.2 with transitions := p.2.transitions.map (fun q : String × Target => (q.1, renTgt mpF q.2)) })))
    (a b : Nat) (sym : Sym) (ha : a < n)
    (hstep : stepIdx fsa a (Sym.toKey sym) = some b) :
    b < n ∧ processSymbol fsa3 (mkS (repIdx T n a)) sym = .ok (mkS (repIdx T n b)) := by
  obtain ⟨hle, hrn, hrel, hmin⟩ := repIdx_spec fsa n T hc a ha
  have hRar : tget T a (repIdx T n a) = false := minctx_unmarked_symm fsa n T hc _ _ hrel
  obtain ⟨b2, hstep2, hRb, hb, hb2⟩ :=
    bisim_step fsa n T hc a (repIdx T n a) b (Sym.toKey sym) ha hrn hRar hstep
  obtain ⟨hb2lt, rowr, hrowr, hlo2⟩ := stepIdx_spec fsa n T hc (repIdx T n a) b2 _ hstep2
  have hidem : repIdx T n (repIdx T n a) = repIdx T n a := repIdx_idem fsa n T hc a ha
  have h1 : alookup fsa3 (mkS (repIdx T n a)) =
      some { rowr with transitions := rowr.transitions.map (fun q : String × Target => (q.1, renTgt mpF q.2)) } := by
    rw [hf3, alookup_merge_rewrite,
      merge_lookup_rep fsa n T hc fsa2 mpF hmm (repIdx T n a) hidem, hrowr]
    rfl
  have hcompat : repIdx T n b = repIdx T n b2 := repIdx_compat fsa n T hc b b2 hb hb2 hRb
  have h2 : alookup (rowr.transitions.map (fun q : String × Target => (q.1, renTgt mpF q.2))) (Sym.toKey sym)
      = some (Target.single (mkS (repIdx T n b))) := by
    rw [alookup_map_val (renTgt mpF) rowr.transitions (Sym.toKey sym), hlo2,
      Option.map_some']
    rw [renTgt_single_rep fsa n T hc fsa2 mpF hmm b2 hb2, ← hcompat]
  have hgr3 : getRow fsa3 (mkS (repIdx T n a)) =
      { rowr with transitions := rowr.transitions.map (fun q : String × Target => (q.1, renTgt mpF q.2)) } := by
    rw [getRow, h1]
    rfl
  refine ⟨hb, ?_⟩
  simp only [processSymbol, hgr3, h2]

/-- Acceptance of a representative's row survives the merge rewrite. -/
theorem acceptIdx_merge (fsa : FSA) (n : Nat) (T : Table) (hc : MinCtx fsa n T)
    (fsa2 : FSA) (mpF : List (String × String))
    (hmm : mergeMap fsa [] (findEquiv T n) = some (fsa2, mpF))
    (fsa3 : FSA)
    (hf3 : fsa3 = fsa2.map (fun p =>
      (p.1, { p.2 with transitions := p.2.transitions.map (fun q : String × Target => (q.1, renTgt mpF q.2)) })))
    (r : Nat) (hr : r < n) (hrr : repIdx T n r = r) :
    acceptIdx fsa3 r = acceptIdx fsa r := by
  obtain ⟨rowr, hrowr⟩ := minctx_row fsa n T hc r hr
  have h1 : alookup fsa3 (mkS r) =
      some { rowr with transitions := rowr.transitions.map (fun q : String × Target => (q.1, renTgt mpF q.2)) } := by
    rw [hf3, alookup_merge_rewrite,
      merge_lookup_rep fsa n T hc fsa2 mpF hmm r hrr, hrowr]
    rfl
  simp only [acceptIdx, getRow, h1, hrowr]
  rfl

/-- Whole-word simulation of the merged machine: an error-free run of the
original machine from `a` maps to an error-free run from `a`'s
representative landing on the final state's representative. -/
theorem callGo_merge (fsa : FSA) (n : Nat) (T : Table) (hc : MinCtx fsa n T)
    (fsa2 : FSA) (mpF : List (String × String))
    (hmm : mergeMap fsa [] (findEquiv T n) = some (fsa2, mpF))
    (fsa3 : FSA)
    (hf3 : fsa3 = fsa2.map (fun p =>
      (p.1, { p.2 with transitions := p.2.transitions.map (fun q : String × Target => (q.1, renTgt mpF q.2)) }))) :
    ∀ (w : List Sym) (a : Nat), a < n →
      ∀ sf, callGo fsa (mkS a) w = (sf, none) →
        ∃ af, af < n ∧ sf = mkS af ∧
          callGo fsa3 (mkS (repIdx T n a)) w = (mkS (repIdx T n af), none) := by
  intro w
  induction w with
  | nil =>
    intro a ha sf h
    simp only [callGo] at h
    injection h with h1 h2
    exact ⟨a, ha, h1.symm, rfl⟩
  | cons sym rest ih =>
    intro a ha sf h
    simp only [callGo] at h
    cases hps : processSymbol fsa (mkS a) sym with
    | error e =>
      rw [hps] at h
      injection h with h1 h2
      exact Option.noConfusion h2
    | ok t =>
      rw [hps] at h
      obtain ⟨b, hb, rfl, hstep⟩ := processSymbol_stepIdx fsa n T hc a ha sym t hps
      obtain ⟨af, hafn, rfl, hrun3⟩ := ih b hb sf h
      obtain ⟨hb2, hps3⟩ := processSymbol_merge fsa n T hc fsa2 mpF hmm fsa3 hf3 a b sym ha hstep
      refine ⟨af, hafn, rfl, ?_⟩
      simp only [callGo, hps3]
      exact hrun3

/-- A duplicate-free list of `n` canonical names drawn from `S0..S(n-1)`
contains all of them. -/
theorem keys_surj (l : List String) (n : Nat) (hnd : l.Nodup) (hlen : l.length = n)
    (hsub : ∀ k ∈ l, ∃ i, i < n ∧ k = mkS i) :
    ∀ k, k ∈ l ↔ ∃ i, i < n ∧ k = mkS i := by
  have hsub2 : l ⊆ (List.range n).map mkS := by
    intro k hk
    obtain ⟨i, hi, rfl⟩ := hsub k hk
    exact List.mem_map.mpr ⟨i, List.mem_range.mpr hi, rfl⟩
  have hsp : List.Subperm l ((List.range n).map mkS) := List.subperm_of_subset hnd hsub2
  have hperm : List.Perm l ((List.range n).map mkS) := by
    apply List.Subperm.perm_of_length_le hsp
    rw [List.length_map, List.length_range, hlen]
  intro k
  rw [hperm.mem_iff]
  constructor
  · intro hk
    obtain ⟨i, hi, rfl⟩ := List.mem_map.mp hk
    exact ⟨i, List.mem_range.mp hi, rfl⟩
  · rintro ⟨i, hi, rfl⟩
    exact List.mem_map.mpr ⟨i, List.mem_range.mpr hi, rfl⟩

/-- The normalizer leaves a table keyed exactly by the canonical names
`S0..S(n-1)`. -/
theorem normalize_keys (m1 m2 : StateMachine) (hnd : (m1.fsa.map (·.1)).Nodup)
    (h : normalize m1 = some m2) :
    ∀ k, k ∈ m2.fsa.map (·.1) ↔ ∃ i, i < m2.fsa.length ∧ k = mkS i := by
  have hspec := normalize_spec m1 m2 h
  have hlen2 : m1.fsa.length = m2.fsa.length := hspec.2.2.2.length_eq
  apply keys_surj
  · exact normalize_nodup m1 m2 hnd h
  · rw [List.length_map]
  · intro k hk
    obtain ⟨q, hq, rfl⟩ := List.mem_map.mp hk
    obtain ⟨p, hp, hrel⟩ := forall2_mem_right hspec.2.2.2 q hq
    have hpmem : p.1 ∈ m1.fsa.map (·.1) := List.mem_map.mpr ⟨p, hp, rfl⟩
    obtain ⟨j, hj, hjv⟩ := renameMap_defined m1.fsa p.1 hpmem
    rw [hrel.1] at hjv
    exact ⟨j, by omega, Option.some.inj hjv⟩

/-- The merged table keeps distinct keys, deterministic rows and closed
targets. -/
theorem merge_props (fsa : FSA) (n : Nat) (T : Table) (hc : MinCtx fsa n T)
    (fsa2 : FSA) (mpF : List (String × String))
    (hmm : mergeMap fsa [] (findEquiv T n) = some (fsa2, mpF))
    (fsa3 : FSA)
    (hf3 : fsa3 = fsa2.map (fun p =>
      (p.1, { p.2 with transitions := p.2.transitions.map (fun q : String × Target => (q.1, renTgt mpF q.2)) }))) :
    (fsa3.map (·.1)).Nodup ∧ Deterministic fsa3 ∧ ClosedTargets fsa3 := by
  obtain ⟨P, hP⟩ := mergeMap_filter (findEquiv T n) fsa [] fsa2 mpF hmm
  have hsub2 : ∀ p ∈ fsa2, p ∈ fsa := by
    intro p hp
    rw [hP] at hp
    exact (List.mem_filter.mp hp).1
  have hk3 : fsa3.map (·.1) = fsa2.map (·.1) := by
    rw [hf3]
    exact keys_merge_map fsa2 mpF
  refine ⟨?_, ?_, ?_⟩
  · rw [hk3, hP]
    exact hc.hnd.sublist (List.Sublist.map _ (List.filter_sublist _))
  · intro p hp q hq
    rw [hf3] at hp
    obtain ⟨p0, hp0, rfl⟩ := List.mem_map.mp hp
    have hq2 : q ∈ p0.2.transitions.map (fun q : String × Target => (q.1, renTgt mpF q.2)) := hq
    obtain ⟨q0, hq0, rfl⟩ := List.mem_map.mp hq2
    have hdet0 := hc.hdet p0 (hsub2 p0 hp0) q0 hq0
    cases hqt : q0.2 with
    | single t => rfl
    | multi ts =>
      rw [hqt] at hdet0
      simp [Target.isSingle] at hdet0
  · intro p hp t ht
    rw [hf3] at hp
    obtain ⟨p0, hp0, rfl⟩ := List.mem_map.mp hp
    have ht2 : t ∈ (p0.2.transitions.map (fun q : String × Target => (q.1, renTgt mpF q.2))).flatMap
        (fun q => match q.2 with | .single t2 => [t2] | .multi ts => ts) := ht
    obtain ⟨q1, hq1, htq⟩ := List.mem_flatMap.mp ht2
    obtain ⟨q0, hq0, rfl⟩ := List.mem_map.mp hq1
    have hdet0 := hc.hdet p0 (hsub2 p0 hp0) q0 hq0
    cases hqt : q0.2 with
    | multi ts =>
      rw [hqt] at hdet0
      simp [Target.isSingle] at hdet0
    | single t0 =>
      have ht0mem : t0 ∈ rowTargets p0.2 := by
        apply List.mem_flatMap.mpr
        refine ⟨q0, hq0, ?_⟩
        rw [hqt]
        exact List.mem_singleton_self t0
      have hkey := hc.hcl p0 (hsub2 p0 hp0) t0 ht0mem
      obtain ⟨b, hb, hbe⟩ := (hc.hkeys t0).mp hkey
      rw [hqt, hbe] at htq
      rw [renTgt_single_rep fsa n T hc fsa2 mpF hmm b hb] at htq
      have hteq : t = mkS (repIdx T n b) := by
        have : t ∈ [mkS (repIdx T n b)] := htq
        exact List.mem_singleton.mp this
      obtain ⟨hrle, hrn, hrel, -⟩ := repIdx_spec fsa n T hc b hb
      have hidem := repIdx_idem fsa n T hc b hb
      obtain ⟨rowr, hrowr⟩ := minctx_row fsa n T hc (repIdx T n b) hrn
      have hlk2 : alookup fsa2 (mkS (repIdx T n b)) = some rowr := by
        rw [merge_lookup_rep fsa n T hc fsa2 mpF hmm (repIdx T n b) hidem]
        exact hrowr
      have hmem2 : (mkS (repIdx T n b), rowr) ∈ fsa2 := alookup_mem _ _ _ hlk2
      rw [hteq, hk3]
      exact List.mem_map.mpr ⟨(mkS (repIdx T n b), rowr), hmem2, rfl⟩

/-- The merged table's row at a representative is the rewrite of the
original row. -/
theorem merge_row_rep (fsa : FSA) (n : Nat) (T : Table) (hc : MinCtx fsa n T)
    (fsa2 : FSA) (mpF : List (String × String))
    (hmm : mergeMap fsa [] (findEquiv T n) = some (fsa2, mpF))
    (fsa3 : FSA)
    (hf3 : fsa3 = fsa2.map (fun p =>
      (p.1, { p.2 with transitions := p.2.transitions.map (fun q : String × Target => (q.1, renTgt mpF q.2)) })))
    (r : Nat) (hr : r < n) (hrr : repIdx T n r = r) :
    ∃ rowr, alookup fsa (mkS r) = some rowr ∧
      alookup fsa3 (mkS r) = some { rowr with
        transitions := rowr.transitions.map (fun q : String × Target => (q.1, renTgt mpF q.2)) } := by
  obtain ⟨rowr, hrowr⟩ := minctx_row fsa n T hc r hr
  refine ⟨rowr, hrowr, ?_⟩
  rw [hf3, alookup_merge_rewrite, merge_lookup_rep fsa n T hc fsa2 mpF hmm r hrr, hrowr]
  rfl

/-- An index surviving into the merged table is its own representative. -/
theorem merge_rep_start (fsa : FSA) (n : Nat) (T : Table) (hc : MinCtx fsa n T)
    (fsa2 : FSA) (mpF : List (String × String))
    (hmm : mergeMap fsa [] (findEquiv T n) = some (fsa2, mpF))
    (fsa3 : FSA)
    (hf3 : fsa3 = fsa2.map (fun p =>
      (p.1, { p.2 with transitions := p.2.transitions.map (fun q : String × Target => (q.1, renTgt mpF q.2)) })))
    (s0 : Nat) (hmem3 : mkS s0 ∈ fsa3.map (·.1)) : repIdx T n s0 = s0 := by
  have hk3 : fsa3.map (·.1) = fsa2.map (·.1) := by
    rw [hf3]
    exact keys_merge_map fsa2 mpF
  rw [hk3] at hmem3
  obtain ⟨P, hP⟩ := mergeMap_filter (findEquiv T n) fsa [] fsa2 mpF hmm
  have hmemf : mkS s0 ∈ fsa.map (·.1) := by
    obtain ⟨p, hp, hpk⟩ := List.mem_map.mp hmem3
    rw [hP] at hp
    exact List.mem_map.mpr ⟨p, (List.mem_filter.mp hp).1, hpk⟩
  obtain ⟨i, hi, hieq⟩ := (hc.hkeys (mkS s0)).mp hmemf
  have hs0n : s0 < n := by
    have := mkS_inj s0 i hieq
    omega
  by_contra hne
  have hdel := merge_lookup_del fsa n T hc fsa2 mpF hmm s0 hs0n hne
  obtain ⟨p, hp, hpk⟩ := List.mem_map.mp hmem3
  exact (alookup_eq_none_iff fsa2 (mkS s0)).mp hdel p hp hpk

/-- Assemble the fixpoint context from the pipeline facts inside
`minimize`. -/
theorem minctx_assemble (fsa : FSA) (n : Nat) (acc : List Nat) (fuel : Nat) (tf : Table)
    (hlen : fsa.length = n)
    (hkeys : ∀ k, k ∈ fsa.map (·.1) ↔ ∃ i, i < n ∧ k = mkS i)
    (hnd : (fsa.map (·.1)).Nodup)
    (hrows : ∀ p ∈ fsa, (p.2.transitions.map (·.1)).Nodup)
    (hdet : Deterministic fsa) (huni : UniformSyms fsa)
    (hcl : ClosedTargets fsa)
    (hal : acceptingList fsa = some acc)
    (hfl : fillLoop fsa n fuel (initTable n acc) = some tf) :
    MinCtx fsa n tf := by
  have haccS := acceptingList_contains fsa n acc hlen hkeys hnd hal
  obtain ⟨hwf, hsound, hmono, hfix⟩ :=
    fillLoop_props fsa n hrows fuel (initTable n acc) tf hfl (initTable_wf n acc)
      (initTable_sound fsa n acc haccS)
  refine ⟨hlen, hkeys, hnd, hrows, hdet, huni, hcl, hwf, hfix, hsound, ?_⟩
  intro a b ha hb hun
  by_contra hne
  have hcont : acc.contains a ≠ acc.contains b := by
    intro he
    rw [haccS a ha, haccS b hb] at he
    exact hne he
  rcases Nat.lt_or_ge a b with hlt | hge
  · have hm := initTable_marks n acc b a hlt hb (fun he => hcont he.symm)
    have hm2 := hmono b a hm
    have := (hsound b a hm2).2.2.2.1
    rw [hun] at this
    exact Bool.noConfusion this
  · have hab : a ≠ b := by
      rintro rfl
      exact hcont rfl
    have hlt2 : b < a := by omega
    have hm := initTable_marks n acc a b hlt2 ha hcont
    have hm2 := hmono a b hm
    rw [hun] at hm2
    exact Bool.noConfusion hm2

/-- Evaluate `call` on an error-free loop result. -/
theorem call_eval (m : StateMachine) (w : List Sym) (sf : String)
    (h : callGo m.fsa m.state w = (sf, none)) :
    call m w = ({ m with state := sf, accept := (getRow m.fsa sf).accept }, none) := by
  unfold call
  rw [h]

/-- CLAIM C1 (amended): on a valid deterministic machine — distinct state
names, per-row distinct symbol keys, single-state targets, targets naming
existing states, all rows carrying the same symbol set — whose simulation
pointer rests on its unique start state, a normal return of `minimize`
preserves acceptance: every input word the original machine simulates
without error is simulated without error by the minimized machine, and both
runs end with the same accept flag.  Without the uniform-symbol-set
requirement the claim fails, see `minimize_acceptance_counterexample`. -/
theorem minimize_acceptance_preserving_uniform (m mm : StateMachine) (w : List Sym)
    (hnd : (m.fsa.map (·.1)).Nodup)
    (hrows : ∀ p ∈ m.fsa, (p.2.transitions.map (·.1)).Nodup)
    (hdet : Deterministic m.fsa) (huni : UniformSyms m.fsa)
    (hcl : ClosedTargets m.fsa) (hf : FreshStart m)
    (hok : minimize m = .ok mm)
    (hrun : (call m w).2 = none) :
    (call mm w).2 = none ∧ (call mm w).1.accept = (call m w).1.accept := by
  obtain ⟨sf, hcg⟩ : ∃ sf, callGo m.fsa m.state w = (sf, none) := by
    cases hcg2 : callGo m.fsa m.state w with
    | mk sf2 err =>
      cases err with
      | none => exact ⟨sf2, rfl⟩
      | some e =>
        exfalso
        unfold call at hrun
        rw [hcg2] at hrun
        exact Option.noConfusion hrun
  have hcall := call_eval m w sf hcg
  simp only [minimize] at hok
  split at hok
  · obtain rfl : m = mm := Except.ok.inj hok
    exact ⟨by rw [hcall], rfl⟩
  · split at hok
    · exact Except.noConfusion hok
    · rename_i m2a hn1
      split at hok
      · exact Except.noConfusion hok
      · rename_i acc hacc
        split at hok
        · exact Except.noConfusion hok
        · rename_i tf hfl
          split at hok
          · exact Except.noConfusion hok
          · rename_i fsa3 hmg
            split at hok
            · exact Except.noConfusion hok
            · rename_i m4 hn2
              obtain rfl : ({ m4 with is_min := true } : StateMachine) = mm :=
                Except.ok.inj hok
              obtain ⟨hnd1, hrows1, hdet1, huni1, hcl1⟩ :=
                prune_props m hnd hrows hdet huni hcl
              obtain ⟨hrows2, hdet2, huni2, hcl2⟩ :=
                normalize_props (removeUnreachable m) m2a hnd1 hrows1 hdet1 huni1 hcl1 hn1
              have hnd2 : (m2a.fsa.map (·.1)).Nodup := normalize_nodup _ m2a hnd1 hn1
              have hkeys2 := normalize_keys (removeUnreachable m) m2a hnd1 hn1
              have hc : MinCtx m2a.fsa m2a.fsa.length tf :=
                minctx_assemble m2a.fsa m2a.fsa.length acc _ tf rfl hkeys2 hnd2 hrows2
                  hdet2 huni2 hcl2 hacc hfl
              have hcg1 : callGo (removeUnreachable m).fsa m.state w = (sf, none) := by
                rw [callGo_prune m hnd w m.state (state_mem_reachableFrom m)]
                exact hcg
              have hstart : m.state ∈ startKeys m.fsa := by
                rw [hf]
                exact List.mem_singleton_self _
              have hmemk : m.state ∈ m.fsa.map (·.1) := by
                unfold startKeys at hstart
                obtain ⟨p, hp, hp1⟩ := List.mem_map.mp hstart
                exact List.mem_map.mpr ⟨p, (List.mem_filter.mp hp).1, hp1⟩
              obtain ⟨r0, hrow0⟩ : ∃ r0, alookup m.fsa m.state = some r0 := by
                have h2 := (hasKey_iff_mem m.fsa m.state).mpr hmemk
                unfold hasKey at h2
                exact Option.isSome_iff_exists.mp h2
              have hrow1eq : alookup (removeUnreachable m).fsa m.state
                  = alookup m.fsa m.state := by
                show alookup (m.fsa.filter (fun p => (reachableFrom m).contains p.1)) m.state
                  = alookup m.fsa m.state
                apply alookup_filter_keep
                intro p _ hp1
                rw [hp1]
                exact List.elem_iff.mpr (state_mem_reachableFrom m)
              have hrow1 : alookup (removeUnreachable m).fsa m.state = some r0 := by
                rw [hrow1eq]
                exact hrow0
              obtain ⟨-, -, hstmap, hfa⟩ := normalize_spec (removeUnreachable m) m2a hn1
              obtain ⟨sf2, rf, rf2, hcg2, hsf_row, hsf_map, hsf2_row, hacc_rf⟩ :=
                callGo_rename (removeUnreachable m) m2a hnd1 hdet1 hcl1 hn1 w
                  m.state m2a.state r0 hrow1 hstmap sf hcg1
              have hstmem1 : m.state ∈ (removeUnreachable m).fsa.map (·.1) :=
                List.mem_map.mpr ⟨(m.state, r0), alookup_mem _ _ _ hrow1, rfl⟩
              obtain ⟨s0, hs0len, hs0v⟩ :=
                renameMap_defined (removeUnreachable m).fsa m.state hstmem1
              have hst_eq : m2a.state = mkS s0 := Option.some.inj (hstmap.symm.trans hs0v)
              have hs0n : s0 < m2a.fsa.length := by
                have hle := hfa.length_eq
                omega
              rw [hst_eq] at hcg2
              obtain ⟨fsa2, mpF, hmm, hf3⟩ := mergeGroups_parts m2a.fsa _ fsa3 hmg
              obtain ⟨-, -, hstmap4, -⟩ := normalize_spec { m2a with fsa := fsa3 } m4 hn2
              have hstmap4b : alookup (renameMap fsa3) (mkS s0) = some m4.state := by
                rw [← hst_eq]
                exact hstmap4
              have hmem3 : mkS s0 ∈ fsa3.map (·.1) := by
                by_contra hno
                have hnone := alookup_renameMap_none fsa3 (mkS s0) hno
                exact Option.noConfusion (hnone.symm.trans hstmap4b)
              have hreps0 : repIdx tf m2a.fsa.length s0 = s0 :=
                merge_rep_start m2a.fsa m2a.fsa.length tf hc fsa2 mpF hmm fsa3 hf3 s0 hmem3
              obtain ⟨af, hafn, hsf2_eq, hcg3⟩ :=
                callGo_merge m2a.fsa m2a.fsa.length tf hc fsa2 mpF hmm fsa3 hf3
                  w s0 hs0n sf2 hcg2
              rw [hreps0] at hcg3
              obtain ⟨hnd3, hdet3, hcl3⟩ :=
                merge_props m2a.fsa m2a.fsa.length tf hc fsa2 mpF hmm fsa3 hf3
              obtain ⟨rowS, hrowS, hrowS3⟩ :=
                merge_row_rep m2a.fsa m2a.fsa.length tf hc fsa2 mpF hmm fsa3 hf3 s0 hs0n hreps0
              obtain ⟨sff, rff, rff2, hcg4, hrow_f3, hmap_f3, hrow_f4, hacc_f⟩ :=
                callGo_rename { m2a with fsa := fsa3 } m4 hnd3 hdet3 hcl3 hn2 w
                  (mkS s0) m4.state _ hrowS3 hstmap4b _ hcg3
              have hcallmm := call_eval { m4 with is_min := true } w sff hcg4
              refine ⟨by rw [hcallmm], ?_⟩
              rw [hcallmm, hcall]
              show (getRow m4.fsa sff).accept = (getRow m.fsa sf).accept
              obtain ⟨hrle, hrn, hrel, -⟩ :=
                repIdx_spec m2a.fsa m2a.fsa.length tf hc af hafn
              have hidem_af := repIdx_idem m2a.fsa m2a.fsa.length tf hc af hafn
              obtain ⟨rowAf, hrowAf, hrowAf3⟩ :=
                merge_row_rep m2a.fsa m2a.fsa.length tf hc fsa2 mpF hmm fsa3 hf3
                  (repIdx tf m2a.fsa.length af) hrn hidem_af
              have hff_eq : rff = { rowAf with
                  transitions := rowAf.transitions.map (fun q : String × Target => (q.1, renTgt mpF q.2)) } :=
                Option.some.inj (hrow_f3.symm.trans hrowAf3)
              have hsf2_row2 : alookup m2a.fsa (mkS af) = some rf2 := by
                rw [← hsf2_eq]
                exact hsf2_row
              have hsf_row0 : alookup m.fsa sf = some rf := by
                have hmemA : (sf, rf) ∈ (removeUnreachable m).fsa := alookup_mem _ _ _ hsf_row
                have hmemB : (sf, rf) ∈ m.fsa := by
                  have hmemA2 : (sf, rf) ∈ m.fsa.filter
                      (fun p => (reachableFrom m).contains p.1) := hmemA
                  exact (List.mem_filter.mp hmemA2).1
                exact alookup_of_mem_nodup m.fsa sf rf hnd hmemB
              calc (getRow m4.fsa sff).accept
                  = rff2.accept := by simp only [getRow, hrow_f4, Option.getD_some]
                _ = rff.accept := hacc_f
                _ = rowAf.accept := by rw [hff_eq]
                _ = acceptIdx m2a.fsa (repIdx tf m2a.fsa.length af) := by
                    simp only [acceptIdx, getRow, hrowAf, Option.getD_some]
                _ = acceptIdx m2a.fsa af :=
                    hc.hacc (repIdx tf m2a.fsa.length af) af hrn hafn hrel
                _ = rf2.accept := by
                    simp only [acceptIdx, getRow, hsf2_row2, Option.getD_some]
                _ = rf.accept := hacc_rf
                _ = (getRow m.fsa sf).accept := by
                    simp only [getRow, hsf_row0, Option.getD_some]

/-- Witness instantiating `minimize_acceptance_preserving_uniform` on the
freshly constructed Wikipedia machine and the word `0 1`: every hypothesis
holds concretely and both runs accept. -/
theorem minimize_acceptance_preserving_uniform_witness :
    (wikiM0.fsa.map (·.1)).Nodup ∧
    (∀ p ∈ wikiM0.fsa, (p.2.transitions.map (·.1)).Nodup) ∧
    Deterministic wikiM0.fsa ∧ UniformSyms wikiM0.fsa ∧
    ClosedTargets wikiM0.fsa ∧ FreshStart wikiM0 ∧
    minimize wikiM0 = .ok wikiMinM ∧
    (call wikiM0 [Sym.int 0, Sym.int 1]).2 = none ∧
    (call wikiMinM [Sym.int 0, Sym.int 1]).2 = none ∧
    (call wikiMinM [Sym.int 0, Sym.int 1]).1.accept
      = (call wikiM0 [Sym.int 0, Sym.int 1]).1.accept :=
  ⟨by decide, by decide, by unfold Deterministic; decide,
   by unfold UniformSyms; decide, by unfold ClosedTargets; decide, by rfl, by rfl, by rfl,
   (minimize_acceptance_preserving_uniform wikiM0 wikiMinM [Sym.int 0, Sym.int 1]
      (by decide) (by decide) (by unfold Deterministic; decide)
      (by unfold UniformSyms; decide) (by unfold ClosedTargets; decide) (by rfl) (by rfl)
      (by rfl)).1,
   (minimize_acceptance_preserving_uniform wikiM0 wikiMinM [Sym.int 0, Sym.int 1]
      (by decide) (by decide) (by unfold Deterministic; decide)
      (by unfold UniformSyms; decide) (by unfold ClosedTargets; decide) (by rfl) (by rfl)
      (by rfl)).2⟩

/-- A table with a unique start row is non-empty. -/
theorem startKeys_ne_nil (fsa : FSA) (s : String) (h : startKeys fsa = [s]) :
    fsa ≠ [] := by
  intro he
  rw [he] at h
  exact List.noConfusion h

/-- A successful normalization always produces closed targets: every target
it writes is the rename image of a key of its input, and the rename image of
any input key is a key of the output. -/
theorem normalize_closed (mC m2 : StateMachine) (h : normalize mC = some m2) :
    ClosedTargets m2.fsa := by
  have hspec := normalize_spec2 mC m2 h
  intro q hq t2 ht2
  obtain ⟨p, hp, hrel⟩ := forall2_mem_right hspec q hq
  obtain ⟨t, ht, hmap⟩ := renameRow_targets (renameMap mC.fsa) p.2 q.2 hrel.2 t2 ht2
  have htk : t ∈ mC.fsa.map (·.1) := by
    by_contra hno
    rw [alookup_renameMap_none mC.fsa t hno] at hmap
    exact Option.noConfusion hmap
  obtain ⟨p0, hp0, hp0k⟩ := List.mem_map.mp htk
  obtain ⟨q0, hq0, hrel0⟩ := forall2_mem_left hspec p0 hp0
  have h1 : alookup (renameMap mC.fsa) t = some q0.1 := by
    rw [← hp0k]
    exact hrel0.1
  have h2 : q0.1 = t2 := Option.some.inj (h1.symm.trans hmap)
  rw [← h2]
  exact List.mem_map.mpr ⟨q0, hq0, rfl⟩

/-- CLAIM C4 (amended): on a valid machine — distinct state names, closed
transition targets — whose simulation pointer rests on its unique start
state (the situation immediately after construction), a normal return of
`minimize` yields a table satisfying the data-model invariants: it is
non-empty, its unique `start = true` row is keyed by the new simulation
pointer (in particular exactly one state carries `start = true`), and every
transition target names a state of the table.  The remaining invariant,
that every row carries `start` and `accept` flags, holds structurally for
every `Row`.  Unamended — in an arbitrary simulation state — the claim is
false: see `minimize_start_invariant_counterexample`, where the pointer has
moved off the start state and the reachability prune deletes the only start
row. -/
theorem minimize_fresh_unique_start (m m2 : StateMachine)
    (hnd : (m.fsa.map (·.1)).Nodup) (hcl : ClosedTargets m.fsa)
    (hf : FreshStart m) (hok : minimize m = .ok m2) :
    m2.fsa ≠ [] ∧ startKeys m2.fsa = [m2.state] ∧ ClosedTargets m2.fsa := by
  simp only [minimize] at hok
  split at hok
  · injection hok with h
    subst h
    exact ⟨startKeys_ne_nil m.fsa m.state hf, hf, hcl⟩
  · split at hok
    · exact Except.noConfusion hok
    · rename_i m2a hn1
      split at hok
      · exact Except.noConfusion hok
      · rename_i acc hacc
        split at hok
        · exact Except.noConfusion hok
        · rename_i tf hfl
          split at hok
          · exact Except.noConfusion hok
          · rename_i fsa3 hmg
            split at hok
            · exact Except.noConfusion hok
            · rename_i m4 hn2
              obtain rfl : ({ m4 with is_min := true } : StateMachine) = m2 :=
                Except.ok.inj hok
              have hcl4 : ClosedTargets m4.fsa :=
                normalize_closed { m2a with fsa := fsa3 } m4 hn2
              have hnd1 : ((removeUnreachable m).fsa.map (·.1)).Nodup :=
                hnd.sublist (List.Sublist.map _ (List.filter_sublist _))
              have hf1 : FreshStart (removeUnreachable m) := removeUnreachable_fresh m hf
              have hnd2 : (m2a.fsa.map (·.1)).Nodup := normalize_nodup _ m2a hnd1 hn1
              have hf2 : FreshStart m2a := normalize_fresh _ m2a hf1 hn1
              obtain ⟨e2, hfe2, he21⟩ := freshStart_filter m2a hf2
              obtain ⟨P, mp, hspec⟩ := mergeGroups_spec m2a.fsa _ fsa3 hmg
              cases hPe2 : P e2 with
              | true =>
                have hfsK : startKeys fsa3 = [m2a.state] := by
                  rw [hspec, startKeys_merge_map]
                  unfold startKeys
                  rw [filter_swap, hfe2]
                  simp [List.filter_cons, hPe2, he21]
                have hf4 : FreshStart m4 :=
                  normalize_fresh { m2a with fsa := fsa3 } m4 hfsK hn2
                exact ⟨startKeys_ne_nil m4.fsa m4.state hf4, hf4, hcl4⟩
              | false =>
                exfalso
                have he2mem : e2 ∈ m2a.fsa := by
                  have h0 : e2 ∈ m2a.fsa.filter (·.2.start) := by
                    rw [hfe2]
                    exact List.mem_singleton_self e2
                  exact (List.mem_filter.mp h0).1
                have hnotmem : ¬ m2a.state ∈ fsa3.map (·.1) := by
                  rw [hspec, keys_merge_map]
                  intro hmem
                  obtain ⟨p, hpmem, hp1⟩ := List.mem_map.mp hmem
                  obtain ⟨hpin, hPp⟩ := List.mem_filter.mp hpmem
                  have hpe : p = e2 :=
                    List.inj_on_of_nodup_map hnd2 hpin he2mem (by rw [hp1, he21])
                  rw [hpe, hPe2] at hPp
                  exact Bool.noConfusion hPp
                have hnone := alookup_renameMap_none fsa3 m2a.state hnotmem
                obtain ⟨-, -, hst4, -⟩ := normalize_spec { m2a with fsa := fsa3 } m4 hn2
                exact Option.noConfusion (hnone.symm.trans hst4)

/-- Witness instantiating `minimize_fresh_unique_start` on the fresh
two-state chain machine, whose minimization succeeds unchanged. -/
theorem minimize_fresh_unique_start_witness :
    (chainM0.fsa.map (·.1)).Nodup ∧ ClosedTargets chainM0.fsa ∧
    FreshStart chainM0 ∧ minimize chainM0 = .ok chainMinM ∧
    (chainMinM.fsa ≠ [] ∧ startKeys chainMinM.fsa = [chainMinM.state] ∧
      ClosedTargets chainMinM.fsa) :=
  ⟨by decide, by unfold ClosedTargets; decide, by rfl, by rfl,
    minimize_fresh_unique_start chainM0 chainMinM (by decide)
      (by unfold ClosedTargets; decide) (by rfl) (by rfl)⟩

end PythonFSA
